import Mathlib

/-!
Verification of `src/simplifier.cpp` (meshoptimizer mesh simplification).

Shallow embedding conventions used throughout this file:

* 32-bit `float` values are modelled as exact rationals (`ℚ`).  The source
  computes in IEEE single precision; every property proved below is either
  independent of rounding (control flow driven only by comparisons, counting,
  and index bookkeeping) or is evaluated at inputs on which the rational and
  the floating computation agree exactly.
* `sqrtf` is modelled by `Meshopt.sqrtQ`, which is exact on perfect rational
  squares and a rational under-approximation elsewhere; no claim below
  depends on its value at a non-square.
* Machine `unsigned int` values are naturals; the `~0u` sentinel is the
  explicit constant `2 ^ 32 - 1`, and the hypotheses `vertex_count ≤ 2^32 - 1`
  mirror the source's implicit assumption that vertex indices fit in 32 bits.
* C arrays are total functions `ℕ → α` updated with `Function.update`;
  the index buffer is a `List ℕ` processed three entries (one triangle) at a
  time, exactly as the source's `i += 3` loops do.
* The MurmurHash2 mix over the three position floats' bit patterns
  (`PositionHasher::hash`) has no exact rational counterpart; `posHash`
  substitutes a mix over the rationals' numerators and denominators.  The
  cell-id hash of the sloppy path (`HashCellHasher::hash`) hashes a 32-bit
  integer and is reproduced bit-for-bit.
* The `while` loop of `meshopt_simplify` is embedded with an explicit fuel
  parameter (`index_count + 1` suffices; the stabilisation theorem for claim
  C3 shows the value is fuel-independent from that point on).
* Debug `assert`s are no-ops in release builds and are not part of the
  embedding; `do/while` walks over wedge rings carry a fuel bound of
  `vertex_count`, the maximal ring length.
* The non-default compile-time switches (`SLOP_TARGET_CELLS = 1`,
  `SLOP_TARGET_CELLS_APPROX = 1`, `SLOP_TARGET_BINARY = 1`,
  `SLOP_FILTER_DUPLICATES = 0`, `SLOP_CACHE_ERRORS = 1`) select exactly the
  code paths embedded here.
-/

set_option maxRecDepth 4000

namespace Meshopt

/-- FLT_MAX, the largest finite single-precision value: (2^24 - 1) · 2^104. -/
def fltMax : ℚ := (2 ^ 24 - 1) * 2 ^ 104

/-- Model of `sqrtf`: exact on perfect rational squares (the only values at
which the claims below evaluate it), floor-of-integer-square-root otherwise. -/
def sqrtQ (q : ℚ) : ℚ := if q ≤ 0 then 0 else (Nat.sqrt (q.num.toNat * q.den) : ℚ) / (q.den : ℚ)

/-- Three packed floats of a position (struct Vector3). -/
structure Vector3 where
  x : ℚ
  y : ℚ
  z : ℚ
  deriving DecidableEq

/-- normalize(v): the C function rewrites v in place when its length is
positive and returns the length; here both results are returned as a pair. -/
def normalize (v : Vector3) : Vector3 × ℚ :=
  let length := sqrtQ (v.x * v.x + v.y * v.y + v.z * v.z)
  if 0 < length then (⟨v.x / length, v.y / length, v.z / length⟩, length) else (v, length)

/-- struct Quadric: symmetric 3x3 matrix, 3-vector and scalar in 10 floats. -/
structure Quadric where
  a00 : ℚ
  a10 : ℚ
  a11 : ℚ
  a20 : ℚ
  a21 : ℚ
  a22 : ℚ
  b0 : ℚ
  b1 : ℚ
  b2 : ℚ
  c : ℚ
  deriving DecidableEq

/-- The all-zero quadric (`memset(vertex_quadrics, 0, ...)`). -/
def zeroQuadric : Quadric := ⟨0, 0, 0, 0, 0, 0, 0, 0, 0, 0⟩

/-- quadricAdd(Q, R): componentwise sum. -/
def quadricAdd (Q R : Quadric) : Quadric :=
  ⟨Q.a00 + R.a00, Q.a10 + R.a10, Q.a11 + R.a11, Q.a20 + R.a20, Q.a21 + R.a21,
   Q.a22 + R.a22, Q.b0 + R.b0, Q.b1 + R.b1, Q.b2 + R.b2, Q.c + R.c⟩

/-- quadricMul(Q, s): componentwise scale. -/
def quadricMul (Q : Quadric) (s : ℚ) : Quadric :=
  ⟨Q.a00 * s, Q.a10 * s, Q.a11 * s, Q.a20 * s, Q.a21 * s,
   Q.a22 * s, Q.b0 * s, Q.b1 * s, Q.b2 * s, Q.c * s⟩

/-- quadricError(Q, v): |v^T A v + 2 b^T v + c| with the source's evaluation
order; `fabsf` becomes rational `abs`. -/
def quadricError (Q : Quadric) (v : Vector3) : ℚ :=
  let rx0 := Q.b0 + Q.a10 * v.y
  let ry0 := Q.b1 + Q.a21 * v.z
  let rz0 := Q.b2 + Q.a20 * v.x
  let rx := rx0 * 2 + Q.a00 * v.x
  let ry := ry0 * 2 + Q.a11 * v.y
  let rz := rz0 * 2 + Q.a22 * v.z
  |Q.c + rx * v.x + ry * v.y + rz * v.z|

/-- quadricFromPlane(Q, a, b, c, d): outer product of the plane equation. -/
def quadricFromPlane (a b c d : ℚ) : Quadric :=
  ⟨a * a, b * a, b * b, c * a, c * b, c * c, d * a, d * b, d * c, d * d⟩

/-- quadricFromTriangle: area-weighted plane quadric of the face p0 p1 p2. -/
def quadricFromTriangle (p0 p1 p2 : Vector3) : Quadric :=
  let p10 : Vector3 := ⟨p1.x - p0.x, p1.y - p0.y, p1.z - p0.z⟩
  let p20 : Vector3 := ⟨p2.x - p0.x, p2.y - p0.y, p2.z - p0.z⟩
  let n0 : Vector3 := ⟨p10.y * p20.z - p10.z * p20.y, p10.z * p20.x - p10.x * p20.z,
    p10.x * p20.y - p10.y * p20.x⟩
  let na := normalize n0
  let normal := na.1
  let area := na.2
  let distance := normal.x * p0.x + normal.y * p0.y + normal.z * p0.z
  quadricMul (quadricFromPlane normal.x normal.y normal.z (-distance)) area

/-- quadricFromTriangleEdge: quadric of the virtual plane through edge p0 p1,
perpendicular to the triangle, weighted by squared edge length times weight. -/
def quadricFromTriangleEdge (p0 p1 p2 : Vector3) (weight : ℚ) : Quadric :=
  let na := normalize ⟨p1.x - p0.x, p1.y - p0.y, p1.z - p0.z⟩
  let p10 := na.1
  let length := na.2
  let p20 : Vector3 := ⟨p2.x - p0.x, p2.y - p0.y, p2.z - p0.z⟩
  let p20p := p20.x * p10.x + p20.y * p10.y + p20.z * p10.z
  let nb := normalize ⟨p20.x - p10.x * p20p, p20.y - p10.y * p20p, p20.z - p10.z * p20p⟩
  let normal := nb.1
  let distance := normal.x * p0.x + normal.y * p0.y + normal.z * p0.z
  quadricMul (quadricFromPlane normal.x normal.y normal.z (-distance)) (length * length * weight)

/-- enum VertexKind. -/
inductive VertexKind where
  | Manifold
  | Border
  | Seam
  | Locked
  deriving DecidableEq

/-- kCanCollapse[k0][k1]: rows Manifold {1,1,1,1}, Border {0,1,0,0},
Seam {0,0,1,0}, Locked {0,0,0,0}. -/
def kCanCollapse : VertexKind → VertexKind → Bool
  | .Manifold, _ => true
  | .Border, .Border => true
  | .Seam, .Seam => true
  | _, _ => false

/-- kHasOpposite[k0][k1]: rows Manifold {1,1,1,1}, Border {1,0,1,0},
Seam {1,1,1,1}, Locked {1,0,1,0}. -/
def kHasOpposite : VertexKind → VertexKind → Bool
  | .Manifold, _ => true
  | .Seam, _ => true
  | .Border, .Manifold => true
  | .Border, .Seam => true
  | .Locked, .Manifold => true
  | .Locked, .Seam => true
  | _, _ => false

/-- The 32-bit all-ones sentinel `~0u`. -/
def sentinel : ℕ := 2 ^ 32 - 1

/-- hashBuckets2(count): smallest power of two ≥ count (the source doubles
`buckets` from 1 while `buckets < count`). -/
def hashBuckets2 (count : ℕ) : ℕ := 2 ^ Nat.clog 2 count

/-- The probe loop of hashLookup2: `buckets` is a power of two, so the
source's `& hashmod` is `% buckets`; the probe step is quadratic,
`bucket = (bucket + probe + 1) & hashmod`.  `fuel` counts the remaining
iterations of `for (probe = 0; probe <= hashmod; ++probe)`. -/
def hashLookup2Aux {T : Type} (table : ℕ → T) (buckets : ℕ) (eqEmpty eqKey : T → Bool) :
    ℕ → ℕ → ℕ → Option ℕ
  | 0, _, _ => none
  | fuel + 1, bucket, probe =>
    if eqEmpty (table bucket) then some bucket
    else if eqKey (table bucket) then some bucket
    else hashLookup2Aux table buckets eqEmpty eqKey fuel ((bucket + probe + 1) % buckets) (probe + 1)

/-- hashLookup2: returns the index of the first slot along the probe sequence
whose item is empty or equal to the key; `none` models the unreachable
assert(false) fall-through ("Hash table is full"). -/
def hashLookup2 {T : Type} (table : ℕ → T) (buckets : ℕ) (hashVal : ℕ)
    (eqEmpty eqKey : T → Bool) : Option ℕ :=
  hashLookup2Aux table buckets eqEmpty eqKey buckets (hashVal % buckets) 0

/-- struct EdgeAdjacency: counts/offsets per vertex and the flat half-edge
destination array. -/
structure EdgeAdjacency where
  counts : ℕ → ℕ
  offsets : ℕ → ℕ
  data : ℕ → ℕ

/-- Third sweep of buildEdgeAdjacency: write the three half-edges of each
face, advancing the per-vertex write cursors (the mutated `offsets` copy). -/
def adjacencyFill : List ℕ → (ℕ → ℕ) → (ℕ → ℕ) → (ℕ → ℕ) × (ℕ → ℕ)
  | a :: b :: c :: rest, data, cursor =>
    let data1 := Function.update data (cursor a) b
    let cursor1 := Function.update cursor a (cursor a + 1)
    let data2 := Function.update data1 (cursor1 b) c
    let cursor2 := Function.update cursor1 b (cursor1 b + 1)
    let data3 := Function.update data2 (cursor2 c) a
    let cursor3 := Function.update cursor2 c (cursor2 c + 1)
    adjacencyFill rest data3 cursor3
  | _, data, cursor => (data, cursor)

/-- buildEdgeAdjacency: tally outgoing half-edges, build exclusive prefix
offsets, fill the data array (the source then rewinds the disturbed cursors,
so the resulting `offsets` is the original prefix-sum table kept here). -/
def buildEdgeAdjacency (indices : List ℕ) (vertex_count : ℕ) : EdgeAdjacency :=
  let counts := indices.foldl (fun f x => Function.update f x (f x + 1)) (fun _ => 0)
  let offsets := ((List.range vertex_count).foldl
    (fun (p : (ℕ → ℕ) × ℕ) i => (Function.update p.1 i p.2, p.2 + counts i))
    (fun _ => 0, 0)).1
  let filled := adjacencyFill indices (fun _ => 0) offsets
  ⟨counts, offsets, filled.1⟩

/-- Stand-in for MurmurHash2 over the three position floats' bit patterns
(`PositionHasher::hash`): the same mixing recurrence applied to naturals
derived from the rationals.  `buildPositionRemap`'s results do not depend on
the hash values, only the probe order does. -/
def qWord (q : ℚ) : ℕ := (q.num.natAbs * 2 + (if q.num < 0 then 1 else 0) + q.den * 65599) % 2 ^ 32

/-- One MurmurHash2 mixing round, on 32-bit words. -/
def murmurRound (h k0 : ℕ) : ℕ :=
  let m := 0x5bd1e995
  let k1 := (k0 * m) % 2 ^ 32
  let k2 := Nat.xor k1 (k1 / 2 ^ 24)
  let k3 := (k2 * m) % 2 ^ 32
  Nat.xor ((h * m) % 2 ^ 32) k3

/-- Hash of one position (three words mixed in order). -/
def posHash (v : Vector3) : ℕ := murmurRound (murmurRound (murmurRound 0 (qWord v.x)) (qWord v.y)) (qWord v.z)

/-- First loop of buildPositionRemap: intern each vertex's position in the
hash table; `remap[i]` is the table entry (the first vertex seen with that
position).  The `none` branch models the unreachable table-full assert. -/
def buildRemapFold (positions : ℕ → Vector3) (table_size : ℕ) :
    List ℕ → (ℕ → ℕ) → (ℕ → ℕ) → (ℕ → ℕ) × (ℕ → ℕ)
  | [], table, remap => (table, remap)
  | i :: rest, table, remap =>
    match hashLookup2 table table_size (posHash (positions i))
      (fun t => t = sentinel) (fun t => positions t = positions i) with
    | some e =>
      if table e = sentinel then
        buildRemapFold positions table_size rest (Function.update table e i) (Function.update remap i i)
      else
        buildRemapFold positions table_size rest table (Function.update remap i (table e))
    | none => buildRemapFold positions table_size rest table (Function.update remap i i)

/-- Second loop of buildPositionRemap: splice each non-canonical vertex into
its canonical vertex's wedge ring. -/
def buildWedgeFold (remap : ℕ → ℕ) : List ℕ → (ℕ → ℕ) → (ℕ → ℕ)
  | [], wedge => wedge
  | i :: rest, wedge =>
    if remap i ≠ i then
      let r := remap i
      buildWedgeFold remap rest (Function.update (Function.update wedge i (wedge r)) r i)
    else
      buildWedgeFold remap rest wedge

/-- buildPositionRemap: position-equivalence remap plus the wedge rings. -/
def buildPositionRemap (positions : ℕ → Vector3) (vertex_count : ℕ) : (ℕ → ℕ) × (ℕ → ℕ) :=
  let table_size := hashBuckets2 vertex_count
  let tr := buildRemapFold positions table_size (List.range vertex_count) (fun _ => sentinel) (fun i => i)
  let wedge := buildWedgeFold tr.2 (List.range vertex_count) (fun i => i)
  (tr.2, wedge)

/-- hasEdge(adjacency, a, b): linear scan of a's outgoing half-edges. -/
def hasEdge (adjacency : EdgeAdjacency) (a b : ℕ) : Bool :=
  (List.range (adjacency.counts a)).any (fun i => adjacency.data (adjacency.offsets a + i) = b)

/-- countOpenEdges(adjacency, vertex, &last): number of outgoing half-edges
with no reverse edge, and the last such destination (0 if none, matching the
caller's initialisation of the out-parameter). -/
def countOpenEdges (adjacency : EdgeAdjacency) (vertex : ℕ) : ℕ × ℕ :=
  (List.range (adjacency.counts vertex)).foldl
    (fun (p : ℕ × ℕ) i =>
      let w := adjacency.data (adjacency.offsets vertex + i)
      if hasEdge adjacency w vertex then p else (p.1 + 1, w))
    (0, 0)

/-- The do/while walk of findWedgeEdge, with fuel bounding the wedge ring
length (the ring is a permutation cycle on at most vertex_count vertices). -/
def findWedgeEdgeAux (adjacency : EdgeAdjacency) (wedge : ℕ → ℕ) (a b : ℕ) : ℕ → ℕ → ℕ
  | _, 0 => sentinel
  | v, fuel + 1 =>
    if hasEdge adjacency v b then v
    else
      let v1 := wedge v
      if v1 = a then sentinel else findWedgeEdgeAux adjacency wedge a b v1 fuel

/-- findWedgeEdge(adjacency, wedge, a, b): first wedge of a with a direct
half-edge to b, or the sentinel. -/
def findWedgeEdge (adjacency : EdgeAdjacency) (wedge : ℕ → ℕ) (a b fuel : ℕ) : ℕ :=
  findWedgeEdgeAux adjacency wedge a b a (fuel + 1)

/-- Body of the classifyVertices loop for one canonical vertex i, producing
the updated (result, loop) pair. -/
def classifyStep (adjacency : EdgeAdjacency) (remap wedge : ℕ → ℕ) (vertex_count : ℕ)
    (acc : (ℕ → VertexKind) × (ℕ → ℕ)) (i : ℕ) : (ℕ → VertexKind) × (ℕ → ℕ) :=
  let kind := acc.1
  let loopv := acc.2
  if remap i = i then
    if wedge i = i then
      let ce := countOpenEdges adjacency i
      if ce.1 = 0 then (Function.update kind i .Manifold, loopv)
      else if ce.1 = 1 then (Function.update kind i .Border, Function.update loopv i ce.2)
      else (Function.update kind i .Locked, loopv)
    else if wedge (wedge i) = i then
      let ca := countOpenEdges adjacency i
      let cb := countOpenEdges adjacency (wedge i)
      if ca.1 = 1 ∧ cb.1 = 1 then
        let ao := findWedgeEdge adjacency wedge ca.2 (wedge i) vertex_count
        let bo := findWedgeEdge adjacency wedge cb.2 i vertex_count
        if ao ≠ sentinel ∧ bo ≠ sentinel then
          (Function.update kind i .Seam,
           Function.update (Function.update loopv i ca.2) (wedge i) cb.2)
        else (Function.update kind i .Locked, loopv)
      else (Function.update kind i .Locked, loopv)
    else (Function.update kind i .Locked, loopv)
  else (Function.update kind i (kind (remap i)), loopv)

/-- classifyVertices: kinds (non-canonical vertices inherit their canonical
vertex's kind; the result array is written for every i < vertex_count, so the
initial value is immaterial there) and the loop table (initialised to the
sentinel). -/
def classifyVertices (adjacency : EdgeAdjacency) (remap wedge : ℕ → ℕ) (vertex_count : ℕ) :
    (ℕ → VertexKind) × (ℕ → ℕ) :=
  (List.range vertex_count).foldl (classifyStep adjacency remap wedge vertex_count)
    (fun _ => .Manifold, fun _ => sentinel)

/-- Accumulate the per-axis minima and maxima of rescalePositions' first loop. -/
def minMaxFold (positions : ℕ → Vector3) (vertex_count : ℕ) : Vector3 × Vector3 :=
  (List.range vertex_count).foldl
    (fun (p : Vector3 × Vector3) i =>
      let v := positions i
      (⟨if p.1.x > v.x then v.x else p.1.x, if p.1.y > v.y then v.y else p.1.y,
        if p.1.z > v.z then v.z else p.1.z⟩,
       ⟨if p.2.x < v.x then v.x else p.2.x, if p.2.y < v.y then v.y else p.2.y,
        if p.2.z < v.z then v.z else p.2.z⟩))
    (⟨fltMax, fltMax, fltMax⟩, ⟨-fltMax, -fltMax, -fltMax⟩)

/-- rescalePositions: translate by the minimum corner and scale by the
reciprocal of the largest axis extent (scale 0 when the extent is 0). -/
def rescalePositions (positions : ℕ → Vector3) (vertex_count : ℕ) : ℕ → Vector3 :=
  let mm := minMaxFold positions vertex_count
  let minv := mm.1
  let maxv := mm.2
  let e1 := if maxv.x - minv.x < 0 then 0 else maxv.x - minv.x
  let e2 := if maxv.y - minv.y < e1 then e1 else maxv.y - minv.y
  let extent := if maxv.z - minv.z < e2 then e2 else maxv.z - minv.z
  let scale := if extent = 0 then 0 else 1 / extent
  fun i => ⟨((positions i).x - minv.x) * scale, ((positions i).y - minv.y) * scale,
    ((positions i).z - minv.z) * scale⟩

/-- struct Collapse at the pickEdgeCollapses stage: the third union word holds
the bidirectional flag. -/
structure CollapsePick where
  v0 : ℕ
  v1 : ℕ
  bidi : Bool
  deriving DecidableEq

/-- struct Collapse after rankEdgeCollapses: the union word now holds the
error value (the spec's staged union modelled as two record types). -/
structure Collapse where
  v0 : ℕ
  v1 : ℕ
  error : ℚ
  deriving DecidableEq

/-- struct Collapse as sortEdgeCollapses reads it: the union word viewed as
the raw 32-bit pattern `errorui` of the non-negative error float. -/
structure CollapseU where
  v0 : ℕ
  v1 : ℕ
  errorui : ℕ
  deriving DecidableEq

/-- One directed half-edge considered by pickEdgeCollapses (triangle corner e
to corner e+1), with all four skip guards of the source. -/
def pickEdge (remap : ℕ → ℕ) (kind : ℕ → VertexKind) (loopv : ℕ → ℕ) (i0 i1 : ℕ) :
    List CollapsePick :=
  if remap i0 = remap i1 then []
  else
    let k0 := kind i0
    let k1 := kind i1
    if ¬(kCanCollapse k0 k1 || kCanCollapse k1 k0) then []
    else if kHasOpposite k0 k1 && decide (remap i0 < remap i1) then []
    else if k0 = k1 ∧ (k0 = .Border ∨ k0 = .Seam) ∧ loopv i0 ≠ i1 then []
    else if kCanCollapse k0 k1 && kCanCollapse k1 k0 then [⟨i0, i1, true⟩]
    else
      [⟨if kCanCollapse k0 k1 then i0 else i1, if kCanCollapse k0 k1 then i1 else i0, false⟩]

/-- pickEdgeCollapses: scan each triangle's three directed half-edges in the
source order (a→b, b→c, c→a). -/
def pickEdgeCollapses (remap : ℕ → ℕ) (kind : ℕ → VertexKind) (loopv : ℕ → ℕ) :
    List ℕ → List CollapsePick
  | a :: b :: c :: rest =>
    pickEdge remap kind loopv a b ++ pickEdge remap kind loopv b c ++
      pickEdge remap kind loopv c a ++ pickEdgeCollapses remap kind loopv rest
  | _ => []

/-- rankEdgeCollapses: evaluate both directions of a bidirectional edge (the
same edge twice for unidirectional ones, as in the branchless source) and keep
the direction of minimal error; the error overwrites the union word. -/
def rankEdgeCollapses (vp : ℕ → Vector3) (vq : ℕ → Quadric) (remap : ℕ → ℕ)
    (cs : List CollapsePick) : List Collapse :=
  cs.map (fun c =>
    let i0 := c.v0
    let i1 := c.v1
    let j0 := if c.bidi then i1 else i0
    let j1 := if c.bidi then i0 else i1
    let ei := quadricError (vq (remap i0)) (vp i1)
    let ej := quadricError (vq (remap j0)) (vp j1)
    ⟨if ei ≤ ej then i0 else j0, if ei ≤ ej then i1 else j1, if ei ≤ ej then ei else ej⟩)

/-- The radix key of sortEdgeCollapses: `(errorui << 1) >> (32 - 11)` on a
32-bit word, dropping the (always clear) sign bit and keeping 11 bits. -/
def radixKey (errorui : ℕ) : ℕ := errorui * 2 % 2 ^ 32 / 2 ^ 21

/-- Histogram fill of the counting sort (2048 buckets; every radix key is
< 2^11 so a total function loses nothing). -/
def radixHistogram (keys : List ℕ) : ℕ → ℕ :=
  keys.foldl (fun h k => Function.update h k (h k + 1)) (fun _ => 0)

/-- Exclusive prefix sums of the histogram over the 2048 buckets. -/
def radixOffsets (hist : ℕ → ℕ) : (ℕ → ℕ) × ℕ :=
  (List.range 2048).foldl (fun (p : (ℕ → ℕ) × ℕ) i => (Function.update p.1 i p.2, p.2 + hist i))
    (fun _ => 0, 0)

/-- Placement loop: `sort_order[histogram[key]++] = i` for each record i in
input order. -/
def radixPlace : List (ℕ × ℕ) → (ℕ → ℕ) → (ℕ → ℕ) → (ℕ → ℕ) × (ℕ → ℕ)
  | [], offs, order => (offs, order)
  | ik :: rest, offs, order =>
    radixPlace rest (Function.update offs ik.2 (offs ik.2 + 1))
      (Function.update order (offs ik.2) ik.1)

/-- The complete single-pass counting sort on a list of radix keys, returning
the contents of `sort_order[0 .. n)`. -/
def radixSortOrder (keys : List ℕ) : List ℕ :=
  let offs := (radixOffsets (radixHistogram keys)).1
  let placed := radixPlace keys.enum offs (fun _ => 0)
  (List.range keys.length).map placed.2

/-- sortEdgeCollapses: counting sort of the records by the top 11 bits of the
error's bit pattern. -/
def sortEdgeCollapses (collapses : List CollapseU) : List ℕ :=
  radixSortOrder (collapses.map (fun c => radixKey c.errorui))

/-- The mutable state of one performEdgeCollapses call. -/
structure CollapseState where
  collapse_remap : ℕ → ℕ
  collapse_locked : ℕ → Bool
  vertex_quadrics : ℕ → Quadric
  triangle_collapses : ℕ
  edge_collapses : ℕ

/-- The initial state: identity collapse_remap, nothing locked. -/
def collapseInit (vq : ℕ → Quadric) : CollapseState :=
  ⟨fun i => i, fun _ => false, vq, 0, 0⟩

/-- performEdgeCollapses: walk the records in sorted order; stop at the error
limit or the triangle goal; skip records whose source or target position class
is already locked; otherwise accumulate quadrics, redirect collapse_remap
(both wedges for a seam vertex) and lock both classes. -/
def performEdgeCollapses (collapses : List Collapse) (remap wedge : ℕ → ℕ)
    (kind : ℕ → VertexKind) (triangle_collapse_goal : ℕ) (error_limit : ℚ) :
    List ℕ → CollapseState → CollapseState
  | [], st => st
  | idx :: rest, st =>
    let c := collapses.getD idx ⟨0, 0, 0⟩
    if error_limit < c.error then st
    else if triangle_collapse_goal ≤ st.triangle_collapses then st
    else
      let i0 := c.v0
      let i1 := c.v1
      let r0 := remap i0
      let r1 := remap i1
      if st.collapse_locked r0 || st.collapse_locked r1 then
        performEdgeCollapses collapses remap wedge kind triangle_collapse_goal error_limit rest st
      else
        let vq := Function.update st.vertex_quadrics r1
          (quadricAdd (st.vertex_quadrics r1) (st.vertex_quadrics r0))
        let cr :=
          if kind i0 = .Seam then
            Function.update (Function.update st.collapse_remap i0 i1) (wedge i0) (wedge i1)
          else Function.update st.collapse_remap i0 i1
        let lk := Function.update (Function.update st.collapse_locked r0 true) r1 true
        performEdgeCollapses collapses remap wedge kind triangle_collapse_goal error_limit rest
          ⟨cr, lk, vq, st.triangle_collapses + (if kind i0 = .Border then 1 else 2),
           st.edge_collapses + 1⟩

/-- remapIndexBuffer: substitute collapse_remap on each corner, dropping
triangles with duplicated corners and compacting; the result list is the
written prefix `[0, write)`. -/
def remapIndexBuffer (collapse_remap : ℕ → ℕ) : List ℕ → List ℕ
  | a :: b :: c :: rest =>
    let v0 := collapse_remap a
    let v1 := collapse_remap b
    let v2 := collapse_remap c
    if v0 ≠ v1 ∧ v0 ≠ v2 ∧ v1 ≠ v2 then v0 :: v1 :: v2 :: remapIndexBuffer collapse_remap rest
    else remapIndexBuffer collapse_remap rest
  | _ => []

/-- Observation predicate on the index buffer: some complete triangle contains
the directed edge x → y between consecutive corners (the edges enumerated by
pickEdgeCollapses). -/
def hasTriEdge : List ℕ → ℕ → ℕ → Bool
  | a :: b :: c :: rest, x, y =>
    ((a = x && b = y) || (b = x && c = y) || (c = x && a = y)) || hasTriEdge rest x y
  | _, _, _ => false

/-- remapEdgeLoops: rewrite live loop pointers through collapse_remap, with
the self-loop special case; the source mutates `loop` in place while
iterating, so reads go through the accumulated table. -/
def remapEdgeLoops (loopv : ℕ → ℕ) (vertex_count : ℕ) (collapse_remap : ℕ → ℕ) : ℕ → ℕ :=
  (List.range vertex_count).foldl
    (fun lv i =>
      if lv i ≠ sentinel then
        let l := lv i
        let r := collapse_remap l
        Function.update lv i (if i = r then lv l else r)
      else lv)
    loopv

/-- fillFaceQuadrics: one face quadric per triangle, added to each corner's
remap target (also reused by the sloppy path with `vertex_cells` as remap). -/
def fillFaceQuadrics (vp : ℕ → Vector3) (rm : ℕ → ℕ) : List ℕ → (ℕ → Quadric) → ℕ → Quadric
  | i0 :: i1 :: i2 :: rest, q =>
    let Q := quadricFromTriangle (vp i0) (vp i1) (vp i2)
    let q1 := Function.update q (rm i0) (quadricAdd (q (rm i0)) Q)
    let q2 := Function.update q1 (rm i1) (quadricAdd (q1 (rm i1)) Q)
    let q3 := Function.update q2 (rm i2) (quadricAdd (q2 (rm i2)) Q)
    fillFaceQuadrics vp rm rest q3
  | _, q => q

/-- One directed edge of fillEdgeQuadrics: add the virtual edge quadric when
both endpoints are the same Border/Seam kind and lie on the same edge loop. -/
def edgeQuadricStep (vp : ℕ → Vector3) (rm : ℕ → ℕ) (kind : ℕ → VertexKind) (loopv : ℕ → ℕ)
    (i0 i1 i2 : ℕ) (q : ℕ → Quadric) : ℕ → Quadric :=
  let k0 := kind i0
  let k1 := kind i1
  if k0 ≠ k1 ∨ (k0 ≠ .Border ∧ k0 ≠ .Seam) ∨ loopv i0 ≠ i1 then q
  else
    let edgeWeight : ℚ := if k0 = .Seam then 1 else 10
    let Q := quadricFromTriangleEdge (vp i0) (vp i1) (vp i2) edgeWeight
    let q1 := Function.update q (rm i0) (quadricAdd (q (rm i0)) Q)
    Function.update q1 (rm i1) (quadricAdd (q1 (rm i1)) Q)

/-- fillEdgeQuadrics over the whole index buffer, edges in source order. -/
def fillEdgeQuadrics (vp : ℕ → Vector3) (rm : ℕ → ℕ) (kind : ℕ → VertexKind)
    (loopv : ℕ → ℕ) : List ℕ → (ℕ → Quadric) → ℕ → Quadric
  | i0 :: i1 :: i2 :: rest, q =>
    let q1 := edgeQuadricStep vp rm kind loopv i0 i1 i2 q
    let q2 := edgeQuadricStep vp rm kind loopv i1 i2 i0 q1
    let q3 := edgeQuadricStep vp rm kind loopv i2 i0 i1 q2
    fillEdgeQuadrics vp rm kind loopv rest q3
  | _, q => q

/-- The per-pass error ceiling: `error_goal > target_error ? target_error :
error_goal`. -/
def passErrorLimit (error_goal target_error : ℚ) : ℚ :=
  if target_error < error_goal then target_error else error_goal

/-- The kPassErrorBound headroom factor 1.5f. -/
def kPassErrorBound : ℚ := 3 / 2

/-- The loop-carried state of meshopt_simplify's outer `while`: the working
index buffer (`result`, of logical length result_count), the vertex quadrics
and the loop table. -/
structure SimplifyState where
  buffer : List ℕ
  quadrics : ℕ → Quadric
  loopv : ℕ → ℕ

/-- One iteration of the outer `while` of meshopt_simplify, from
pickEdgeCollapses to remapIndexBuffer; `none` models the two `break`s (no
candidate collapses, or zero collapses performed).  `errBits` models the
reinterpretation of the 32-bit error float as its bit pattern for the radix
sort; every theorem below holds for an arbitrary such reinterpretation. -/
def simplifyPass (vertex_count target_index_count : ℕ) (target_error : ℚ) (errBits : ℚ → ℕ)
    (remap wedge : ℕ → ℕ) (kind : ℕ → VertexKind) (vp : ℕ → Vector3) (st : SimplifyState) :
    Option SimplifyState :=
  let picked := pickEdgeCollapses remap kind st.loopv st.buffer
  if picked.length = 0 then none
  else
    let ranked := rankEdgeCollapses vp st.quadrics remap picked
    let order := radixSortOrder (ranked.map (fun c => radixKey (errBits c.error)))
    let triangle_collapse_goal := (st.buffer.length - target_index_count) / 3
    let edge_collapse_goal := triangle_collapse_goal / 2
    let error_goal :=
      if edge_collapse_goal < ranked.length then
        (ranked.getD (order.getD edge_collapse_goal 0) ⟨0, 0, 0⟩).error * kPassErrorBound
      else fltMax
    let error_limit := passErrorLimit error_goal target_error
    let res := performEdgeCollapses ranked remap wedge kind triangle_collapse_goal error_limit
      order (collapseInit st.quadrics)
    if res.edge_collapses = 0 then none
    else
      some ⟨remapIndexBuffer res.collapse_remap st.buffer, res.vertex_quadrics,
        remapEdgeLoops st.loopv vertex_count res.collapse_remap⟩

/-- The outer `while (result_count > target_index_count)` loop, with explicit
fuel; each productive pass strictly shrinks the buffer (claim C3), so
`index_count + 1` units of fuel always reach the exit. -/
def simplifyLoop (vertex_count target_index_count : ℕ) (target_error : ℚ) (errBits : ℚ → ℕ)
    (remap wedge : ℕ → ℕ) (kind : ℕ → VertexKind) (vp : ℕ → Vector3) :
    ℕ → SimplifyState → SimplifyState
  | 0, st => st
  | fuel + 1, st =>
    if target_index_count < st.buffer.length then
      match simplifyPass vertex_count target_index_count target_error errBits remap wedge kind
        vp st with
      | none => st
      | some st1 =>
        simplifyLoop vertex_count target_index_count target_error errBits remap wedge kind vp
          fuel st1
    else st

/-- meshopt_simplify.  The position stream with its byte stride is abstracted
to the function `positions` (only the three leading floats of each slot are
ever read); the destination is returned as (result_count, written contents),
modelling the non-aliased case in which the source memcpy's the input into
`result` first. -/
def meshopt_simplify (indices : List ℕ) (positions : ℕ → Vector3)
    (vertex_count target_index_count : ℕ) (target_error : ℚ) (errBits : ℚ → ℕ) :
    ℕ × List ℕ :=
  let adjacency := buildEdgeAdjacency indices vertex_count
  let rw := buildPositionRemap positions vertex_count
  let kl := classifyVertices adjacency rw.1 rw.2 vertex_count
  let vp := rescalePositions positions vertex_count
  let vq := fillEdgeQuadrics vp rw.1 kl.1 kl.2 indices
    (fillFaceQuadrics vp rw.1 indices (fun _ => zeroQuadric))
  let final := simplifyLoop vertex_count target_index_count target_error errBits rw.1 rw.2 kl.1
    vp (indices.length + 1) ⟨indices, vq, kl.2⟩
  (final.buffer.length, final.buffer)

/-- C's `int(f)` conversion: truncation toward zero (equal to the floor for
the non-negative arguments produced by rescaled positions). -/
def intOfFloat (q : ℚ) : ℤ := if q < 0 then -⌊-q⌋ else ⌊q⌋

/-- One grid coordinate of the sloppy path's binary sizing:
`int(v.x * 1023.5f + 0.5f)`.  Note the source applies no clamp. -/
def gridCoord (x : ℚ) : ℤ := intOfFloat (x * 1023.5 + 0.5)

/-- The packed 30-bit cell id `(xi << 20) | (yi << 10) | zi` (the coordinates
of rescaled positions are non-negative, so the `Int.toNat` casts are exact). -/
def vertexId (v : Vector3) : ℕ :=
  ((gridCoord v.x).toNat <<< 20) ||| ((gridCoord v.y).toNat <<< 10) ||| (gridCoord v.z).toNat

/-- HashCellHasher::hash: the MurmurHash2 finaliser on the 32-bit cell id,
reproduced bit-for-bit. -/
def cellHash (id : ℕ) : ℕ :=
  let h1 := Nat.xor id (id / 2 ^ 13)
  let h2 := h1 * 0x5bd1e995 % 2 ^ 32
  Nat.xor h2 (h2 / 2 ^ 15)

/-- struct HashCell. -/
structure HashCell where
  id : ℕ
  cell : ℕ
  deriving DecidableEq

/-- The binary sizing mask for a pass: `maskc = 1023 & ~((1 << (9 - pass)) - 1)`
(clearing the low 9 - pass bits of 1023) replicated into the three axis
fields. -/
def sloppyMask (pass : ℕ) : ℕ :=
  let maskc := 1023 - (2 ^ (9 - pass) - 1)
  (maskc <<< 20) ||| (maskc <<< 10) ||| maskc

/-- One pass of the approximate (Bloom-style single-bit table) cell counter. -/
def countApproxFold (ids : ℕ → ℕ) (mask cts : ℕ) : List ℕ → (ℕ → Bool) → ℕ → ℕ
  | [], _, cc => cc
  | i :: rest, tbl, cc =>
    let h := cellHash (Nat.land (ids i) mask) % cts
    if tbl h then countApproxFold ids mask cts rest tbl cc
    else countApproxFold ids mask cts rest (Function.update tbl h true) (cc + 1)

/-- The approximate non-empty-cell count for one mask. -/
def countApprox (ids : ℕ → ℕ) (vertex_count mask cts : ℕ) : ℕ :=
  countApproxFold ids mask cts (List.range vertex_count) (fun _ => false) 0

/-- The `for (pass = 0; pass < 10; ++pass)` mask search: stop at the first
pass whose approximate count reaches the target (the mask of pass 9 survives
when none does). -/
def approxMaskAux (count : ℕ → ℕ) (target_cell_count : ℕ) : ℕ → ℕ → ℕ
  | 0, pass => pass
  | fuel + 1, pass =>
    if target_cell_count ≤ count pass ∨ pass = 9 then pass
    else approxMaskAux count target_cell_count fuel (pass + 1)

/-- The exact fill pass: assign each vertex its cell index via the cell hash
table, numbering new cells in first-encounter order.  The `none` branch
models the unreachable table-full assert (the table has ≥ vertex_count
slots). -/
def cellFillFold (ids : ℕ → ℕ) (mask table_size : ℕ) :
    List ℕ → (ℕ → HashCell) → ℕ → (ℕ → ℕ) → (ℕ → HashCell) × ℕ × (ℕ → ℕ)
  | [], table, cc, vcells => (table, cc, vcells)
  | i :: rest, table, cc, vcells =>
    let id := Nat.land (ids i) mask
    match hashLookup2 table table_size (cellHash id)
      (fun h => h.id = sentinel) (fun h => h.id = id) with
    | some e =>
      if (table e).id = sentinel then
        cellFillFold ids mask table_size rest (Function.update table e ⟨id, cc⟩) (cc + 1)
          (Function.update vcells i cc)
      else
        cellFillFold ids mask table_size rest table cc (Function.update vcells i ((table e).cell))
    | none => cellFillFold ids mask table_size rest table cc (Function.update vcells i 0)

/-- Third pass of the sloppy path: keep, per cell, the vertex of minimal
quadric error, caching errors (SLOP_CACHE_ERRORS). -/
def cellRemapFold (vcells : ℕ → ℕ) (cq : ℕ → Quadric) (vp : ℕ → Vector3) :
    List ℕ → (ℕ → ℕ) → (ℕ → ℚ) → (ℕ → ℕ) × (ℕ → ℚ)
  | [], cr, cerr => (cr, cerr)
  | i :: rest, cr, cerr =>
    let cell := vcells i
    if cr cell = sentinel then
      cellRemapFold vcells cq vp rest (Function.update cr cell i)
        (Function.update cerr cell (quadricError (cq cell) (vp i)))
    else
      let j := cr cell
      let ei := quadricError (cq cell) (vp i)
      let ej := cerr cell
      cellRemapFold vcells cq vp rest (Function.update cr cell (if ei < ej then i else j))
        (Function.update cerr cell (if ei < ej then ei else ej))

/-- Fourth pass of the sloppy path: emit triangles against the cell
representatives, dropping degenerates (SLOP_FILTER_DUPLICATES is off). -/
def sloppyEmit (vcells cr : ℕ → ℕ) : List ℕ → List ℕ
  | a :: b :: c :: rest =>
    let v0 := cr (vcells a)
    let v1 := cr (vcells b)
    let v2 := cr (vcells c)
    if v0 ≠ v1 ∧ v0 ≠ v2 ∧ v1 ≠ v2 then v0 :: v1 :: v2 :: sloppyEmit vcells cr rest
    else sloppyEmit vcells cr rest
  | _ => []

/-- meshopt_simplifySloppy.  `target_error` is received and ignored exactly as
in the source (`(void)target_error; // TODO`). -/
def meshopt_simplifySloppy (indices : List ℕ) (positions : ℕ → Vector3)
    (vertex_count target_index_count : ℕ) (target_error : ℚ) : ℕ × List ℕ :=
  let target_cell_count := target_index_count / 6
  if target_cell_count = 0 then (0, [])
  else
    let vp := rescalePositions positions vertex_count
    let table_size := hashBuckets2 vertex_count
    let ids := fun i => vertexId (vp i)
    let cts := hashBuckets2 (target_cell_count * 4)
    let pass := approxMaskAux (fun p => countApprox ids vertex_count (sloppyMask p) cts)
      target_cell_count 10 0
    let mask := sloppyMask pass
    let fill := cellFillFold ids mask table_size (List.range vertex_count)
      (fun _ => ⟨sentinel, 0⟩) 0 (fun _ => 0)
    let vcells := fill.2.2
    let cq := fillFaceQuadrics vp vcells indices (fun _ => zeroQuadric)
    let crm := cellRemapFold vcells cq vp (List.range vertex_count)
      (fun _ => sentinel) (fun _ => 0)
    let out := sloppyEmit vcells crm.1 indices
    (out.length, out)

/-- Spec-side predicate ("corner distinctness"): every complete triangle of
the buffer has three pairwise different indices. -/
def trianglesDistinctB : List ℕ → Bool
  | a :: b :: c :: rest => (a ≠ b && a ≠ c && b ≠ c) && trianglesDistinctB rest
  | _ => true

/-- Spec-side predicate for claim C5 ("ascending error, ties broken by input
order"): consecutive entries of the order have non-decreasing error words,
equal errors keeping input order.  (For non-negative floats the value order
and the bit-pattern order of `errorui` agree.) -/
def ascendingErrorStableB (collapses : List CollapseU) : List ℕ → Bool
  | a :: b :: rest =>
    let ea := (collapses.getD a ⟨0, 0, 0⟩).errorui
    let eb := (collapses.getD b ⟨0, 0, 0⟩).errorui
    (ea < eb || (ea = eb && a < b)) && ascendingErrorStableB collapses (b :: rest)
  | _ => true

/-- The running invariant of performEdgeCollapses (observed against a fixed
position remap and index buffer): every moved vertex has its position class
locked, and once a collapse has been applied some directed triangle edge
x → y of the buffer has been contracted (collapse_remap sends x to y and
fixes y). -/
def collapseInv (remap : ℕ → ℕ) (buffer : List ℕ) (st : CollapseState) : Prop :=
  (∀ v, st.collapse_remap v ≠ v → st.collapse_locked (remap v) = true) ∧
  (st.edge_collapses ≠ 0 → ∃ x y,
    (hasTriEdge buffer x y = true ∨ hasTriEdge buffer y x = true) ∧ x ≠ y ∧
    st.collapse_remap x = y ∧ st.collapse_remap y = y)

/-! ## Theorems -/

/-- C9.  (Spec: "Given identical input, output is bit-identical across runs";
"[the sloppy path] ignores `target_error` entirely".)  Both entry points are
pure functions of their inputs, so two runs on identical inputs coincide
definitionally, and meshopt_simplifySloppy never reads `target_error`: runs
differing only in `target_error` return identical counts and contents. -/
theorem claim_C9_determinism :
    (∀ indices positions vertex_count target_index_count (e1 e2 : ℚ),
      meshopt_simplifySloppy indices positions vertex_count target_index_count e1 =
        meshopt_simplifySloppy indices positions vertex_count target_index_count e2) ∧
    (∀ indices positions vertex_count target_index_count target_error errBits,
      meshopt_simplify indices positions vertex_count target_index_count target_error errBits =
        meshopt_simplify indices positions vertex_count target_index_count target_error
          errBits) :=
  ⟨fun _ _ _ _ _ _ => rfl, fun _ _ _ _ _ _ => rfl⟩

/-- C4.  With `target_index_count = index_count` the guard of the outer
`while` fails immediately, so meshopt_simplify returns `index_count` and the
destination holds the input verbatim (the model returns the written contents,
i.e. the non-aliased memcpy of the input) — for every input, degenerate
triangles included. -/
theorem claim_C4_full_target_identity :
    ∀ indices positions vertex_count (target_error : ℚ) errBits,
      meshopt_simplify indices positions vertex_count indices.length target_error errBits =
        (indices.length, indices) := by
  intro indices positions vertex_count target_error errBits
  simp [meshopt_simplify, simplifyLoop]

/-- C8 counterexample.  At a rescaled component of exactly 1 (attained by the
extremal vertex of the largest axis), `int(v.x * 1023.5f + 0.5f)` is 1024,
outside [0, 1023]: the source applies no clamp, so the claimed 10-bit bound
fails.  (The float computation at x = 1 is exact, so the rational model
agrees with it bit-for-bit here.) -/
theorem claim_C8_counterexample : gridCoord 1 = 1024 ∧ ¬(gridCoord 1 ≤ 1023) := by
  constructor
  · show intOfFloat (1 * 1023.5 + 0.5) = 1024
    norm_num [intOfFloat]
  · show ¬(intOfFloat (1 * 1023.5 + 0.5) ≤ 1023)
    norm_num [intOfFloat]

/-- C8 amended.  For rescaled components in [0, 1] the unclamped grid
coordinate lies in [0, 1024]; it lies in [0, 1023] exactly on [0, 1), the
value 1024 (overflowing the 10-bit field) occurring only at a component of
exactly 1. -/
theorem claim_C8_grid_coordinate_range :
    ∀ x : ℚ, (0 ≤ x → 0 ≤ gridCoord x) ∧ (x ≤ 1 → gridCoord x ≤ 1024) ∧
      (0 ≤ x → x < 1 → gridCoord x ≤ 1023) := by
  intro x
  have harg : ∀ y : ℚ, 0 ≤ y → ¬(y * 1023.5 + 0.5 < 0) := by
    intro y hy
    push_neg
    positivity
  refine ⟨?_, ?_, ?_⟩
  · intro hx
    unfold gridCoord intOfFloat
    rw [if_neg (harg x hx)]
    have : (0 : ℚ) ≤ x * 1023.5 + 0.5 := by positivity
    exact Int.floor_nonneg.mpr this
  · intro hx
    have hq : x * 1023.5 + 0.5 ≤ 1024 := by nlinarith
    unfold gridCoord intOfFloat
    by_cases hneg : x * 1023.5 + 0.5 < 0
    · rw [if_pos hneg]
      have : (0 : ℤ) ≤ ⌊-(x * 1023.5 + 0.5)⌋ := Int.floor_nonneg.mpr (by linarith)
      omega
    · rw [if_neg hneg]
      calc ⌊x * 1023.5 + 0.5⌋ ≤ ⌊(1024 : ℚ)⌋ := Int.floor_le_floor hq
        _ = 1024 := by norm_num
  · intro hx0 hx1
    have hq : x * 1023.5 + 0.5 < 1024 := by nlinarith
    unfold gridCoord intOfFloat
    rw [if_neg (harg x hx0)]
    have : ⌊x * 1023.5 + 0.5⌋ < 1024 := Int.floor_lt.mpr (by exact_mod_cast hq)
    omega

/-- C8 witness: the bounds at the concrete component 1/2 (coordinate 512). -/
theorem claim_C8_grid_coordinate_range_witness :
    0 ≤ gridCoord (1 / 2) ∧ gridCoord (1 / 2) ≤ 1023 :=
  ⟨(claim_C8_grid_coordinate_range (1 / 2)).1 (by norm_num),
   (claim_C8_grid_coordinate_range (1 / 2)).2.2 (by norm_num) (by norm_num)⟩

/-- k(k+1)/2 + (k+1) = (k+1)(k+2)/2. -/
theorem triangular_succ (k : ℕ) : (k + 1) * (k + 2) / 2 = k * (k + 1) / 2 + (k + 1) := by
  have h : (k + 1) * (k + 2) = k * (k + 1) + (k + 1) * 2 := by ring
  rw [h, Nat.add_mul_div_right _ _ (by norm_num : 0 < 2)]

/-- 2 · (k(k+1)/2) = k(k+1). -/
theorem triangular_two_mul (k : ℕ) : k * (k + 1) / 2 * 2 = k * (k + 1) :=
  Nat.div_mul_cancel (Nat.even_mul_succ_self k).two_dvd

/-- Distinct triangular numbers below 2^m stay distinct modulo 2^m: the
quadratic probe keys of hashLookup2 do not collide within one sweep. -/
theorem triangular_mod_inj (m : ℕ) :
    ∀ i j, i < 2 ^ m → j < 2 ^ m →
      i * (i + 1) / 2 % 2 ^ m = j * (j + 1) / 2 % 2 ^ m → i = j := by
  have main : ∀ i j, i ≤ j → j < 2 ^ m →
      i * (i + 1) / 2 % 2 ^ m = j * (j + 1) / 2 % 2 ^ m → i = j := by
    intro i j hij hj hmod
    by_contra hne
    have hlt : i < j := lt_of_le_of_ne hij hne
    have hTle : i * (i + 1) / 2 ≤ j * (j + 1) / 2 :=
      Nat.div_le_div_right (Nat.mul_le_mul (le_of_lt hlt) (by omega))
    have hdvd : 2 ^ m ∣ j * (j + 1) / 2 - i * (i + 1) / 2 :=
      (Nat.modEq_iff_dvd' hTle).mp hmod
    set D := j - i with hD
    set S := i + j + 1 with hS
    have hDS : (j * (j + 1) / 2 - i * (i + 1) / 2) * 2 = D * S := by
      have h1 : (j * (j + 1) / 2 - i * (i + 1) / 2) * 2 =
          j * (j + 1) / 2 * 2 - i * (i + 1) / 2 * 2 := Nat.sub_mul _ _ 2
      rw [h1, triangular_two_mul, triangular_two_mul]
      have : i * (i + 1) + D * S = j * (j + 1) := by
        have : i + D = j := by omega
        nlinarith [this]
      omega
    have hdvd2 : 2 ^ (m + 1) ∣ D * S := by
      rcases hdvd with ⟨t, ht⟩
      exact ⟨t, by rw [← hDS, ht]; ring⟩
    have hparity : Odd (D + S) := by
      have : D + S = 2 * j + 1 := by omega
      rw [this]
      exact ⟨j, by ring⟩
    have hDpos : 0 < D := by omega
    have hDlt : D < 2 ^ (m + 1) := by
      have : D < 2 ^ m := by omega
      calc D < 2 ^ m := this
        _ ≤ 2 ^ (m + 1) := Nat.pow_le_pow_right (by norm_num) (by omega)
    have hSpos : 0 < S := by omega
    have hSlt : S < 2 ^ (m + 1) := by
      have h2m : 2 ^ (m + 1) = 2 ^ m + 2 ^ m := by rw [pow_succ]; ring
      omega
    rcases Nat.even_or_odd D with hDeven | hDodd
    · have hSodd : Odd S := by
        rcases hparity with ⟨t, ht⟩
        rcases hDeven with ⟨u, hu⟩
        exact ⟨t - u, by omega⟩
      have hcop : Nat.Coprime (2 ^ (m + 1)) S :=
        Nat.Coprime.pow_left _ (Nat.coprime_two_left.mpr hSodd)
      have : 2 ^ (m + 1) ∣ D := hcop.dvd_of_dvd_mul_right hdvd2
      have := Nat.eq_zero_of_dvd_of_lt this hDlt
      omega
    · have hcop : Nat.Coprime (2 ^ (m + 1)) D :=
        Nat.Coprime.pow_left _ (Nat.coprime_two_left.mpr hDodd)
      have : 2 ^ (m + 1) ∣ S := hcop.dvd_of_dvd_mul_left hdvd2
      have := Nat.eq_zero_of_dvd_of_lt this hSlt
      omega
  intro i j hi hj hmod
  rcases le_total i j with h | h
  · exact main i j h hj hmod
  · exact (main j i h hi hmod.symm).symm

/-- The quadratic probe sequence starting anywhere covers every bucket of a
power-of-two table within 2^m probes. -/
theorem probe_coverage (m h : ℕ) :
    ∀ t, t < 2 ^ m → ∃ k, k < 2 ^ m ∧ (h + k * (k + 1) / 2) % 2 ^ m = t := by
  intro t ht
  have hpos : 0 < 2 ^ m := Nat.pos_pow_of_pos m (by norm_num)
  let f : Fin (2 ^ m) → Fin (2 ^ m) := fun k =>
    ⟨(h + k.1 * (k.1 + 1) / 2) % 2 ^ m, Nat.mod_lt _ hpos⟩
  have hinj : Function.Injective f := by
    intro a b hab
    have h1 : (h + a.1 * (a.1 + 1) / 2) % 2 ^ m = (h + b.1 * (b.1 + 1) / 2) % 2 ^ m :=
      congrArg Fin.val hab
    have h2 : a.1 * (a.1 + 1) / 2 % 2 ^ m = b.1 * (b.1 + 1) / 2 % 2 ^ m :=
      Nat.ModEq.add_left_cancel (Nat.ModEq.refl h) h1
    exact Fin.ext (triangular_mod_inj m a.1 b.1 a.2 b.2 h2)
  have hsurj : Function.Surjective f := Finite.injective_iff_surjective.mp hinj
  rcases hsurj ⟨t, ht⟩ with ⟨k, hk⟩
  exact ⟨k.1, k.2, congrArg Fin.val hk⟩

/-- Stepping the probe: the next bucket of the loop is the bucket of the next
triangular key. -/
theorem probe_step (b h p : ℕ) (hb : 0 < b) :
    ((h + p * (p + 1) / 2) % b + p + 1) % b = (h + (p + 1) * (p + 2) / 2) % b := by
  conv_lhs => rw [Nat.add_assoc, Nat.mod_add_mod]
  rw [triangular_succ]
  ring_nf

/-- If some probed bucket satisfies the empty-or-equal test within the
remaining fuel, the loop of hashLookup2 returns a slot. -/
theorem hashLookup2Aux_isSome {T : Type} (table : ℕ → T) (b : ℕ) (eqEmpty eqKey : T → Bool)
    (h : ℕ) (hb : 0 < b) :
    ∀ fuel p,
      (∃ j, j < fuel ∧ (eqEmpty (table ((h + (p + j) * (p + j + 1) / 2) % b)) = true ∨
        eqKey (table ((h + (p + j) * (p + j + 1) / 2) % b)) = true)) →
      (hashLookup2Aux table b eqEmpty eqKey fuel ((h + p * (p + 1) / 2) % b) p).isSome =
        true := by
  intro fuel
  induction fuel with
  | zero => intro p hex; rcases hex with ⟨j, hj, _⟩; omega
  | succ n ih =>
    intro p hex
    rw [hashLookup2Aux]
    by_cases he : eqEmpty (table ((h + p * (p + 1) / 2) % b)) = true
    · simp [he]
    by_cases hk : eqKey (table ((h + p * (p + 1) / 2) % b)) = true
    · simp [he, hk]
    · simp only [he, hk, if_false, Bool.false_eq_true]
      have hstep : ((h + p * (p + 1) / 2) % b + p + 1) % b =
          (h + (p + 1) * (p + 1 + 1) / 2) % b := by
        have := probe_step b h p hb
        simpa using this
      rw [hstep]
      apply ih (p + 1)
      rcases hex with ⟨j, hj, hp⟩
      rcases Nat.eq_zero_or_pos j with hj0 | hjpos
      · subst hj0
        simp only [Nat.add_zero] at hp
        rcases hp with hp | hp
        · exact absurd hp he
        · exact absurd hp hk
      · refine ⟨j - 1, by omega, ?_⟩
        have harith : p + 1 + (j - 1) = p + j := by omega
        rw [harith]
        exact hp

/-- C10.  For a power-of-two bucket count and any table containing a slot that
is empty or matches the key, hashLookup2 returns a slot (never the null of the
"Hash table is full" fall-through) within `buckets` probes: the quadratic
probe sequence `bucket += probe + 1` visits every bucket. -/
theorem claim_C10_hash_probe_complete :
    ∀ (T : Type) (table : ℕ → T) (eqEmpty eqKey : T → Bool) (m h : ℕ),
      (∃ j, j < 2 ^ m ∧ (eqEmpty (table j) = true ∨ eqKey (table j) = true)) →
      (hashLookup2 table (2 ^ m) h eqEmpty eqKey).isSome = true := by
  intro T table eqEmpty eqKey m h hex
  rcases hex with ⟨j, hj, hpred⟩
  rcases probe_coverage m h j hj with ⟨k, hk, hkey⟩
  unfold hashLookup2
  have h0 : h % 2 ^ m = (h + 0 * (0 + 1) / 2) % 2 ^ m := by norm_num
  rw [h0]
  apply hashLookup2Aux_isSome table (2 ^ m) eqEmpty eqKey h (Nat.pos_pow_of_pos m (by norm_num))
  exact ⟨k, hk, by rw [Nat.zero_add, hkey]; exact hpred⟩

/-- C10 witness: a concrete 2-bucket table whose slot 0 is empty. -/
theorem claim_C10_hash_probe_complete_witness :
    (hashLookup2 (fun _ : ℕ => (0 : ℕ)) (2 ^ 1) 5 (fun t => t == 0) (fun t => t == 7)).isSome =
      true :=
  claim_C10_hash_probe_complete ℕ (fun _ => 0) (fun t => t == 0) (fun t => t == 7) 1 5
    ⟨0, by norm_num, Or.inl (by decide)⟩

/-- A getD access hits a member of the list or falls back to the default. -/
theorem getD_mem_or_default {α : Type} (l : List α) (i : ℕ) (d : α) :
    l.getD i d ∈ l ∨ l.getD i d = d := by
  by_cases h : i < l.length
  · left
    rw [List.getD_eq_getElem l d h]
    exact List.getElem_mem h
  · right
    exact List.getD_eq_default l d (le_of_not_lt h)

/-- Every vertex moved by performEdgeCollapses was moved by a record of the
collapse list whose error passed the `error > error_limit` cutoff, either as
the record's source vertex v0 or as v0's seam wedge. -/
theorem performEdgeCollapses_moved (cs : List Collapse) (remap wedge : ℕ → ℕ)
    (kind : ℕ → VertexKind) (goal : ℕ) (limit : ℚ) :
    ∀ (order : List ℕ) (st : CollapseState),
      (∀ v, st.collapse_remap v ≠ v →
        ∃ c ∈ cs, c.error ≤ limit ∧ (v = c.v0 ∨ v = wedge c.v0)) →
      ∀ v,
        (performEdgeCollapses cs remap wedge kind goal limit order st).collapse_remap v ≠ v →
        ∃ c ∈ cs, c.error ≤ limit ∧ (v = c.v0 ∨ v = wedge c.v0) := by
  intro order
  induction order with
  | nil =>
    intro st hinv v hm
    rw [performEdgeCollapses] at hm
    exact hinv v hm
  | cons idx rest ih =>
    intro st hinv v hm
    rw [performEdgeCollapses] at hm
    by_cases h1 : limit < (cs.getD idx ⟨0, 0, 0⟩).error
    · rw [if_pos h1] at hm
      exact hinv v hm
    rw [if_neg h1] at hm
    by_cases h2 : goal ≤ st.triangle_collapses
    · rw [if_pos h2] at hm
      exact hinv v hm
    rw [if_neg h2] at hm
    by_cases h3 : (st.collapse_locked (remap (cs.getD idx ⟨0, 0, 0⟩).v0) ||
        st.collapse_locked (remap (cs.getD idx ⟨0, 0, 0⟩).v1)) = true
    · rw [if_pos h3] at hm
      exact ih st hinv v hm
    rw [if_neg h3] at hm
    set c := cs.getD idx ⟨0, 0, 0⟩ with hcdef
    replace hm : (performEdgeCollapses cs remap wedge kind goal limit rest
        ⟨(if kind c.v0 = VertexKind.Seam then
            Function.update (Function.update st.collapse_remap c.v0 c.v1) (wedge c.v0)
              (wedge c.v1)
          else Function.update st.collapse_remap c.v0 c.v1),
         Function.update (Function.update st.collapse_locked (remap c.v0) true) (remap c.v1)
           true,
         Function.update st.vertex_quadrics (remap c.v1)
           (quadricAdd (st.vertex_quadrics (remap c.v1)) (st.vertex_quadrics (remap c.v0))),
         st.triangle_collapses + (if kind c.v0 = VertexKind.Border then 1 else 2),
         st.edge_collapses + 1⟩).collapse_remap v ≠ v := hm
    refine ih _ ?_ v hm
    intro w hw
    replace hw : (if kind c.v0 = VertexKind.Seam then
        Function.update (Function.update st.collapse_remap c.v0 c.v1) (wedge c.v0) (wedge c.v1)
      else Function.update st.collapse_remap c.v0 c.v1) w ≠ w := hw
    rcases getD_mem_or_default cs idx ⟨0, 0, 0⟩ with hmem | hdef
    · rw [← hcdef] at hmem
      by_cases hseam : kind c.v0 = VertexKind.Seam
      · rw [if_pos hseam] at hw
        by_cases hw0 : w = wedge c.v0
        · exact ⟨c, hmem, le_of_not_lt h1, Or.inr hw0⟩
        · by_cases hw1 : w = c.v0
          · exact ⟨c, hmem, le_of_not_lt h1, Or.inl hw1⟩
          · rw [Function.update_noteq hw0, Function.update_noteq hw1] at hw
            exact hinv w hw
      · rw [if_neg hseam] at hw
        by_cases hw1 : w = c.v0
        · exact ⟨c, hmem, le_of_not_lt h1, Or.inl hw1⟩
        · rw [Function.update_noteq hw1] at hw
          exact hinv w hw
    · rw [← hcdef] at hdef
      rw [hdef] at hw
      simp only at hw
      by_cases hseam : kind 0 = VertexKind.Seam
      · rw [if_pos hseam] at hw
        by_cases hw0 : w = wedge 0
        · rw [hw0, Function.update_same] at hw
          exact absurd rfl hw
        · by_cases hw1 : w = 0
          · subst hw1
            rw [Function.update_noteq hw0, Function.update_same] at hw
            exact absurd rfl hw
          · rw [Function.update_noteq hw0, Function.update_noteq hw1] at hw
            exact hinv w hw
      · rw [if_neg hseam] at hw
        by_cases hw1 : w = 0
        · subst hw1
          rw [Function.update_same] at hw
          exact absurd rfl hw
        · rw [Function.update_noteq hw1] at hw
          exact hinv w hw

/-- C1.  (1) Starting from the identity collapse_remap, every vertex that
performEdgeCollapses moves was moved by a record whose recorded error is
≤ the pass error_limit (the loop breaks at the first record exceeding it);
(2) the pass limit `error_goal > target_error ? target_error : error_goal`
computed by meshopt_simplify never exceeds target_error; (3) recorded errors
after rankEdgeCollapses are non-negative (quadricError is an absolute value);
(4) hence with target_error = 0 only records of exactly zero error ever move
a vertex. -/
theorem claim_C1_error_bound :
    (∀ (collapses : List Collapse) (order : List ℕ) (remap wedge : ℕ → ℕ)
        (kind : ℕ → VertexKind) (goal : ℕ) (limit : ℚ) (vq : ℕ → Quadric) (v : ℕ),
      (performEdgeCollapses collapses remap wedge kind goal limit order
          (collapseInit vq)).collapse_remap v ≠ v →
      ∃ c ∈ collapses, c.error ≤ limit ∧ (v = c.v0 ∨ v = wedge c.v0)) ∧
    (∀ error_goal target_error : ℚ, passErrorLimit error_goal target_error ≤ target_error) ∧
    (∀ (vp : ℕ → Vector3) (vq : ℕ → Quadric) (remap : ℕ → ℕ) (cs : List CollapsePick),
      ∀ c ∈ rankEdgeCollapses vp vq remap cs, 0 ≤ c.error) ∧
    (∀ (collapses : List Collapse) (order : List ℕ) (remap wedge : ℕ → ℕ)
        (kind : ℕ → VertexKind) (goal : ℕ) (error_goal : ℚ) (vq : ℕ → Quadric) (v : ℕ),
      (∀ c ∈ collapses, 0 ≤ c.error) →
      (performEdgeCollapses collapses remap wedge kind goal (passErrorLimit error_goal 0)
          order (collapseInit vq)).collapse_remap v ≠ v →
      ∃ c ∈ collapses, c.error = 0 ∧ (v = c.v0 ∨ v = wedge c.v0)) := by
  have part1 : ∀ (collapses : List Collapse) (order : List ℕ) (remap wedge : ℕ → ℕ)
      (kind : ℕ → VertexKind) (goal : ℕ) (limit : ℚ) (vq : ℕ → Quadric) (v : ℕ),
      (performEdgeCollapses collapses remap wedge kind goal limit order
          (collapseInit vq)).collapse_remap v ≠ v →
      ∃ c ∈ collapses, c.error ≤ limit ∧ (v = c.v0 ∨ v = wedge c.v0) := by
    intro collapses order remap wedge kind goal limit vq v hm
    refine performEdgeCollapses_moved collapses remap wedge kind goal limit order
      (collapseInit vq) ?_ v hm
    intro w hw
    exact absurd rfl hw
  have part2 : ∀ error_goal target_error : ℚ,
      passErrorLimit error_goal target_error ≤ target_error := by
    intro g t
    unfold passErrorLimit
    by_cases h : t < g
    · rw [if_pos h]
    · rw [if_neg h]
      exact le_of_not_lt h
  refine ⟨part1, part2, ?_, ?_⟩
  · intro vp vq remap cs c hc
    rcases List.mem_map.mp hc with ⟨p, _, hp⟩
    subst hp
    simp only
    by_cases h : quadricError (vq (remap p.v0)) (vp p.v1) ≤
        quadricError (vq (remap (if p.bidi then p.v1 else p.v0)))
          (vp (if p.bidi then p.v0 else p.v1))
    · rw [if_pos h]
      exact abs_nonneg _
    · rw [if_neg h]
      exact abs_nonneg _
  · intro collapses order remap wedge kind goal error_goal vq v hnn hm
    rcases part1 collapses order remap wedge kind goal (passErrorLimit error_goal 0) vq v hm
      with ⟨c, hmem, hle, hv⟩
    exact ⟨c, hmem, le_antisymm (le_trans hle (part2 error_goal 0)) (hnn c hmem), hv⟩

/-- C1 witness: a single zero-error record at error limit 0 moves exactly its
source vertex, and the pass limit at target_error 3/2 never exceeds 3/2. -/
theorem claim_C1_error_bound_witness :
    (∃ c ∈ [(⟨1, 2, 0⟩ : Collapse)], c.error ≤ 0 ∧ (1 = c.v0 ∨ 1 = (fun i : ℕ => i) c.v0)) ∧
    passErrorLimit 7 (3 / 2) ≤ 3 / 2 :=
  ⟨claim_C1_error_bound.1 [⟨1, 2, 0⟩] [0] (fun i => i) (fun i => i)
      (fun _ => VertexKind.Manifold) 2 0 (fun _ => zeroQuadric) 1 (by decide),
   claim_C1_error_bound.2.1 7 (3 / 2)⟩

/-- The histogram fold counts key occurrences. -/
theorem radixHistogram_count (keys : List ℕ) :
    ∀ k, radixHistogram keys k = keys.count k := by
  have aux : ∀ (l : List ℕ) (h : ℕ → ℕ) (k : ℕ),
      (l.foldl (fun h k => Function.update h k (h k + 1)) h) k = h k + l.count k := by
    intro l
    induction l with
    | nil => intro h k; simp
    | cons a rest ih =>
      intro h k
      rw [List.foldl_cons, ih, List.count_cons]
      by_cases hak : a = k
      · subst hak
        rw [Function.update_same]
        simp
        omega
      · rw [Function.update_noteq (Ne.symm hak)]
        have : (a == k) = false := beq_false_of_ne hak
        simp [this]
  intro k
  have := aux keys (fun _ => 0) k
  simpa [radixHistogram] using this

/-- The prefix-sum fold of radixOffsets: within range, exclusive prefix sums;
beyond it, the initial array. -/
theorem prefixFold_spec (hist : ℕ → ℕ) :
    ∀ (N : ℕ) (f0 : ℕ → ℕ) (s0 : ℕ),
      (∀ k, k < N →
        ((List.range N).foldl (fun (p : (ℕ → ℕ) × ℕ) i => (Function.update p.1 i p.2, p.2 + hist i))
          (f0, s0)).1 k = s0 + ∑ i ∈ Finset.range k, hist i) ∧
      ((List.range N).foldl (fun (p : (ℕ → ℕ) × ℕ) i => (Function.update p.1 i p.2, p.2 + hist i))
        (f0, s0)).2 = s0 + ∑ i ∈ Finset.range N, hist i := by
  intro N
  induction N with
  | zero => intro f0 s0; exact ⟨fun k hk => absurd hk (Nat.not_lt_zero k), by simp⟩
  | succ n ih =>
    intro f0 s0
    rw [List.range_succ]
    constructor
    · intro k hk
      rw [List.foldl_append]
      rcases (ih f0 s0) with ⟨ih1, ih2⟩
      simp only [List.foldl_cons, List.foldl_nil]
      by_cases hkn : k = n
      · subst hkn
        rw [Function.update_same, ih2]
      · have hkn2 : k < n := by omega
        rw [Function.update_noteq (by omega : k ≠ n)]
        exact ih1 k hkn2
    · rw [List.foldl_append]
      rcases (ih f0 s0) with ⟨_, ih2⟩
      simp only [List.foldl_cons, List.foldl_nil]
      rw [ih2, Finset.sum_range_succ]
      ring

/-- The placement loop of the counting sort: after processing all records,
each key's block holds exactly that key's records in input order, untouched
positions keep their value, and the cursors advance by the block sizes. -/
theorem radixPlace_spec :
    ∀ (ps : List (ℕ × ℕ)) (offs ord : ℕ → ℕ),
      (∀ k1 k2, k1 ≠ k2 → ∀ p, offs k1 ≤ p →
        p < offs k1 + (ps.filter (fun ik => ik.2 == k1)).length →
        ¬(offs k2 ≤ p ∧ p < offs k2 + (ps.filter (fun ik => ik.2 == k2)).length)) →
      (∀ k, (radixPlace ps offs ord).1 k =
        offs k + (ps.filter (fun ik => ik.2 == k)).length) ∧
      (∀ p, (∀ k, ¬(offs k ≤ p ∧ p < offs k + (ps.filter (fun ik => ik.2 == k)).length)) →
        (radixPlace ps offs ord).2 p = ord p) ∧
      (∀ k t, t < (ps.filter (fun ik => ik.2 == k)).length →
        (radixPlace ps offs ord).2 (offs k + t) =
          ((ps.filter (fun ik => ik.2 == k)).getD t (0, 0)).1) := by
  intro ps
  induction ps with
  | nil =>
    intro offs ord _
    refine ⟨fun k => by simp [radixPlace], fun p _ => by simp [radixPlace], ?_⟩
    intro k t ht
    simp at ht
  | cons ik rest ih =>
    intro offs ord hdisj
    obtain ⟨i, k0⟩ := ik
    have hfilter_eq : ∀ k, k0 ≠ k →
        (((i, k0) :: rest).filter (fun x => x.2 == k)) = rest.filter (fun x => x.2 == k) := by
      intro k hk
      apply List.filter_cons_of_neg
      simp [hk]
    have hfilter_self :
        (((i, k0) :: rest).filter (fun x => x.2 == k0)) =
          (i, k0) :: rest.filter (fun x => x.2 == k0) := by
      apply List.filter_cons_of_pos
      simp
    have hcnt_pos : 0 < (((i, k0) :: rest).filter (fun x => x.2 == k0)).length := by
      rw [hfilter_self]
      simp
    have hstep : radixPlace ((i, k0) :: rest) offs ord =
        radixPlace rest (Function.update offs k0 (offs k0 + 1))
          (Function.update ord (offs k0) i) := rfl
    set offs1 := Function.update offs k0 (offs k0 + 1) with hoffs1
    set ord1 := Function.update ord (offs k0) i with hord1
    -- the new intervals sit inside the old ones
    have hsub : ∀ k p, offs1 k ≤ p → p < offs1 k + (rest.filter (fun x => x.2 == k)).length →
        offs k ≤ p ∧ p < offs k + (((i, k0) :: rest).filter (fun x => x.2 == k)).length := by
      intro k p h1 h2
      by_cases hk : k0 = k
      · subst hk
        rw [hoffs1, Function.update_same] at h1 h2
        rw [hfilter_self]
        constructor
        · omega
        · simp only [List.length_cons]
          omega
      · rw [hoffs1, Function.update_noteq (Ne.symm hk)] at h1 h2
        rw [hfilter_eq k hk]
        exact ⟨h1, h2⟩
    have hdisj1 : ∀ k1 k2, k1 ≠ k2 → ∀ p, offs1 k1 ≤ p →
        p < offs1 k1 + (rest.filter (fun x => x.2 == k1)).length →
        ¬(offs1 k2 ≤ p ∧ p < offs1 k2 + (rest.filter (fun x => x.2 == k2)).length) := by
      intro k1 k2 hne p h1 h2 hcon
      rcases hsub k1 p h1 h2 with ⟨g1, g2⟩
      rcases hsub k2 p hcon.1 hcon.2 with ⟨g3, g4⟩
      exact hdisj k1 k2 hne p g1 g2 ⟨g3, g4⟩
    rcases ih offs1 ord1 hdisj1 with ⟨iha, ihb, ihc⟩
    -- offs k0 itself lies in no rest-interval
    have hoffs_k0_free : ∀ k, ¬(offs1 k ≤ offs k0 ∧
        offs k0 < offs1 k + (rest.filter (fun x => x.2 == k)).length) := by
      intro k hcon
      by_cases hk : k0 = k
      · subst hk
        rw [hoffs1, Function.update_same] at hcon
        omega
      · rcases hsub k (offs k0) hcon.1 hcon.2 with ⟨g1, g2⟩
        exact hdisj k0 k (fun h => hk h) (offs k0) le_rfl (by omega) ⟨g1, g2⟩
    refine ⟨?_, ?_, ?_⟩
    · intro k
      rw [hstep, iha k]
      by_cases hk : k0 = k
      · subst hk
        rw [hoffs1, Function.update_same, hfilter_self]
        simp only [List.length_cons]
        omega
      · rw [hoffs1, Function.update_noteq (Ne.symm hk), hfilter_eq k hk]
    · intro p hp
      have hp1 : ∀ k, ¬(offs1 k ≤ p ∧ p < offs1 k + (rest.filter (fun x => x.2 == k)).length) := by
        intro k hcon
        rcases hsub k p hcon.1 hcon.2 with ⟨g1, g2⟩
        exact hp k ⟨g1, g2⟩
      rw [hstep, ihb p hp1, hord1]
      have hpne : p ≠ offs k0 := by
        intro he
        exact hp k0 ⟨by omega, by omega⟩
      rw [Function.update_noteq hpne]
    · intro k t ht
      by_cases hk : k0 = k
      · subst hk
        rw [hfilter_self] at ht ⊢
        rcases Nat.eq_zero_or_pos t with ht0 | htpos
        · subst ht0
          rw [Nat.add_zero, hstep, ihb (offs k0) hoffs_k0_free, hord1, Function.update_same]
          simp
        · obtain ⟨u, hu⟩ : ∃ u, t = u + 1 := ⟨t - 1, by omega⟩
          subst hu
          have harr : offs k0 + (u + 1) = offs1 k0 + u := by
            rw [hoffs1, Function.update_same]
            omega
          rw [hstep, harr, ihc k0 u (by simp only [List.length_cons] at ht; omega)]
          simp
      · rw [hfilter_eq k hk] at ht ⊢
        have harr : offs k + t = offs1 k + t := by
          rw [hoffs1, Function.update_noteq (Ne.symm hk)]
        rw [hstep, harr, ihc k t ht]

/-- Filtering an enumeration on the entry value counts its occurrences. -/
theorem enumFrom_filter_count (k : ℕ) :
    ∀ (l : List ℕ) (s : ℕ),
      ((List.enumFrom s l).filter (fun ik => ik.2 == k)).length = l.count k := by
  intro l
  induction l with
  | nil => intro s; simp
  | cons a rest ih =>
    intro s
    rw [List.enumFrom_cons, List.count_cons]
    by_cases hak : a = k
    · subst hak
      rw [List.filter_cons_of_pos (by simp)]
      simp [ih (s + 1)]
    · rw [List.filter_cons_of_neg (by simp [hak])]
      have : (a == k) = false := beq_false_of_ne hak
      simp [ih (s + 1), this]

/-- When every element is below N, the counts over [0, N) sum to the length. -/
theorem count_sum_length :
    ∀ (l : List ℕ) (N : ℕ), (∀ x ∈ l, x < N) →
      ∑ k ∈ Finset.range N, l.count k = l.length := by
  intro l
  induction l with
  | nil => intro N _; simp
  | cons a rest ih =>
    intro N hN
    have ha : a < N := hN a (List.mem_cons_self a rest)
    have hrest : ∀ x ∈ rest, x < N := fun x hx => hN x (List.mem_cons_of_mem a hx)
    calc ∑ k ∈ Finset.range N, (a :: rest).count k
        = ∑ k ∈ Finset.range N, (rest.count k + if a = k then 1 else 0) := by
          apply Finset.sum_congr rfl
          intro k _
          rw [List.count_cons]
          by_cases hak : a = k
          · simp [hak]
          · have : (a == k) = false := beq_false_of_ne hak
            simp [hak, this]
      _ = (∑ k ∈ Finset.range N, rest.count k) + ∑ k ∈ Finset.range N, if a = k then 1 else 0 :=
          Finset.sum_add_distrib
      _ = rest.length + 1 := by
          rw [ih N hrest, Finset.sum_ite_eq (Finset.range N) a (fun _ => 1),
            if_pos (Finset.mem_range.mpr ha)]
      _ = (a :: rest).length := by simp

/-- Concatenating the blocks [prefix-sum k, prefix-sum k + h k) in order gives
one contiguous range. -/
theorem flatMap_range_blocks (h : ℕ → ℕ) :
    ∀ (M s : ℕ),
      (List.range M).flatMap (fun k => List.range' (s + ∑ i ∈ Finset.range k, h i) (h k)) =
        List.range' s (∑ i ∈ Finset.range M, h i) := by
  intro M
  induction M with
  | zero => intro s; simp
  | succ n ih =>
    intro s
    rw [List.range_succ, List.flatMap_append, ih s]
    have hsingle : ([n].flatMap fun k => List.range' (s + ∑ i ∈ Finset.range k, h i) (h k)) =
        List.range' (s + ∑ i ∈ Finset.range n, h i) (h n) := by simp
    rw [hsingle, Finset.sum_range_succ, Nat.add_comm (∑ i ∈ Finset.range n, h i) (h n),
      ← List.range'_append_1]

/-- Reading a list back through getD over its index range reproduces it. -/
theorem map_getD_range {α : Type} (d : α) :
    ∀ l : List α, (List.range l.length).map (fun t => l.getD t d) = l := by
  intro l
  induction l with
  | nil => simp
  | cons a rest ih =>
    have h1 : List.map ((fun t => (a :: rest).getD t d) ∘ Nat.succ) (List.range rest.length) =
        List.map (fun t => rest.getD t d) (List.range rest.length) :=
      List.map_congr_left (fun t _ => by simp [Function.comp, List.getD_cons_succ])
    rw [List.length_cons, List.range_succ_eq_map, List.map_cons, List.map_map,
      List.getD_cons_zero, h1, ih]

/-- Pointwise-equal block functions give equal flatMaps. -/
theorem flatMap_congr_mem {α β : Type} :
    ∀ (l : List α) (f g : α → List β), (∀ a ∈ l, f a = g a) → l.flatMap f = l.flatMap g := by
  intro l
  induction l with
  | nil => intro f g _; rfl
  | cons a rest ih =>
    intro f g hfg
    rw [List.flatMap_cons, List.flatMap_cons, hfg a (List.mem_cons_self a rest),
      ih f g (fun x hx => hfg x (List.mem_cons_of_mem a hx))]

/-- The imperative counting sort equals the stable bucket concatenation: for
keys below 2048, sort_order lists, bucket by bucket in ascending key order,
the record indices of that key in input order. -/
theorem radixSortOrder_eq (keys : List ℕ) (hk : ∀ k ∈ keys, k < 2048) :
    radixSortOrder keys =
      (List.range 2048).flatMap
        (fun k => (keys.enum.filter (fun ik => ik.2 == k)).map Prod.fst) := by
  have hist_count : ∀ k, radixHistogram keys k = keys.count k := radixHistogram_count keys
  have hcnt : ∀ k, (keys.enum.filter (fun ik => ik.2 == k)).length = keys.count k := by
    intro k
    have := enumFrom_filter_count k keys 0
    simpa [List.enum] using this
  rcases prefixFold_spec (radixHistogram keys) 2048 (fun _ => 0) 0 with ⟨hoffs, _⟩
  have hoffs0 : ∀ k, k < 2048 → (radixOffsets (radixHistogram keys)).1 k =
      ∑ i ∈ Finset.range k, radixHistogram keys i := by
    intro k hk2
    have := hoffs k hk2
    simpa [radixOffsets] using this
  have htotal : ∑ i ∈ Finset.range 2048, radixHistogram keys i = keys.length := by
    calc ∑ i ∈ Finset.range 2048, radixHistogram keys i
        = ∑ i ∈ Finset.range 2048, keys.count i :=
          Finset.sum_congr rfl (fun i _ => hist_count i)
      _ = keys.length := count_sum_length keys 2048 hk
  have hcnt_hi : ∀ k, 2048 ≤ k → (keys.enum.filter (fun ik => ik.2 == k)).length = 0 := by
    intro k hk2
    rw [hcnt k]
    apply List.count_eq_zero.mpr
    intro hmem
    exact absurd (hk k hmem) (by omega)
  set offs0 := (radixOffsets (radixHistogram keys)).1 with hoffs0def
  have hmono : ∀ k1 k2, k1 < 2048 → k2 < 2048 → k1 < k2 →
      offs0 k1 + (keys.enum.filter (fun ik => ik.2 == k1)).length ≤ offs0 k2 := by
    intro k1 k2 h1 h2 h12
    rw [hoffs0 k1 h1, hoffs0 k2 h2, hcnt k1, ← hist_count k1, ← Finset.sum_range_succ]
    apply Finset.sum_le_sum_of_subset
    intro x hx
    rw [Finset.mem_range] at hx ⊢
    omega
  have hdisj : ∀ k1 k2, k1 ≠ k2 → ∀ p, offs0 k1 ≤ p →
      p < offs0 k1 + (keys.enum.filter (fun ik => ik.2 == k1)).length →
      ¬(offs0 k2 ≤ p ∧ p < offs0 k2 + (keys.enum.filter (fun ik => ik.2 == k2)).length) := by
    intro k1 k2 hne p h1 h2 hcon
    by_cases hk1 : k1 < 2048
    · by_cases hk2 : k2 < 2048
      · rcases Nat.lt_or_ge k1 k2 with h12 | h21
        · have := hmono k1 k2 hk1 hk2 h12
          omega
        · have h21s : k2 < k1 := by omega
          have := hmono k2 k1 hk2 hk1 h21s
          omega
      · rw [hcnt_hi k2 (by omega)] at hcon
        omega
    · rw [hcnt_hi k1 (by omega)] at h2
      omega
  rcases radixPlace_spec keys.enum offs0 (fun _ => 0) hdisj with ⟨_, _, hc⟩
  have hlen_enum : ∀ k, (keys.enum.filter (fun ik => ik.2 == k)).length = radixHistogram keys k :=
    fun k => (hcnt k).trans (hist_count k).symm
  have hrange : List.range keys.length =
      (List.range 2048).flatMap
        (fun k => List.range' (offs0 k) (radixHistogram keys k)) := by
    rw [List.range_eq_range', ← htotal, ← flatMap_range_blocks (radixHistogram keys) 2048 0]
    apply flatMap_congr_mem
    intro k hkmem
    rw [hoffs0 k (List.mem_range.mp hkmem)]
    simp
  show (List.range keys.length).map (radixPlace keys.enum offs0 (fun _ => 0)).2 = _
  rw [hrange, List.map_flatMap]
  apply flatMap_congr_mem
  intro k hkmem
  rw [List.range'_eq_map_range, List.map_map]
  have hstep : List.map ((radixPlace keys.enum offs0 fun _ => 0).2 ∘ (offs0 k + ·))
      (List.range (radixHistogram keys k)) =
      List.map (fun t => ((keys.enum.filter (fun ik => ik.2 == k)).getD t (0, 0)).1)
        (List.range (radixHistogram keys k)) := by
    apply List.map_congr_left
    intro t ht
    rw [Function.comp]
    exact hc k t (by rw [hlen_enum]; exact List.mem_range.mp ht)
  rw [hstep, ← hlen_enum k]
  have : List.map (fun t => ((keys.enum.filter (fun ik => ik.2 == k)).getD t (0, 0)).1)
      (List.range (keys.enum.filter (fun ik => ik.2 == k)).length) =
      List.map Prod.fst (List.map (fun t => (keys.enum.filter (fun ik => ik.2 == k)).getD t (0, 0))
        (List.range (keys.enum.filter (fun ik => ik.2 == k)).length)) := by
    rw [List.map_map]
    rfl
  rw [this, map_getD_range]

/-- Bucketing a list by key over a duplicate-free cover of its keys permutes
the list. -/
theorem flatMap_filter_perm {α : Type} (key : α → ℕ) :
    ∀ ks : List ℕ, ks.Nodup → ∀ l : List α, (∀ x ∈ l, key x ∈ ks) →
      (ks.flatMap (fun k => l.filter (fun x => key x == k))).Perm l := by
  intro ks
  induction ks with
  | nil =>
    intro _ l hmem
    cases l with
    | nil => simp
    | cons x xs => exact absurd (hmem x (List.mem_cons_self x xs)) (List.not_mem_nil _)
  | cons k ks1 ih =>
    intro hnd l hmem
    rw [List.flatMap_cons]
    have hnd1 : ks1.Nodup := (List.nodup_cons.mp hnd).2
    have hknot : k ∉ ks1 := (List.nodup_cons.mp hnd).1
    have hrest : (ks1.flatMap fun k2 => l.filter (fun x => key x == k2)) =
        ks1.flatMap fun k2 =>
          (l.filter (fun x => !(key x == k))).filter (fun x => key x == k2) := by
      apply flatMap_congr_mem
      intro k2 hk2
      rw [List.filter_filter]
      apply List.filter_congr
      intro a _
      by_cases hak : key a = k2
      · have hk2ne : ¬(k2 = k) := fun he => hknot (he ▸ hk2)
        simp [hak, hk2ne]
      · simp [hak]
    rw [hrest]
    have hl1 : ∀ x ∈ l.filter (fun x => !(key x == k)), key x ∈ ks1 := by
      intro x hx
      rcases List.mem_filter.mp hx with ⟨hxl, hxk⟩
      rcases List.mem_cons.mp (hmem x hxl) with he | hm
      · simp [he] at hxk
      · exact hm
    refine List.Perm.trans ?_ (List.filter_append_perm (fun x => key x == k) l)
    exact (ih hnd1 _ hl1).append_left _

/-- Pairwise property of a flatMap: blocks internally pairwise, block pairs
crosswise related. -/
theorem pairwise_flatMap {α β : Type} (R : β → β → Prop) (f : α → List β) :
    ∀ ks : List α, (∀ k ∈ ks, (f k).Pairwise R) →
      ks.Pairwise (fun k1 k2 => ∀ a ∈ f k1, ∀ b ∈ f k2, R a b) →
      (ks.flatMap f).Pairwise R := by
  intro ks
  induction ks with
  | nil => intro _ _; simp
  | cons k ks1 ih =>
    intro h1 h2
    rw [List.flatMap_cons, List.pairwise_append]
    rcases List.pairwise_cons.mp h2 with ⟨hcross, h2rest⟩
    refine ⟨h1 k (List.mem_cons_self _ _),
      ih (fun x hx => h1 x (List.mem_cons_of_mem _ hx)) h2rest, ?_⟩
    intro a ha b hb
    rcases List.mem_flatMap.mp hb with ⟨k2, hk2, hbk2⟩
    exact hcross k2 hk2 a ha b hbk2

/-- Membership in an enumeration determines the entry at the carried index. -/
theorem mem_enumFrom_spec {α : Type} (d : α) :
    ∀ (l : List α) (s : ℕ) (ik : ℕ × α), ik ∈ List.enumFrom s l →
      s ≤ ik.1 ∧ ik.1 - s < l.length ∧ l.getD (ik.1 - s) d = ik.2 := by
  intro l
  induction l with
  | nil => intro s ik h; simp at h
  | cons a rest ih =>
    intro s ik h
    rw [List.enumFrom_cons] at h
    rcases List.mem_cons.mp h with h0 | h1
    · subst h0; simp
    · rcases ih (s + 1) ik h1 with ⟨g1, g2, g3⟩
      refine ⟨by omega, by simp only [List.length_cons]; omega, ?_⟩
      have hsplit : ik.1 - s = (ik.1 - (s + 1)) + 1 := by omega
      rw [hsplit, List.getD_cons_succ]
      exact g3

/-- Specialisation to `List.enum`. -/
theorem mem_enum_spec (keys : List ℕ) (ik : ℕ × ℕ) (h : ik ∈ keys.enum) :
    ik.1 < keys.length ∧ keys.getD ik.1 0 = ik.2 := by
  have := mem_enumFrom_spec 0 keys 0 ik (by simpa [List.enum] using h)
  rcases this with ⟨_, h2, h3⟩
  simp only [Nat.sub_zero] at h2 h3
  exact ⟨h2, h3⟩

/-- An 11-bit radix key is always below 2048. -/
theorem radixKey_lt (u : ℕ) : radixKey u < 2048 := by
  unfold radixKey
  have h1 : u * 2 % 2 ^ 32 < 2 ^ 32 := Nat.mod_lt _ (by norm_num)
  have h2 : (2 : ℕ) ^ 32 = 2048 * 2 ^ 21 := by norm_num
  exact Nat.div_lt_of_lt_mul (by omega)

/-- The flatMap of all-empty blocks is empty. -/
theorem flatMap_nil_of_forall {α β : Type} :
    ∀ (ks : List α) (f : α → List β), (∀ k ∈ ks, f k = []) → ks.flatMap f = [] := by
  intro ks
  induction ks with
  | nil => intro f _; rfl
  | cons k rest ih =>
    intro f hf
    rw [List.flatMap_cons, hf k (List.mem_cons_self _ _), ih f
      (fun x hx => hf x (List.mem_cons_of_mem _ hx))]
    rfl

/-- The concrete sort of two records with error patterns 1 and 0: both have
radix key 0, so the output keeps input order. -/
theorem sortEdgeCollapses_pair :
    sortEdgeCollapses [(⟨0, 0, 1⟩ : CollapseU), ⟨0, 0, 0⟩] = [0, 1] := by
  show radixSortOrder
    ([(⟨0, 0, 1⟩ : CollapseU), ⟨0, 0, 0⟩].map (fun c => radixKey c.errorui)) = [0, 1]
  have hkeys : ([(⟨0, 0, 1⟩ : CollapseU), ⟨0, 0, 0⟩].map (fun c => radixKey c.errorui)) =
      [0, 0] := by decide
  rw [hkeys, radixSortOrder_eq [0, 0] (by decide)]
  simp only [show ([0, 0] : List ℕ).enum = [(0, 0), (1, 0)] from rfl]
  rw [List.range_eq_range', show (2048 : ℕ) = 2047 + 1 from rfl, List.range'_succ,
    List.flatMap_cons]
  have hrest : (List.range' (0 + 1) 2047).flatMap
      (fun k => (([(0, 0), (1, 0)] : List (ℕ × ℕ)).filter (fun ik => ik.2 == k)).map
        Prod.fst) = [] := by
    apply flatMap_nil_of_forall
    intro k hk
    have hk1 : 1 ≤ k := (List.mem_range'_1.mp hk).1
    have hne : ((0 : ℕ) == k) = false := beq_false_of_ne (by omega)
    simp [List.filter, hne]
  rw [hrest]
  decide

/-- C5 counterexample.  Two records whose 32-bit error patterns are 1 and 0
share the 11-bit radix key 0; the sort keeps them in input order [0, 1],
which is not ascending in error — the literal "ascending error" reading of
the claim fails (only the 11-bit key order is ascending). -/
theorem claim_C5_counterexample :
    ascendingErrorStableB [⟨0, 0, 1⟩, ⟨0, 0, 0⟩]
      (sortEdgeCollapses [⟨0, 0, 1⟩, ⟨0, 0, 0⟩]) = false := by
  rw [sortEdgeCollapses_pair]
  decide

/-- C5 amended.  sortEdgeCollapses produces a permutation of [0, collapse
count); along it the 11-bit radix keys of the records are ascending, with
records of equal key kept in input order; and the radix key is a monotone
function of the error bit pattern for non-negative errors (clear sign bit),
so the order is ascending-by-key in the error too. -/
theorem claim_C5_radix_sort_permutation_stable (cs : List CollapseU) :
    (sortEdgeCollapses cs).Perm (List.range cs.length) ∧
    (sortEdgeCollapses cs).Pairwise (fun a b =>
      radixKey ((cs.getD a ⟨0, 0, 0⟩).errorui) < radixKey ((cs.getD b ⟨0, 0, 0⟩).errorui) ∨
      (radixKey ((cs.getD a ⟨0, 0, 0⟩).errorui) = radixKey ((cs.getD b ⟨0, 0, 0⟩).errorui) ∧
        a < b)) ∧
    (∀ u v : ℕ, u ≤ v → v < 2 ^ 31 → radixKey u ≤ radixKey v) := by
  set keys := cs.map (fun c => radixKey c.errorui) with hkeys
  have hklt : ∀ k ∈ keys, k < 2048 := by
    intro k hk
    rcases List.mem_map.mp hk with ⟨c, _, hc⟩
    exact hc ▸ radixKey_lt c.errorui
  have hlen : keys.length = cs.length := List.length_map cs _
  have hkey_at : ∀ a, a < cs.length → keys.getD a 0 = radixKey ((cs.getD a ⟨0, 0, 0⟩).errorui) := by
    intro a ha
    have ha2 : a < keys.length := by omega
    rw [List.getD_eq_getElem keys 0 ha2, List.getD_eq_getElem cs ⟨0, 0, 0⟩ ha]
    exact List.getElem_map _
  have hsorteq : sortEdgeCollapses cs =
      (List.range 2048).flatMap
        (fun k => (keys.enum.filter (fun ik => ik.2 == k)).map Prod.fst) :=
    radixSortOrder_eq keys hklt
  have hmem_bucket : ∀ k a, a ∈ (keys.enum.filter (fun ik => ik.2 == k)).map Prod.fst →
      a < cs.length ∧ keys.getD a 0 = k := by
    intro k a ha
    rcases List.mem_map.mp ha with ⟨ik, hik, hfst⟩
    rcases List.mem_filter.mp hik with ⟨hik_enum, hik_k⟩
    rcases mem_enum_spec keys ik hik_enum with ⟨h1, h2⟩
    subst hfst
    exact ⟨by omega, by rw [h2]; exact beq_iff_eq.mp hik_k⟩
  have hbucket_lt : ∀ k, ((keys.enum.filter (fun ik => ik.2 == k)).map Prod.fst).Pairwise
      (· < ·) := by
    intro k
    have hsub : ((keys.enum.filter (fun ik => ik.2 == k)).map Prod.fst).Sublist
        (List.range keys.length) := by
      rw [← List.enum_map_fst keys]
      exact (List.filter_sublist keys.enum).map Prod.fst
    exact List.Pairwise.sublist hsub (List.pairwise_lt_range keys.length)
  refine ⟨?_, ?_, ?_⟩
  · rw [hsorteq, ← hlen]
    have hmap : (List.range 2048).flatMap
        (fun k => (keys.enum.filter (fun ik => ik.2 == k)).map Prod.fst) =
        ((List.range 2048).flatMap (fun k => keys.enum.filter (fun ik => ik.2 == k))).map
          Prod.fst := (List.map_flatMap _ _ _).symm
    rw [hmap, ← List.enum_map_fst keys]
    apply List.Perm.map
    apply flatMap_filter_perm (fun ik : ℕ × ℕ => ik.2) (List.range 2048) (List.nodup_range 2048)
    intro ik hik
    rcases mem_enum_spec keys ik hik with ⟨h1, h2⟩
    apply List.mem_range.mpr
    have : ik.2 ∈ keys := by
      rw [← h2]
      rw [List.getD_eq_getElem keys 0 h1]
      exact List.getElem_mem h1
    exact hklt ik.2 this
  · rw [hsorteq]
    apply pairwise_flatMap
    · intro k _
      apply (hbucket_lt k).imp_of_mem
      intro a b ha hb hab
      rcases hmem_bucket k a ha with ⟨ha1, ha2⟩
      rcases hmem_bucket k b hb with ⟨hb1, hb2⟩
      right
      constructor
      · rw [← hkey_at a ha1, ← hkey_at b hb1, ha2, hb2]
      · exact hab
    · apply (List.pairwise_lt_range 2048).imp
      intro k1 k2 h12 a ha b hb
      rcases hmem_bucket k1 a ha with ⟨ha1, ha2⟩
      rcases hmem_bucket k2 b hb with ⟨hb1, hb2⟩
      left
      rw [← hkey_at a ha1, ← hkey_at b hb1, ha2, hb2]
      exact h12
  · intro u v huv hv
    unfold radixKey
    have hu2 : u * 2 < 2 ^ 32 := by omega
    have hv2 : v * 2 < 2 ^ 32 := by omega
    rw [Nat.mod_eq_of_lt hu2, Nat.mod_eq_of_lt hv2]
    exact Nat.div_le_div_right (by omega)

/-- C5 witness: the permutation and stable order at a concrete two-record
input with distinct keys, plus key monotonicity at 5 ≤ 7. -/
theorem claim_C5_radix_sort_permutation_stable_witness :
    (sortEdgeCollapses [⟨0, 0, 2 ^ 21⟩, ⟨0, 0, 0⟩]).Perm (List.range 2) ∧
    radixKey 5 ≤ radixKey 7 :=
  ⟨(claim_C5_radix_sort_permutation_stable [⟨0, 0, 2 ^ 21⟩, ⟨0, 0, 0⟩]).1,
   (claim_C5_radix_sort_permutation_stable []).2.2 5 7 (by norm_num) (by norm_num)⟩

/-- Invariants of the position-interning fold, processing indices s, s+1, …
in order: table entries are already-processed canonical vertices; remap is
idempotent, bounded by the identity, identity on unprocessed indices, and
maps into the processed prefix or fixes its argument. -/
theorem buildRemapFold_invariant (positions : ℕ → Vector3) (ts : ℕ) :
    ∀ (n s : ℕ) (table remap : ℕ → ℕ),
      (∀ e, table e ≠ sentinel → table e < s ∧ remap (table e) = table e) →
      (∀ j, remap (remap j) = remap j) →
      (∀ j, remap j ≤ j) →
      (∀ j, s ≤ j → remap j = j) →
      (∀ j, remap j < s ∨ remap j = j) →
      (∀ e, (buildRemapFold positions ts (List.range' s n) table remap).1 e ≠ sentinel →
        (buildRemapFold positions ts (List.range' s n) table remap).1 e < s + n ∧
        (buildRemapFold positions ts (List.range' s n) table remap).2
          ((buildRemapFold positions ts (List.range' s n) table remap).1 e) =
          (buildRemapFold positions ts (List.range' s n) table remap).1 e) ∧
      (∀ j, (buildRemapFold positions ts (List.range' s n) table remap).2
          ((buildRemapFold positions ts (List.range' s n) table remap).2 j) =
          (buildRemapFold positions ts (List.range' s n) table remap).2 j) ∧
      (∀ j, (buildRemapFold positions ts (List.range' s n) table remap).2 j ≤ j) ∧
      (∀ j, s + n ≤ j → (buildRemapFold positions ts (List.range' s n) table remap).2 j = j) ∧
      (∀ j, (buildRemapFold positions ts (List.range' s n) table remap).2 j < s + n ∨
        (buildRemapFold positions ts (List.range' s n) table remap).2 j = j) := by
  intro n
  induction n with
  | zero =>
    intro s table remap hA hB hC hD hE
    have hnil : List.range' s 0 = [] := rfl
    rw [hnil]
    refine ⟨fun e he => ⟨Nat.lt_of_lt_of_le (hA e he).1 (Nat.le_add_right s 0), (hA e he).2⟩,
      hB, hC, fun j hj => hD j (le_trans (Nat.le_add_right s 0) hj), fun j => ?_⟩
    rcases hE j with h | h
    · exact Or.inl (Nat.lt_of_lt_of_le h (Nat.le_add_right s 0))
    · exact Or.inr h
  | succ n ih =>
    intro s table remap hA hB hC hD hE
    rw [List.range'_succ]
    have hremap_ne : ∀ j, j ≠ s → remap j ≠ s := by
      intro j hj hcon
      rcases hE j with h | h
      · omega
      · exact hj (hcon ▸ h.symm ▸ h)
    have hmain : ∀ (table1 remap1 : ℕ → ℕ),
        (∀ e, table1 e ≠ sentinel → table1 e < s + 1 ∧ remap1 (table1 e) = table1 e) →
        (∀ j, remap1 (remap1 j) = remap1 j) →
        (∀ j, remap1 j ≤ j) →
        (∀ j, s + 1 ≤ j → remap1 j = j) →
        (∀ j, remap1 j < s + 1 ∨ remap1 j = j) →
        (∀ e, (buildRemapFold positions ts (List.range' (s + 1) n) table1 remap1).1 e ≠
            sentinel →
          (buildRemapFold positions ts (List.range' (s + 1) n) table1 remap1).1 e < s + 1 + n ∧
          (buildRemapFold positions ts (List.range' (s + 1) n) table1 remap1).2
            ((buildRemapFold positions ts (List.range' (s + 1) n) table1 remap1).1 e) =
            (buildRemapFold positions ts (List.range' (s + 1) n) table1 remap1).1 e) ∧
        (∀ j, (buildRemapFold positions ts (List.range' (s + 1) n) table1 remap1).2
            ((buildRemapFold positions ts (List.range' (s + 1) n) table1 remap1).2 j) =
            (buildRemapFold positions ts (List.range' (s + 1) n) table1 remap1).2 j) ∧
        (∀ j, (buildRemapFold positions ts (List.range' (s + 1) n) table1 remap1).2 j ≤ j) ∧
        (∀ j, s + 1 + n ≤ j →
          (buildRemapFold positions ts (List.range' (s + 1) n) table1 remap1).2 j = j) ∧
        (∀ j, (buildRemapFold positions ts (List.range' (s + 1) n) table1 remap1).2 j <
            s + 1 + n ∨
          (buildRemapFold positions ts (List.range' (s + 1) n) table1 remap1).2 j = j) :=
      fun table1 remap1 h1 h2 h3 h4 h5 => ih (s + 1) table1 remap1 h1 h2 h3 h4 h5
    have hgoalarr : s + 1 + n = s + (n + 1) := by omega
    rcases hlook : hashLookup2 table ts (posHash (positions s))
        (fun t => t = sentinel) (fun t => positions t = positions s) with _ | e
    · -- none: remap s := s
      have hstep : buildRemapFold positions ts (s :: List.range' (s + 1) n) table remap =
          buildRemapFold positions ts (List.range' (s + 1) n) table
            (Function.update remap s s) := by
        rw [buildRemapFold, hlook]
      rw [hstep]
      have h1 : ∀ e, table e ≠ sentinel →
          table e < s + 1 ∧ Function.update remap s s (table e) = table e := by
        intro e he
        refine ⟨by have := (hA e he).1; omega, ?_⟩
        rw [Function.update_noteq (by have := (hA e he).1; omega : table e ≠ s)]
        exact (hA e he).2
      have h2 : ∀ j, Function.update remap s s (Function.update remap s s j) =
          Function.update remap s s j := by
        intro j
        by_cases hj : j = s
        · subst hj; rw [Function.update_same, Function.update_same]
        · rw [Function.update_noteq hj, Function.update_noteq (hremap_ne j hj), hB j]
      have h3 : ∀ j, Function.update remap s s j ≤ j := by
        intro j
        by_cases hj : j = s
        · subst hj; rw [Function.update_same]
        · rw [Function.update_noteq hj]; exact hC j
      have h4 : ∀ j, s + 1 ≤ j → Function.update remap s s j = j := by
        intro j hj
        rw [Function.update_noteq (by omega : j ≠ s)]
        exact hD j (by omega)
      have h5 : ∀ j, Function.update remap s s j < s + 1 ∨ Function.update remap s s j = j := by
        intro j
        by_cases hj : j = s
        · subst hj; rw [Function.update_same]; omega
        · rw [Function.update_noteq hj]
          rcases hE j with h | h
          · exact Or.inl (by omega)
          · exact Or.inr h
      have := hmain table (Function.update remap s s) h1 h2 h3 h4 h5
      rw [hgoalarr] at this
      exact this
    · by_cases hemp : table e = sentinel
      · -- empty slot: insert s, remap s := s
        have hstep : buildRemapFold positions ts (s :: List.range' (s + 1) n) table remap =
            buildRemapFold positions ts (List.range' (s + 1) n) (Function.update table e s)
              (Function.update remap s s) := by
          rw [buildRemapFold, hlook]
          exact if_pos hemp
        rw [hstep]
        have h1 : ∀ f, Function.update table e s f ≠ sentinel →
            Function.update table e s f < s + 1 ∧
            Function.update remap s s (Function.update table e s f) =
              Function.update table e s f := by
          intro f hf
          by_cases hfe : f = e
          · subst hfe
            rw [Function.update_same] at hf ⊢
            exact ⟨by omega, by rw [Function.update_same]⟩
          · rw [Function.update_noteq hfe] at hf ⊢
            refine ⟨by have := (hA f hf).1; omega, ?_⟩
            rw [Function.update_noteq (by have := (hA f hf).1; omega : table f ≠ s)]
            exact (hA f hf).2
        have h2 : ∀ j, Function.update remap s s (Function.update remap s s j) =
            Function.update remap s s j := by
          intro j
          by_cases hj : j = s
          · subst hj; rw [Function.update_same, Function.update_same]
          · rw [Function.update_noteq hj, Function.update_noteq (hremap_ne j hj), hB j]
        have h3 : ∀ j, Function.update remap s s j ≤ j := by
          intro j
          by_cases hj : j = s
          · subst hj; rw [Function.update_same]
          · rw [Function.update_noteq hj]; exact hC j
        have h4 : ∀ j, s + 1 ≤ j → Function.update remap s s j = j := by
          intro j hj
          rw [Function.update_noteq (by omega : j ≠ s)]
          exact hD j (by omega)
        have h5 : ∀ j, Function.update remap s s j < s + 1 ∨
            Function.update remap s s j = j := by
          intro j
          by_cases hj : j = s
          · subst hj; rw [Function.update_same]; omega
          · rw [Function.update_noteq hj]
            rcases hE j with h | h
            · exact Or.inl (by omega)
            · exact Or.inr h
        have := hmain (Function.update table e s) (Function.update remap s s) h1 h2 h3 h4 h5
        rw [hgoalarr] at this
        exact this
      · -- found: remap s := table e
        have hstep : buildRemapFold positions ts (s :: List.range' (s + 1) n) table remap =
            buildRemapFold positions ts (List.range' (s + 1) n) table
              (Function.update remap s (table e)) := by
          rw [buildRemapFold, hlook]
          exact if_neg hemp
        rw [hstep]
        have hve := hA e hemp
        have h1 : ∀ f, table f ≠ sentinel →
            table f < s + 1 ∧ Function.update remap s (table e) (table f) = table f := by
          intro f hf
          refine ⟨by have := (hA f hf).1; omega, ?_⟩
          rw [Function.update_noteq (by have := (hA f hf).1; omega : table f ≠ s)]
          exact (hA f hf).2
        have h2 : ∀ j, Function.update remap s (table e) (Function.update remap s (table e) j) =
            Function.update remap s (table e) j := by
          intro j
          by_cases hj : j = s
          · rw [hj, Function.update_same,
              Function.update_noteq (by have := hve.1; omega : table e ≠ s)]
            exact hve.2
          · rw [Function.update_noteq hj, Function.update_noteq (hremap_ne j hj), hB j]
        have h3 : ∀ j, Function.update remap s (table e) j ≤ j := by
          intro j
          by_cases hj : j = s
          · rw [hj, Function.update_same]
            have := hve.1
            omega
          · rw [Function.update_noteq hj]; exact hC j
        have h4 : ∀ j, s + 1 ≤ j → Function.update remap s (table e) j = j := by
          intro j hj
          rw [Function.update_noteq (by omega : j ≠ s)]
          exact hD j (by omega)
        have h5 : ∀ j, Function.update remap s (table e) j < s + 1 ∨
            Function.update remap s (table e) j = j := by
          intro j
          by_cases hj : j = s
          · rw [hj, Function.update_same]
            have := hve.1
            omega
          · rw [Function.update_noteq hj]
            rcases hE j with h | h
            · exact Or.inl (by omega)
            · exact Or.inr h
        have := hmain table (Function.update remap s (table e)) h1 h2 h3 h4 h5
        rw [hgoalarr] at this
        exact this

/-- Invariants of the wedge-splicing fold processing indices s, s+1, … in
order, given the remap invariants: wedge rings stay inside position classes,
unprocessed wedges are untouched, processed non-trivial wedges point into the
processed prefix, and non-canonical processed vertices have non-trivial
wedges. -/
theorem buildWedgeFold_invariant (remap : ℕ → ℕ)
    (hB : ∀ j, remap (remap j) = remap j) (hC : ∀ j, remap j ≤ j) :
    ∀ (n s : ℕ) (wedge : ℕ → ℕ),
      (∀ v, remap (wedge v) = remap v) →
      (∀ v, s ≤ v → wedge v = v) →
      (∀ v, wedge v = v ∨ wedge v < s) →
      (∀ v, remap v ≠ v → v < s → wedge v ≠ v) →
      (∀ v, remap (buildWedgeFold remap (List.range' s n) wedge v) = remap v) ∧
      (∀ v, s + n ≤ v → buildWedgeFold remap (List.range' s n) wedge v = v) ∧
      (∀ v, buildWedgeFold remap (List.range' s n) wedge v = v ∨
        buildWedgeFold remap (List.range' s n) wedge v < s + n) ∧
      (∀ v, remap v ≠ v → v < s + n → buildWedgeFold remap (List.range' s n) wedge v ≠ v) := by
  intro n
  induction n with
  | zero =>
    intro s wedge hW hU hP hN
    have hnil : List.range' s 0 = [] := rfl
    rw [hnil]
    refine ⟨hW, fun v hv => hU v (by omega), fun v => ?_, fun v hv hvs => hN v hv (by omega)⟩
    rcases hP v with h | h
    · exact Or.inl h
    · exact Or.inr (Nat.lt_of_lt_of_le h (Nat.le_add_right s 0))
  | succ n ih =>
    intro s wedge hW hU hP hN
    rw [List.range'_succ, buildWedgeFold]
    by_cases hrs : remap s ≠ s
    · rw [if_pos hrs]
      set r := remap s with hr
      have hrlt : r < s := lt_of_le_of_ne (hC s) (fun h => hrs h)
      set wedge1 := Function.update (Function.update wedge s (wedge r)) r s with hw1
      have hw1s : wedge1 s = wedge r := by
        rw [hw1, Function.update_noteq (by omega : s ≠ r), Function.update_same]
      have hw1r : wedge1 r = s := by
        rw [hw1, Function.update_same]
      have hw1other : ∀ v, v ≠ s → v ≠ r → wedge1 v = wedge v := by
        intro v h1v h2v
        rw [hw1, Function.update_noteq h2v, Function.update_noteq h1v]
      have hrr : remap r = r := by rw [hr]; exact hB s
      have g1 : ∀ v, remap (wedge1 v) = remap v := by
        intro v
        by_cases h1v : v = s
        · subst h1v; rw [hw1s, hW r, hrr, ← hr]
        · by_cases h2v : v = r
          · subst h2v; rw [hw1r, ← hr, hrr]
          · rw [hw1other v h1v h2v]; exact hW v
      have g2 : ∀ v, s + 1 ≤ v → wedge1 v = v := by
        intro v hv
        rw [hw1other v (by omega) (by omega)]
        exact hU v (by omega)
      have g3 : ∀ v, wedge1 v = v ∨ wedge1 v < s + 1 := by
        intro v
        by_cases h1v : v = s
        · subst h1v
          rcases hP r with h | h
          · exact Or.inr (by rw [hw1s, h]; omega)
          · exact Or.inr (by rw [hw1s]; omega)
        · by_cases h2v : v = r
          · subst h2v; exact Or.inr (by rw [hw1r]; omega)
          · rw [hw1other v h1v h2v]
            rcases hP v with h | h
            · exact Or.inl h
            · exact Or.inr (by omega)
      have g4 : ∀ v, remap v ≠ v → v < s + 1 → wedge1 v ≠ v := by
        intro v hv hvs
        by_cases h1v : v = s
        · subst h1v
          rcases hP r with h | h
          · rw [hw1s, h]; omega
          · rw [hw1s]; omega
        · by_cases h2v : v = r
          · subst h2v; rw [hw1r]; omega
          · rw [hw1other v h1v h2v]
            exact hN v hv (by omega)
      have := ih (s + 1) wedge1 g1 g2 g3 g4
      rcases this with ⟨i1, i2, i3, i4⟩
      exact ⟨i1, fun v hv => i2 v (by omega), fun v => by
          rcases i3 v with h | h
          · exact Or.inl h
          · exact Or.inr (by omega),
        fun v hv hvs => i4 v hv (by omega)⟩
    · rw [if_neg hrs]
      have hg4 : ∀ v, remap v ≠ v → v < s + 1 → wedge v ≠ v := by
        intro v hv hvs
        by_cases h1v : v = s
        · subst h1v; exact absurd hv hrs
        · exact hN v hv (by omega)
      have g3 : ∀ v, wedge v = v ∨ wedge v < s + 1 := by
        intro v
        rcases hP v with h | h
        · exact Or.inl h
        · exact Or.inr (by omega)
      have := ih (s + 1) wedge hW (fun v hv => hU v (by omega)) g3 hg4
      rcases this with ⟨i1, i2, i3, i4⟩
      exact ⟨i1, fun v hv => i2 v (by omega), fun v => by
          rcases i3 v with h | h
          · exact Or.inl h
          · exact Or.inr (by omega),
        fun v hv hvs => i4 v hv (by omega)⟩

/-- The structural facts about buildPositionRemap used by the pipeline
claims: remap is idempotent, ≤ identity, identity outside [0, vertex_count),
bounded inside it; wedge rings stay within position classes, are the identity
outside [0, vertex_count), bounded inside it; and a non-canonical vertex has
a non-trivial wedge. -/
theorem buildPositionRemap_spec (positions : ℕ → Vector3) (vc : ℕ) :
    (∀ j, (buildPositionRemap positions vc).1 ((buildPositionRemap positions vc).1 j) =
      (buildPositionRemap positions vc).1 j) ∧
    (∀ j, (buildPositionRemap positions vc).1 j ≤ j) ∧
    (∀ j, vc ≤ j → (buildPositionRemap positions vc).1 j = j) ∧
    (∀ j, (buildPositionRemap positions vc).1 j < vc ∨
      (buildPositionRemap positions vc).1 j = j) ∧
    (∀ v, (buildPositionRemap positions vc).1 ((buildPositionRemap positions vc).2 v) =
      (buildPositionRemap positions vc).1 v) ∧
    (∀ v, vc ≤ v → (buildPositionRemap positions vc).2 v = v) ∧
    (∀ v, (buildPositionRemap positions vc).2 v = v ∨
      (buildPositionRemap positions vc).2 v < vc) ∧
    (∀ v, (buildPositionRemap positions vc).1 v ≠ v →
      (buildPositionRemap positions vc).2 v ≠ v) := by
  have hrm := buildRemapFold_invariant positions (hashBuckets2 vc) vc 0
    (fun _ => sentinel) (fun i => i) (fun e he => absurd rfl he)
    (fun j => rfl) (fun j => le_refl j) (fun j _ => rfl) (fun j => Or.inr rfl)
  have hrange : List.range vc = List.range' 0 vc := List.range_eq_range' vc
  rw [← hrange] at hrm
  rcases hrm with ⟨_, hB, hC, hD, hE⟩
  have hrmeq : (buildPositionRemap positions vc).1 =
      (buildRemapFold positions (hashBuckets2 vc) (List.range vc)
        (fun _ => sentinel) (fun i => i)).2 := rfl
  have hwg := buildWedgeFold_invariant
    (buildRemapFold positions (hashBuckets2 vc) (List.range vc)
      (fun _ => sentinel) (fun i => i)).2 hB hC vc 0 (fun i => i)
    (fun v => rfl) (fun v _ => rfl) (fun v => Or.inl rfl) (fun v _ hv => absurd hv (by omega))
  rw [← hrange] at hwg
  rcases hwg with ⟨hW, hU, hP, hN⟩
  have hwgeq : (buildPositionRemap positions vc).2 =
      buildWedgeFold
        (buildRemapFold positions (hashBuckets2 vc) (List.range vc)
          (fun _ => sentinel) (fun i => i)).2 (List.range vc) (fun i => i) := rfl
  rw [hrmeq, hwgeq]
  refine ⟨hB, hC, fun j hj => hD j (by omega), fun j => by
      rcases hE j with h | h
      · exact Or.inl (by omega)
      · exact Or.inr h,
    hW, fun v hv => hU v (by omega), fun v => by
      rcases hP v with h | h
      · exact Or.inl h
      · exact Or.inr (by omega),
    fun v hv => ?_⟩
  by_cases hvlt : v < 0 + vc
  · exact hN v hv hvlt
  · exact absurd (hD v (by omega)) hv

/-- Writing a non-Seam kind at one vertex cannot create a Seam entry. -/
theorem update_kind_seam (kind : ℕ → VertexKind) (i : ℕ) (x : VertexKind) (v : ℕ)
    (hx : x ≠ VertexKind.Seam) (hv : Function.update kind i x v = VertexKind.Seam) :
    kind v = VertexKind.Seam := by
  by_cases hvi : v = i
  · subst hvi
    rw [Function.update_same] at hv
    exact absurd hv hx
  · rw [Function.update_noteq hvi] at hv
    exact hv

/-- One classifyVertices step preserves "every Seam vertex has a non-trivial
wedge": the canonical Seam branch is guarded by wedge i ≠ i, and inherited
kinds concern non-canonical vertices, whose wedge is non-trivial. -/
theorem classifyStep_seam (adjacency : EdgeAdjacency) (remap wedge : ℕ → ℕ) (vc : ℕ)
    (acc : (ℕ → VertexKind) × (ℕ → ℕ)) (i : ℕ)
    (hwr : ∀ v, remap v ≠ v → wedge v ≠ v)
    (hP : ∀ v, acc.1 v = VertexKind.Seam → wedge v ≠ v) :
    ∀ v, (classifyStep adjacency remap wedge vc acc i).1 v = VertexKind.Seam →
      wedge v ≠ v := by
  intro v hv
  unfold classifyStep at hv
  by_cases h1 : remap i = i
  · rw [if_pos h1] at hv
    by_cases h2 : wedge i = i
    · rw [if_pos h2] at hv
      by_cases h3 : (countOpenEdges adjacency i).1 = 0
      · rw [if_pos h3] at hv
        exact hP v (update_kind_seam acc.1 i _ v (by simp) hv)
      rw [if_neg h3] at hv
      by_cases h4 : (countOpenEdges adjacency i).1 = 1
      · rw [if_pos h4] at hv
        exact hP v (update_kind_seam acc.1 i _ v (by simp) hv)
      · rw [if_neg h4] at hv
        exact hP v (update_kind_seam acc.1 i _ v (by simp) hv)
    · rw [if_neg h2] at hv
      by_cases h3 : wedge (wedge i) = i
      · rw [if_pos h3] at hv
        by_cases h4 : (countOpenEdges adjacency i).1 = 1 ∧
            (countOpenEdges adjacency (wedge i)).1 = 1
        · rw [if_pos h4] at hv
          by_cases h5 : findWedgeEdge adjacency wedge (countOpenEdges adjacency i).2 (wedge i)
              vc ≠ sentinel ∧
              findWedgeEdge adjacency wedge (countOpenEdges adjacency (wedge i)).2 i vc ≠
                sentinel
          · rw [if_pos h5] at hv
            replace hv : Function.update acc.1 i VertexKind.Seam v = VertexKind.Seam := hv
            by_cases hvi : v = i
            · subst hvi
              exact h2
            · rw [Function.update_noteq hvi] at hv
              exact hP v hv
          · rw [if_neg h5] at hv
            exact hP v (update_kind_seam acc.1 i _ v (by simp) hv)
        · rw [if_neg h4] at hv
          exact hP v (update_kind_seam acc.1 i _ v (by simp) hv)
      · rw [if_neg h3] at hv
        exact hP v (update_kind_seam acc.1 i _ v (by simp) hv)
  · rw [if_neg h1] at hv
    replace hv : Function.update acc.1 i (acc.1 (remap i)) v = VertexKind.Seam := hv
    by_cases hvi : v = i
    · subst hvi
      exact hwr v h1
    · rw [Function.update_noteq hvi] at hv
      exact hP v hv

/-- classifyVertices marks a vertex Seam only when its wedge is non-trivial
(assuming non-canonical vertices have non-trivial wedges, which
buildPositionRemap guarantees). -/
theorem classifyVertices_seam (adjacency : EdgeAdjacency) (remap wedge : ℕ → ℕ) (vc : ℕ)
    (hwr : ∀ v, remap v ≠ v → wedge v ≠ v) :
    ∀ v, (classifyVertices adjacency remap wedge vc).1 v = VertexKind.Seam → wedge v ≠ v := by
  have haux : ∀ (l : List ℕ) (acc : (ℕ → VertexKind) × (ℕ → ℕ)),
      (∀ v, acc.1 v = VertexKind.Seam → wedge v ≠ v) →
      ∀ v, ((l.foldl (classifyStep adjacency remap wedge vc) acc).1 v = VertexKind.Seam →
        wedge v ≠ v) := by
    intro l
    induction l with
    | nil => intro acc hP v hv; exact hP v hv
    | cons a rest ih =>
      intro acc hP v hv
      rw [List.foldl_cons] at hv
      exact ih (classifyStep adjacency remap wedge vc acc a)
        (classifyStep_seam adjacency remap wedge vc acc a hwr hP) v hv
  intro v hv
  exact haux (List.range vc) (fun _ => .Manifold, fun _ => sentinel) (fun v hv => by simp at hv)
    v hv

/-- A directed triangle edge has both endpoints in the buffer. -/
theorem hasTriEdge_mem : ∀ (buffer : List ℕ) (x y : ℕ),
    hasTriEdge buffer x y = true → x ∈ buffer ∧ y ∈ buffer
  | [], x, y, h => by simp [hasTriEdge] at h
  | [a], x, y, h => by simp [hasTriEdge] at h
  | [a, b], x, y, h => by simp [hasTriEdge] at h
  | a :: b :: c :: rest, x, y, h => by
    rw [hasTriEdge] at h
    rcases Bool.or_eq_true _ _ |>.mp h with h1 | h2
    · rcases Bool.or_eq_true _ _ |>.mp h1 with h3 | h4
      · rcases Bool.or_eq_true _ _ |>.mp h3 with h5 | h6
        · rcases Bool.and_eq_true _ _ |>.mp h5 with ⟨hx, hy⟩
          have hx1 : a = x := by simpa using hx
          have hy1 : b = y := by simpa using hy
          subst hx1; subst hy1
          exact ⟨List.mem_cons_self _ _, List.mem_cons_of_mem _ (List.mem_cons_self _ _)⟩
        · rcases Bool.and_eq_true _ _ |>.mp h6 with ⟨hx, hy⟩
          have hx1 : b = x := by simpa using hx
          have hy1 : c = y := by simpa using hy
          subst hx1; subst hy1
          refine ⟨List.mem_cons_of_mem _ (List.mem_cons_self _ _), ?_⟩
          exact List.mem_cons_of_mem _ (List.mem_cons_of_mem _ (List.mem_cons_self _ _))
      · rcases Bool.and_eq_true _ _ |>.mp h4 with ⟨hx, hy⟩
        have hx1 : c = x := by simpa using hx
        have hy1 : a = y := by simpa using hy
        subst hx1; subst hy1
        refine ⟨List.mem_cons_of_mem _ (List.mem_cons_of_mem _ (List.mem_cons_self _ _)), ?_⟩
        exact List.mem_cons_self _ _
    · rcases hasTriEdge_mem rest x y h2 with ⟨g1, g2⟩
      exact ⟨List.mem_cons_of_mem _ (List.mem_cons_of_mem _ (List.mem_cons_of_mem _ g1)),
        List.mem_cons_of_mem _ (List.mem_cons_of_mem _ (List.mem_cons_of_mem _ g2))⟩

/-- A triangle edge of the tail is a triangle edge of the whole buffer. -/
theorem hasTriEdge_tail (a b c : ℕ) (rest : List ℕ) (x y : ℕ)
    (h : hasTriEdge rest x y = true) : hasTriEdge (a :: b :: c :: rest) x y = true := by
  rw [hasTriEdge]
  exact Bool.or_eq_true _ _ |>.mpr (Or.inr h)

/-- Every record emitted by pickEdge for the directed edge i0 → i1 joins
position-distinct classes and is (i0, i1) or its reversal. -/
theorem pickEdge_spec (remap : ℕ → ℕ) (kind : ℕ → VertexKind) (loopv : ℕ → ℕ) (i0 i1 : ℕ) :
    ∀ c ∈ pickEdge remap kind loopv i0 i1,
      remap c.v0 ≠ remap c.v1 ∧ ((c.v0 = i0 ∧ c.v1 = i1) ∨ (c.v0 = i1 ∧ c.v1 = i0)) := by
  intro c hc
  simp only [pickEdge] at hc
  split_ifs at hc with h1 h2 h3 h4 h5 h6
  all_goals
    first
    | exact absurd hc (List.not_mem_nil c)
    | (rcases List.mem_singleton.mp hc with rfl
       first
       | exact ⟨h1, Or.inl ⟨rfl, rfl⟩⟩
       | exact ⟨fun h => h1 h.symm, Or.inr ⟨rfl, rfl⟩⟩)

/-- Every record emitted by pickEdgeCollapses joins position-distinct classes
along a directed edge of some complete triangle of the buffer. -/
theorem pickEdgeCollapses_spec (remap : ℕ → ℕ) (kind : ℕ → VertexKind) (loopv : ℕ → ℕ) :
    ∀ (buffer : List ℕ) (c : CollapsePick), c ∈ pickEdgeCollapses remap kind loopv buffer →
      remap c.v0 ≠ remap c.v1 ∧
      (hasTriEdge buffer c.v0 c.v1 = true ∨ hasTriEdge buffer c.v1 c.v0 = true)
  | [], c, hc => by simp [pickEdgeCollapses] at hc
  | [a], c, hc => by simp [pickEdgeCollapses] at hc
  | [a, b], c, hc => by simp [pickEdgeCollapses] at hc
  | a :: b :: d :: rest, c, hc => by
    rw [pickEdgeCollapses] at hc
    have hedge : ∀ (x y : ℕ), c ∈ pickEdge remap kind loopv x y →
        hasTriEdge (a :: b :: d :: rest) x y = true →
        remap c.v0 ≠ remap c.v1 ∧
        (hasTriEdge (a :: b :: d :: rest) c.v0 c.v1 = true ∨
          hasTriEdge (a :: b :: d :: rest) c.v1 c.v0 = true) := by
      intro x y hmem htri
      rcases pickEdge_spec remap kind loopv x y c hmem with ⟨hd, hp | hp⟩
      · exact ⟨hd, Or.inl (by rw [hp.1, hp.2]; exact htri)⟩
      · exact ⟨hd, Or.inr (by rw [hp.1, hp.2]; exact htri)⟩
    rcases List.mem_append.mp hc with hc1 | hc2
    · rcases List.mem_append.mp hc1 with hc3 | hc4
      · rcases List.mem_append.mp hc3 with hc5 | hc6
        · exact hedge a b hc5 (by rw [hasTriEdge]; simp)
        · exact hedge b d hc6 (by rw [hasTriEdge]; simp)
      · exact hedge d a hc4 (by rw [hasTriEdge]; simp)
    · rcases pickEdgeCollapses_spec remap kind loopv rest c hc2 with ⟨hd, hp | hp⟩
      · exact ⟨hd, Or.inl (hasTriEdge_tail a b d rest _ _ hp)⟩
      · exact ⟨hd, Or.inr (hasTriEdge_tail a b d rest _ _ hp)⟩

/-- rankEdgeCollapses keeps each record's vertex pair, possibly swapped. -/
theorem rankEdgeCollapses_pairs (vp : ℕ → Vector3) (vq : ℕ → Quadric) (remap : ℕ → ℕ)
    (cs : List CollapsePick) :
    ∀ c ∈ rankEdgeCollapses vp vq remap cs,
      ∃ p ∈ cs, (c.v0 = p.v0 ∧ c.v1 = p.v1) ∨ (c.v0 = p.v1 ∧ c.v1 = p.v0) := by
  intro c hc
  rcases List.mem_map.mp hc with ⟨p, hp, hpc⟩
  refine ⟨p, hp, ?_⟩
  subst hpc
  simp only
  by_cases hb : p.bidi
  · by_cases he : quadricError (vq (remap p.v0)) (vp p.v1) ≤
        quadricError (vq (remap (if p.bidi then p.v1 else p.v0)))
          (vp (if p.bidi then p.v0 else p.v1))
    · rw [if_pos he, if_pos he]
      exact Or.inl ⟨rfl, rfl⟩
    · rw [if_neg he, if_neg he, if_pos hb, if_pos hb]
      exact Or.inr ⟨rfl, rfl⟩
  · by_cases he : quadricError (vq (remap p.v0)) (vp p.v1) ≤
        quadricError (vq (remap (if p.bidi then p.v1 else p.v0)))
          (vp (if p.bidi then p.v0 else p.v1))
    · rw [if_pos he, if_pos he]
      exact Or.inl ⟨rfl, rfl⟩
    · rw [if_neg he, if_neg he, if_neg hb, if_neg hb]
      exact Or.inl ⟨rfl, rfl⟩

/-- Records ranked from pickEdgeCollapses join position-distinct classes
along a triangle edge of the buffer (in one of the two directions). -/
theorem ranked_spec (vp : ℕ → Vector3) (vq : ℕ → Quadric) (remap : ℕ → ℕ)
    (kind : ℕ → VertexKind) (loopv : ℕ → ℕ) (buffer : List ℕ) :
    ∀ c ∈ rankEdgeCollapses vp vq remap (pickEdgeCollapses remap kind loopv buffer),
      remap c.v0 ≠ remap c.v1 ∧
      (hasTriEdge buffer c.v0 c.v1 = true ∨ hasTriEdge buffer c.v1 c.v0 = true) := by
  intro c hc
  rcases rankEdgeCollapses_pairs vp vq remap _ c hc with ⟨p, hp, hpair⟩
  rcases pickEdgeCollapses_spec remap kind loopv buffer p hp with ⟨hd, he⟩
  rcases hpair with ⟨h0, h1⟩ | ⟨h0, h1⟩
  · rw [h0, h1]
    exact ⟨hd, he⟩
  · rw [h0, h1]
    exact ⟨fun h => hd h.symm, he.symm⟩

/-- remapIndexBuffer writes at most as many indices as it reads. -/
theorem remapIndexBuffer_length_le (cr : ℕ → ℕ) :
    ∀ buffer : List ℕ, (remapIndexBuffer cr buffer).length ≤ buffer.length
  | [] => by simp [remapIndexBuffer]
  | [a] => by simp [remapIndexBuffer]
  | [a, b] => by simp [remapIndexBuffer]
  | a :: b :: c :: rest => by
    rw [remapIndexBuffer]
    have := remapIndexBuffer_length_le cr rest
    by_cases h : cr a ≠ cr b ∧ cr a ≠ cr c ∧ cr b ≠ cr c
    · rw [if_pos h]
      simp only [List.length_cons]
      omega
    · rw [if_neg h]
      simp only [List.length_cons]
      omega

/-- remapIndexBuffer writes whole triangles: its length is divisible by 3. -/
theorem remapIndexBuffer_mod3 (cr : ℕ → ℕ) :
    ∀ buffer : List ℕ, (remapIndexBuffer cr buffer).length % 3 = 0
  | [] => by simp [remapIndexBuffer]
  | [a] => by simp [remapIndexBuffer]
  | [a, b] => by simp [remapIndexBuffer]
  | a :: b :: c :: rest => by
    rw [remapIndexBuffer]
    have := remapIndexBuffer_mod3 cr rest
    by_cases h : cr a ≠ cr b ∧ cr a ≠ cr c ∧ cr b ≠ cr c
    · rw [if_pos h]
      simp only [List.length_cons]
      omega
    · rw [if_neg h]
      exact this

/-- Every index written by remapIndexBuffer is the collapse_remap image of an
index of the input buffer. -/
theorem remapIndexBuffer_mem (cr : ℕ → ℕ) :
    ∀ (buffer : List ℕ) (x : ℕ), x ∈ remapIndexBuffer cr buffer → ∃ y ∈ buffer, x = cr y
  | [], x, hx => by simp [remapIndexBuffer] at hx
  | [a], x, hx => by simp [remapIndexBuffer] at hx
  | [a, b], x, hx => by simp [remapIndexBuffer] at hx
  | a :: b :: c :: rest, x, hx => by
    rw [remapIndexBuffer] at hx
    have htail : x ∈ remapIndexBuffer cr rest → ∃ y ∈ a :: b :: c :: rest, x = cr y := by
      intro hx2
      rcases remapIndexBuffer_mem cr rest x hx2 with ⟨y, hy, hxy⟩
      exact ⟨y, List.mem_cons_of_mem _ (List.mem_cons_of_mem _ (List.mem_cons_of_mem _ hy)),
        hxy⟩
    by_cases h : cr a ≠ cr b ∧ cr a ≠ cr c ∧ cr b ≠ cr c
    · rw [if_pos h] at hx
      rcases List.mem_cons.mp hx with h1 | hx
      · exact ⟨a, List.mem_cons_self _ _, h1⟩
      rcases List.mem_cons.mp hx with h1 | hx
      · exact ⟨b, List.mem_cons_of_mem _ (List.mem_cons_self _ _), h1⟩
      rcases List.mem_cons.mp hx with h1 | hx
      · exact ⟨c, List.mem_cons_of_mem _ (List.mem_cons_of_mem _ (List.mem_cons_self _ _)), h1⟩
      · exact htail hx
    · rw [if_neg h] at hx
      exact htail hx

/-- Every triangle written by remapIndexBuffer has three distinct corners. -/
theorem remapIndexBuffer_distinct (cr : ℕ → ℕ) :
    ∀ buffer : List ℕ, trianglesDistinctB (remapIndexBuffer cr buffer) = true
  | [] => by simp [remapIndexBuffer, trianglesDistinctB]
  | [a] => by simp [remapIndexBuffer, trianglesDistinctB]
  | [a, b] => by simp [remapIndexBuffer, trianglesDistinctB]
  | a :: b :: c :: rest => by
    rw [remapIndexBuffer]
    have := remapIndexBuffer_distinct cr rest
    by_cases h : cr a ≠ cr b ∧ cr a ≠ cr c ∧ cr b ≠ cr c
    · rw [if_pos h, trianglesDistinctB]
      simp only [this, Bool.and_true]
      simp [h.1, h.2.1, h.2.2]
    · rw [if_neg h]
      exact this

/-- If the buffer contains a triangle whose two consecutive corners have the
same collapse_remap image, remapIndexBuffer drops that triangle: the written
length strictly shrinks. -/
theorem remapIndexBuffer_lt (cr : ℕ → ℕ) :
    ∀ (buffer : List ℕ) (x y : ℕ), hasTriEdge buffer x y = true → cr x = cr y →
      (remapIndexBuffer cr buffer).length < buffer.length
  | [], x, y, h, _ => by simp [hasTriEdge] at h
  | [a], x, y, h, _ => by simp [hasTriEdge] at h
  | [a, b], x, y, h, _ => by simp [hasTriEdge] at h
  | a :: b :: c :: rest, x, y, h, hcr => by
    rw [hasTriEdge] at h
    rw [remapIndexBuffer]
    rcases Bool.or_eq_true _ _ |>.mp h with h1 | h2
    · have hdeg : ¬(cr a ≠ cr b ∧ cr a ≠ cr c ∧ cr b ≠ cr c) := by
        rcases Bool.or_eq_true _ _ |>.mp h1 with h3 | h4
        · rcases Bool.or_eq_true _ _ |>.mp h3 with h5 | h6
          · rcases Bool.and_eq_true _ _ |>.mp h5 with ⟨hx, hy⟩
            have hx1 : a = x := by simpa using hx
            have hy1 : b = y := by simpa using hy
            intro hcon
            exact hcon.1 (by rw [hx1, hy1, hcr])
          · rcases Bool.and_eq_true _ _ |>.mp h6 with ⟨hx, hy⟩
            have hx1 : b = x := by simpa using hx
            have hy1 : c = y := by simpa using hy
            intro hcon
            exact hcon.2.2 (by rw [hx1, hy1, hcr])
        · rcases Bool.and_eq_true _ _ |>.mp h4 with ⟨hx, hy⟩
          have hx1 : c = x := by simpa using hx
          have hy1 : a = y := by simpa using hy
          intro hcon
          exact hcon.2.1 (by rw [hx1, hy1, hcr.symm])
      rw [if_neg hdeg]
      have := remapIndexBuffer_length_le cr rest
      simp only [List.length_cons]
      omega
    · have := remapIndexBuffer_lt cr rest x y h2 hcr
      by_cases hd : cr a ≠ cr b ∧ cr a ≠ cr c ∧ cr b ≠ cr c
      · rw [if_pos hd]
        simp only [List.length_cons]
        omega
      · rw [if_neg hd]
        simp only [List.length_cons]
        omega

/-- The placement loop keeps sort_order entries below the record count. -/
theorem radixPlace_range (n : ℕ) :
    ∀ (ps : List (ℕ × ℕ)) (offs ord : ℕ → ℕ),
      (∀ p, ord p < n) → (∀ ik ∈ ps, ik.1 < n) →
      ∀ p, (radixPlace ps offs ord).2 p < n := by
  intro ps
  induction ps with
  | nil => intro offs ord h1 _ p; exact h1 p
  | cons ik rest ih =>
    intro offs ord h1 h2 p
    rw [radixPlace]
    apply ih
    · intro q
      by_cases hq : q = offs ik.2
      · rw [hq, Function.update_same]
        exact h2 ik (List.mem_cons_self _ _)
      · rw [Function.update_noteq hq]
        exact h1 q
    · intro jk hjk
      exact h2 jk (List.mem_cons_of_mem _ hjk)

/-- Every sort_order entry indexes into the record array. -/
theorem radixSortOrder_mem (keys : List ℕ) :
    ∀ idx ∈ radixSortOrder keys, idx < keys.length := by
  intro idx hidx
  unfold radixSortOrder at hidx
  rcases List.mem_map.mp hidx with ⟨p, hp, hval⟩
  rcases Nat.eq_zero_or_pos keys.length with h0 | hpos
  · rw [h0] at hp
    simp at hp
  · subst hval
    apply radixPlace_range keys.length keys.enum _ _ (fun _ => hpos)
    intro ik hik
    have := mem_enumFrom_spec 0 keys 0 ik (by simpa [List.enum] using hik)
    omega

/-- sloppyEmit writes at most as many indices as it reads. -/
theorem sloppyEmit_length_le (vcells cr : ℕ → ℕ) :
    ∀ ind : List ℕ, (sloppyEmit vcells cr ind).length ≤ ind.length
  | [] => by simp [sloppyEmit]
  | [a] => by simp [sloppyEmit]
  | [a, b] => by simp [sloppyEmit]
  | a :: b :: c :: rest => by
    rw [sloppyEmit]
    have := sloppyEmit_length_le vcells cr rest
    by_cases h : cr (vcells a) ≠ cr (vcells b) ∧ cr (vcells a) ≠ cr (vcells c) ∧
        cr (vcells b) ≠ cr (vcells c)
    · rw [if_pos h]
      simp only [List.length_cons]
      omega
    · rw [if_neg h]
      simp only [List.length_cons]
      omega

/-- sloppyEmit writes whole triangles. -/
theorem sloppyEmit_mod3 (vcells cr : ℕ → ℕ) :
    ∀ ind : List ℕ, (sloppyEmit vcells cr ind).length % 3 = 0
  | [] => by simp [sloppyEmit]
  | [a] => by simp [sloppyEmit]
  | [a, b] => by simp [sloppyEmit]
  | a :: b :: c :: rest => by
    rw [sloppyEmit]
    have := sloppyEmit_mod3 vcells cr rest
    by_cases h : cr (vcells a) ≠ cr (vcells b) ∧ cr (vcells a) ≠ cr (vcells c) ∧
        cr (vcells b) ≠ cr (vcells c)
    · rw [if_pos h]
      simp only [List.length_cons]
      omega
    · rw [if_neg h]
      exact this

/-- Every index written by sloppyEmit is a cell representative of an input
index. -/
theorem sloppyEmit_mem (vcells cr : ℕ → ℕ) :
    ∀ (ind : List ℕ) (x : ℕ), x ∈ sloppyEmit vcells cr ind → ∃ y ∈ ind, x = cr (vcells y)
  | [], x, hx => by simp [sloppyEmit] at hx
  | [a], x, hx => by simp [sloppyEmit] at hx
  | [a, b], x, hx => by simp [sloppyEmit] at hx
  | a :: b :: c :: rest, x, hx => by
    rw [sloppyEmit] at hx
    have htail : x ∈ sloppyEmit vcells cr rest → ∃ y ∈ a :: b :: c :: rest,
        x = cr (vcells y) := by
      intro hx2
      rcases sloppyEmit_mem vcells cr rest x hx2 with ⟨y, hy, hxy⟩
      exact ⟨y, List.mem_cons_of_mem _ (List.mem_cons_of_mem _ (List.mem_cons_of_mem _ hy)),
        hxy⟩
    by_cases h : cr (vcells a) ≠ cr (vcells b) ∧ cr (vcells a) ≠ cr (vcells c) ∧
        cr (vcells b) ≠ cr (vcells c)
    · rw [if_pos h] at hx
      rcases List.mem_cons.mp hx with h1 | hx
      · exact ⟨a, List.mem_cons_self _ _, h1⟩
      rcases List.mem_cons.mp hx with h1 | hx
      · exact ⟨b, List.mem_cons_of_mem _ (List.mem_cons_self _ _), h1⟩
      rcases List.mem_cons.mp hx with h1 | hx
      · exact ⟨c, List.mem_cons_of_mem _ (List.mem_cons_of_mem _ (List.mem_cons_self _ _)), h1⟩
      · exact htail hx
    · rw [if_neg h] at hx
      exact htail hx

/-- Every triangle written by sloppyEmit has three distinct corners. -/
theorem sloppyEmit_distinct (vcells cr : ℕ → ℕ) :
    ∀ ind : List ℕ, trianglesDistinctB (sloppyEmit vcells cr ind) = true
  | [] => by simp [sloppyEmit, trianglesDistinctB]
  | [a] => by simp [sloppyEmit, trianglesDistinctB]
  | [a, b] => by simp [sloppyEmit, trianglesDistinctB]
  | a :: b :: c :: rest => by
    rw [sloppyEmit]
    have := sloppyEmit_distinct vcells cr rest
    by_cases h : cr (vcells a) ≠ cr (vcells b) ∧ cr (vcells a) ≠ cr (vcells c) ∧
        cr (vcells b) ≠ cr (vcells c)
    · rw [if_pos h, trianglesDistinctB]
      simp only [this, Bool.and_true]
      simp [h.1, h.2.1, h.2.2]
    · rw [if_neg h]
      exact this

/-- performEdgeCollapses preserves collapseInv: every applied collapse locks
both position classes, locked classes are never moved again, and once a
collapse has been applied some directed triangle edge of the buffer has been
contracted by collapse_remap. -/
theorem performEdgeCollapses_inv (cs : List Collapse) (remap wedge : ℕ → ℕ)
    (kind : ℕ → VertexKind) (goal : ℕ) (lim : ℚ) (buffer : List ℕ)
    (hw : ∀ v, remap (wedge v) = remap v)
    (hk : ∀ v, kind v = VertexKind.Seam → wedge v ≠ v)
    (hcol : ∀ c ∈ cs, remap c.v0 ≠ remap c.v1 ∧
      (hasTriEdge buffer c.v0 c.v1 = true ∨ hasTriEdge buffer c.v1 c.v0 = true)) :
    ∀ (order : List ℕ) (st : CollapseState),
      (∀ idx ∈ order, idx < cs.length) →
      collapseInv remap buffer st →
      collapseInv remap buffer (performEdgeCollapses cs remap wedge kind goal lim order st) := by
  intro order
  induction order with
  | nil =>
    intro st _ hInv
    rw [performEdgeCollapses]
    exact hInv
  | cons idx rest ih =>
    intro st horder hInv
    obtain ⟨hA, hB⟩ : (∀ v, st.collapse_remap v ≠ v →
        st.collapse_locked (remap v) = true) ∧
        (st.edge_collapses ≠ 0 → ∃ x y,
          (hasTriEdge buffer x y = true ∨ hasTriEdge buffer y x = true) ∧ x ≠ y ∧
          st.collapse_remap x = y ∧ st.collapse_remap y = y) := hInv
    rw [performEdgeCollapses]
    by_cases h1 : lim < (cs.getD idx ⟨0, 0, 0⟩).error
    · rw [if_pos h1]; exact ⟨hA, hB⟩
    rw [if_neg h1]
    by_cases h2 : goal ≤ st.triangle_collapses
    · rw [if_pos h2]; exact ⟨hA, hB⟩
    rw [if_neg h2]
    by_cases h3 : (st.collapse_locked (remap (cs.getD idx ⟨0, 0, 0⟩).v0) ||
        st.collapse_locked (remap (cs.getD idx ⟨0, 0, 0⟩).v1)) = true
    · rw [if_pos h3]
      exact ih st (fun j hj => horder j (List.mem_cons_of_mem _ hj)) ⟨hA, hB⟩
    rw [if_neg h3]
    set c := cs.getD idx ⟨0, 0, 0⟩ with hcdef
    simp only [Bool.or_eq_true, not_or, Bool.not_eq_true] at h3
    show collapseInv remap buffer (performEdgeCollapses cs remap wedge kind goal lim rest
      ⟨(if kind c.v0 = VertexKind.Seam then
          Function.update (Function.update st.collapse_remap c.v0 c.v1) (wedge c.v0)
            (wedge c.v1)
        else Function.update st.collapse_remap c.v0 c.v1),
       Function.update (Function.update st.collapse_locked (remap c.v0) true) (remap c.v1)
         true,
       Function.update st.vertex_quadrics (remap c.v1)
         (quadricAdd (st.vertex_quadrics (remap c.v1)) (st.vertex_quadrics (remap c.v0))),
       st.triangle_collapses + (if kind c.v0 = VertexKind.Border then 1 else 2),
       st.edge_collapses + 1⟩)
    have hmem : c ∈ cs := by
      have hidx : idx < cs.length := horder idx (List.mem_cons_self _ _)
      rw [hcdef, List.getD_eq_getElem cs ⟨0, 0, 0⟩ hidx]
      exact List.getElem_mem hidx
    obtain ⟨hrd, hedge⟩ := hcol c hmem
    have hlk : ∀ z, (z = remap c.v0 ∨ z = remap c.v1 ∨ st.collapse_locked z = true) →
        Function.update (Function.update st.collapse_locked (remap c.v0) true) (remap c.v1)
          true z = true := by
      intro z hz
      by_cases hz1 : z = remap c.v1
      · rw [hz1, Function.update_same]
      · rw [Function.update_noteq hz1]
        by_cases hz0 : z = remap c.v0
        · rw [hz0, Function.update_same]
        · rw [Function.update_noteq hz0]
          rcases hz with h | h | h
          · exact absurd h hz0
          · exact absurd h hz1
          · exact h
    have hne0 : c.v1 ≠ c.v0 := fun h => hrd (congrArg remap h.symm)
    have hfix : st.collapse_remap c.v1 = c.v1 := by
      by_contra hne
      have h := hA c.v1 hne
      rw [h3.2] at h
      exact Bool.false_ne_true h
    refine ih _ (fun j hj => horder j (List.mem_cons_of_mem _ hj)) ⟨?_, ?_⟩
    · intro v hv
      replace hv : (if kind c.v0 = VertexKind.Seam then
          Function.update (Function.update st.collapse_remap c.v0 c.v1) (wedge c.v0)
            (wedge c.v1)
        else Function.update st.collapse_remap c.v0 c.v1) v ≠ v := hv
      show Function.update (Function.update st.collapse_locked (remap c.v0) true) (remap c.v1)
        true (remap v) = true
      by_cases hseam : kind c.v0 = VertexKind.Seam
      · rw [if_pos hseam] at hv
        by_cases hv0 : v = wedge c.v0
        · exact hlk _ (Or.inl (by rw [hv0, hw]))
        · by_cases hv1 : v = c.v0
          · exact hlk _ (Or.inl (by rw [hv1]))
          · rw [Function.update_noteq hv0, Function.update_noteq hv1] at hv
            exact hlk _ (Or.inr (Or.inr (hA v hv)))
      · rw [if_neg hseam] at hv
        by_cases hv1 : v = c.v0
        · exact hlk _ (Or.inl (by rw [hv1]))
        · rw [Function.update_noteq hv1] at hv
          exact hlk _ (Or.inr (Or.inr (hA v hv)))
    · intro _
      refine ⟨c.v0, c.v1, hedge, fun h => hrd (congrArg remap h), ?_, ?_⟩
      · show (if kind c.v0 = VertexKind.Seam then
            Function.update (Function.update st.collapse_remap c.v0 c.v1) (wedge c.v0)
              (wedge c.v1)
          else Function.update st.collapse_remap c.v0 c.v1) c.v0 = c.v1
        by_cases hseam : kind c.v0 = VertexKind.Seam
        · rw [if_pos hseam]
          have hne : c.v0 ≠ wedge c.v0 := fun h => hk c.v0 hseam h.symm
          rw [Function.update_noteq hne, Function.update_same]
        · rw [if_neg hseam, Function.update_same]
      · show (if kind c.v0 = VertexKind.Seam then
            Function.update (Function.update st.collapse_remap c.v0 c.v1) (wedge c.v0)
              (wedge c.v1)
          else Function.update st.collapse_remap c.v0 c.v1) c.v1 = c.v1
        by_cases hseam : kind c.v0 = VertexKind.Seam
        · rw [if_pos hseam]
          have hne1 : c.v1 ≠ wedge c.v0 := fun h => hrd (by rw [h, hw])
          rw [Function.update_noteq hne1, Function.update_noteq hne0]
          exact hfix
        · rw [if_neg hseam, Function.update_noteq hne0]
          exact hfix

/-- Every collapse_remap value produced by performEdgeCollapses stays below
vertex_count when the record targets and their wedges do. -/
theorem performEdgeCollapses_bound (cs : List Collapse) (remap wedge : ℕ → ℕ)
    (kind : ℕ → VertexKind) (goal : ℕ) (lim : ℚ) (vc : ℕ)
    (hval : ∀ c ∈ cs, c.v1 < vc ∧ wedge c.v1 < vc)
    (h0 : 0 < vc) (hw0 : wedge 0 < vc) :
    ∀ (order : List ℕ) (st : CollapseState),
      (∀ x, x < vc → st.collapse_remap x < vc) →
      ∀ x, x < vc →
        (performEdgeCollapses cs remap wedge kind goal lim order st).collapse_remap x < vc := by
  intro order
  induction order with
  | nil =>
    intro st hst x hx
    rw [performEdgeCollapses]
    exact hst x hx
  | cons idx rest ih =>
    intro st hst x hx
    rw [performEdgeCollapses]
    by_cases h1 : lim < (cs.getD idx ⟨0, 0, 0⟩).error
    · rw [if_pos h1]; exact hst x hx
    rw [if_neg h1]
    by_cases h2 : goal ≤ st.triangle_collapses
    · rw [if_pos h2]; exact hst x hx
    rw [if_neg h2]
    by_cases h3 : (st.collapse_locked (remap (cs.getD idx ⟨0, 0, 0⟩).v0) ||
        st.collapse_locked (remap (cs.getD idx ⟨0, 0, 0⟩).v1)) = true
    · rw [if_pos h3]; exact ih st hst x hx
    rw [if_neg h3]
    set c := cs.getD idx ⟨0, 0, 0⟩ with hcdef
    show (performEdgeCollapses cs remap wedge kind goal lim rest
      ⟨(if kind c.v0 = VertexKind.Seam then
          Function.update (Function.update st.collapse_remap c.v0 c.v1) (wedge c.v0)
            (wedge c.v1)
        else Function.update st.collapse_remap c.v0 c.v1),
       Function.update (Function.update st.collapse_locked (remap c.v0) true) (remap c.v1)
         true,
       Function.update st.vertex_quadrics (remap c.v1)
         (quadricAdd (st.vertex_quadrics (remap c.v1)) (st.vertex_quadrics (remap c.v0))),
       st.triangle_collapses + (if kind c.v0 = VertexKind.Border then 1 else 2),
       st.edge_collapses + 1⟩).collapse_remap x < vc
    have hv1 : c.v1 < vc ∧ wedge c.v1 < vc := by
      rcases getD_mem_or_default cs idx ⟨0, 0, 0⟩ with hmem | hdef
      · rw [← hcdef] at hmem
        exact hval c hmem
      · rw [← hcdef] at hdef
        rw [hdef]
        exact ⟨h0, hw0⟩
    refine ih _ ?_ x hx
    intro z hz
    show (if kind c.v0 = VertexKind.Seam then
        Function.update (Function.update st.collapse_remap c.v0 c.v1) (wedge c.v0)
          (wedge c.v1)
      else Function.update st.collapse_remap c.v0 c.v1) z < vc
    by_cases hseam : kind c.v0 = VertexKind.Seam
    · rw [if_pos hseam]
      by_cases hz0 : z = wedge c.v0
      · rw [hz0, Function.update_same]
        exact hv1.2
      · rw [Function.update_noteq hz0]
        by_cases hz1 : z = c.v0
        · rw [hz1, Function.update_same]
          exact hv1.1
        · rw [Function.update_noteq hz1]
          exact hst z hz
    · rw [if_neg hseam]
      by_cases hz1 : z = c.v0
      · rw [hz1, Function.update_same]
        exact hv1.1
      · rw [Function.update_noteq hz1]
        exact hst z hz

/-- Unfolding helper for simplifyPass, naming each intermediate of the pass. -/
theorem simplifyPass_eq (vc tic : ℕ) (te : ℚ) (errBits : ℚ → ℕ) (remap wedge : ℕ → ℕ)
    (kind : ℕ → VertexKind) (vp : ℕ → Vector3) (st : SimplifyState)
    (picked : List CollapsePick) (ranked : List Collapse) (order : List ℕ)
    (tcg ecg : ℕ) (eg el : ℚ) (res : CollapseState)
    (h1 : pickEdgeCollapses remap kind st.loopv st.buffer = picked)
    (h2 : rankEdgeCollapses vp st.quadrics remap picked = ranked)
    (h3 : radixSortOrder (ranked.map (fun c => radixKey (errBits c.error))) = order)
    (h4 : (st.buffer.length - tic) / 3 = tcg)
    (h5 : tcg / 2 = ecg)
    (h6 : (if ecg < ranked.length then
        (ranked.getD (order.getD ecg 0) ⟨0, 0, 0⟩).error * kPassErrorBound
      else fltMax) = eg)
    (h7 : passErrorLimit eg te = el)
    (h8 : performEdgeCollapses ranked remap wedge kind tcg el order
      (collapseInit st.quadrics) = res) :
    simplifyPass vc tic te errBits remap wedge kind vp st =
      (if picked.length = 0 then none
       else if res.edge_collapses = 0 then none
       else some ⟨remapIndexBuffer res.collapse_remap st.buffer, res.vertex_quadrics,
         remapEdgeLoops st.loopv vc res.collapse_remap⟩) := by
  subst h1 h2 h3 h4 h5 h6 h7 h8
  rfl

/-- A productive pass strictly shrinks the buffer: performEdgeCollapses
reports edge_collapses ≠ 0 only after contracting a directed triangle edge of
the buffer, whose triangle remapIndexBuffer then drops. -/
theorem simplifyPass_decrease (vc tic : ℕ) (te : ℚ) (errBits : ℚ → ℕ)
    (remap wedge : ℕ → ℕ) (kind : ℕ → VertexKind) (vp : ℕ → Vector3)
    (hw : ∀ v, remap (wedge v) = remap v)
    (hk : ∀ v, kind v = VertexKind.Seam → wedge v ≠ v) :
    ∀ st : SimplifyState,
      (simplifyPass vc tic te errBits remap wedge kind vp st).elim True
        (fun st1 => st1.buffer.length < st.buffer.length) := by
  intro st
  obtain ⟨picked, hpk⟩ : ∃ p, pickEdgeCollapses remap kind st.loopv st.buffer = p := ⟨_, rfl⟩
  obtain ⟨ranked, hrk⟩ : ∃ r, rankEdgeCollapses vp st.quadrics remap picked = r := ⟨_, rfl⟩
  obtain ⟨order, hor⟩ :
      ∃ o, radixSortOrder (ranked.map (fun c => radixKey (errBits c.error))) = o := ⟨_, rfl⟩
  obtain ⟨eg, heg⟩ : ∃ e, (if (st.buffer.length - tic) / 3 / 2 < ranked.length then
      (ranked.getD (order.getD ((st.buffer.length - tic) / 3 / 2) 0) ⟨0, 0, 0⟩).error *
        kPassErrorBound
    else fltMax) = e := ⟨_, rfl⟩
  obtain ⟨el, hel⟩ : ∃ e, passErrorLimit eg te = e := ⟨_, rfl⟩
  obtain ⟨res, hres⟩ : ∃ r, performEdgeCollapses ranked remap wedge kind
      ((st.buffer.length - tic) / 3) el order (collapseInit st.quadrics) = r := ⟨_, rfl⟩
  rw [simplifyPass_eq vc tic te errBits remap wedge kind vp st picked ranked order
    ((st.buffer.length - tic) / 3) ((st.buffer.length - tic) / 3 / 2) eg el res
    hpk hrk hor rfl rfl heg hel hres]
  by_cases h0 : picked.length = 0
  · rw [if_pos h0]
    exact trivial
  · rw [if_neg h0]
    by_cases hec : res.edge_collapses = 0
    · rw [if_pos hec]
      exact trivial
    · rw [if_neg hec]
      show (remapIndexBuffer res.collapse_remap st.buffer).length < st.buffer.length
      have hcol : ∀ c ∈ ranked, remap c.v0 ≠ remap c.v1 ∧
          (hasTriEdge st.buffer c.v0 c.v1 = true ∨ hasTriEdge st.buffer c.v1 c.v0 = true) := by
        intro c hc
        rw [← hrk, ← hpk] at hc
        exact ranked_spec vp st.quadrics remap kind st.loopv st.buffer c hc
      have horder : ∀ i ∈ order, i < ranked.length := by
        intro i hi
        rw [← hor] at hi
        have h := radixSortOrder_mem _ i hi
        rw [List.length_map] at h
        exact h
      have hInv := performEdgeCollapses_inv ranked remap wedge kind
        ((st.buffer.length - tic) / 3) el st.buffer hw hk hcol order
        (collapseInit st.quadrics) horder
        ⟨fun v hv => absurd rfl hv, fun h => absurd rfl h⟩
      rw [hres] at hInv
      obtain ⟨hA, hB⟩ : (∀ v, res.collapse_remap v ≠ v →
          res.collapse_locked (remap v) = true) ∧
          (res.edge_collapses ≠ 0 → ∃ x y,
            (hasTriEdge st.buffer x y = true ∨ hasTriEdge st.buffer y x = true) ∧ x ≠ y ∧
            res.collapse_remap x = y ∧ res.collapse_remap y = y) := hInv
      obtain ⟨x, y, hedge, hxy, hcx, hcy⟩ := hB hec
      rcases hedge with he | he
      · exact remapIndexBuffer_lt res.collapse_remap st.buffer x y he (by rw [hcx, hcy])
      · exact remapIndexBuffer_lt res.collapse_remap st.buffer y x he (by rw [hcy, hcx])

/-- A pass keeps the index-domain, whole-triangle and length bounds of the
buffer. -/
theorem simplifyPass_bound (vc tic : ℕ) (te : ℚ) (errBits : ℚ → ℕ)
    (remap wedge : ℕ → ℕ) (kind : ℕ → VertexKind) (vp : ℕ → Vector3)
    (hwlt : ∀ v, v < vc → wedge v < vc) :
    ∀ st : SimplifyState, (∀ x ∈ st.buffer, x < vc) →
      (simplifyPass vc tic te errBits remap wedge kind vp st).elim True (fun st1 =>
        (∀ x ∈ st1.buffer, x < vc) ∧ st1.buffer.length % 3 = 0 ∧
        st1.buffer.length ≤ st.buffer.length) := by
  intro st hbuf
  obtain ⟨picked, hpk⟩ : ∃ p, pickEdgeCollapses remap kind st.loopv st.buffer = p := ⟨_, rfl⟩
  obtain ⟨ranked, hrk⟩ : ∃ r, rankEdgeCollapses vp st.quadrics remap picked = r := ⟨_, rfl⟩
  obtain ⟨order, hor⟩ :
      ∃ o, radixSortOrder (ranked.map (fun c => radixKey (errBits c.error))) = o := ⟨_, rfl⟩
  obtain ⟨eg, heg⟩ : ∃ e, (if (st.buffer.length - tic) / 3 / 2 < ranked.length then
      (ranked.getD (order.getD ((st.buffer.length - tic) / 3 / 2) 0) ⟨0, 0, 0⟩).error *
        kPassErrorBound
    else fltMax) = e := ⟨_, rfl⟩
  obtain ⟨el, hel⟩ : ∃ e, passErrorLimit eg te = e := ⟨_, rfl⟩
  obtain ⟨res, hres⟩ : ∃ r, performEdgeCollapses ranked remap wedge kind
      ((st.buffer.length - tic) / 3) el order (collapseInit st.quadrics) = r := ⟨_, rfl⟩
  rw [simplifyPass_eq vc tic te errBits remap wedge kind vp st picked ranked order
    ((st.buffer.length - tic) / 3) ((st.buffer.length - tic) / 3 / 2) eg el res
    hpk hrk hor rfl rfl heg hel hres]
  by_cases h0 : picked.length = 0
  · rw [if_pos h0]
    exact trivial
  · rw [if_neg h0]
    by_cases hec : res.edge_collapses = 0
    · rw [if_pos hec]
      exact trivial
    · rw [if_neg hec]
      show (∀ x ∈ remapIndexBuffer res.collapse_remap st.buffer, x < vc) ∧
        (remapIndexBuffer res.collapse_remap st.buffer).length % 3 = 0 ∧
        (remapIndexBuffer res.collapse_remap st.buffer).length ≤ st.buffer.length
      have hvpos : 0 < vc := by
        obtain ⟨c, hc⟩ := List.exists_mem_of_length_pos (Nat.pos_of_ne_zero h0)
        rw [← hpk] at hc
        have hspec := pickEdgeCollapses_spec remap kind st.loopv st.buffer c hc
        rcases hspec.2 with he | he
        · exact Nat.lt_of_le_of_lt (Nat.zero_le _) (hbuf _ (hasTriEdge_mem _ _ _ he).1)
        · exact Nat.lt_of_le_of_lt (Nat.zero_le _) (hbuf _ (hasTriEdge_mem _ _ _ he).1)
      have hcrb : ∀ z, z < vc → res.collapse_remap z < vc := by
        intro z hz
        rw [← hres]
        refine performEdgeCollapses_bound ranked remap wedge kind _ el vc ?_ hvpos
          (hwlt 0 hvpos) order (collapseInit st.quadrics) (fun x hx => hx) z hz
        intro c hc
        rw [← hrk, ← hpk] at hc
        have hspec := ranked_spec vp st.quadrics remap kind st.loopv st.buffer c hc
        rcases hspec.2 with he | he
        · have h1 := hbuf _ (hasTriEdge_mem _ _ _ he).2
          exact ⟨h1, hwlt _ h1⟩
        · have h1 := hbuf _ (hasTriEdge_mem _ _ _ he).1
          exact ⟨h1, hwlt _ h1⟩
      refine ⟨?_, remapIndexBuffer_mod3 _ _, remapIndexBuffer_length_le _ _⟩
      intro x hx
      obtain ⟨y, hy, hxy⟩ := remapIndexBuffer_mem res.collapse_remap st.buffer x hx
      rw [hxy]
      exact hcrb y (hbuf y hy)

/-- Beyond buffer-length fuel, simplifyLoop is insensitive to extra fuel: the
strict decrease of each productive pass bounds the pass count, so the while
loop terminates. -/
theorem simplifyLoop_fuel (vc tic : ℕ) (te : ℚ) (errBits : ℚ → ℕ) (remap wedge : ℕ → ℕ)
    (kind : ℕ → VertexKind) (vp : ℕ → Vector3)
    (hw : ∀ v, remap (wedge v) = remap v)
    (hk : ∀ v, kind v = VertexKind.Seam → wedge v ≠ v) :
    ∀ (n extra : ℕ) (st : SimplifyState), st.buffer.length ≤ n →
      simplifyLoop vc tic te errBits remap wedge kind vp (n + 1) st =
        simplifyLoop vc tic te errBits remap wedge kind vp (n + 1 + extra) st := by
  intro n
  induction n with
  | zero =>
    intro extra st hlen
    have hguard : ¬tic < st.buffer.length := by omega
    have harr : 0 + 1 + extra = extra + 1 := by omega
    rw [harr]
    conv_lhs => rw [simplifyLoop]
    conv_rhs => rw [simplifyLoop]
    rw [if_neg hguard, if_neg hguard]
  | succ n ih =>
    intro extra st hlen
    have harr : n + 1 + 1 + extra = n + 1 + extra + 1 := by omega
    rw [harr]
    conv_lhs => rw [simplifyLoop]
    conv_rhs => rw [simplifyLoop]
    by_cases hguard : tic < st.buffer.length
    · rw [if_pos hguard, if_pos hguard]
      rcases hp : simplifyPass vc tic te errBits remap wedge kind vp st with _ | st1
      · rfl
      · show simplifyLoop vc tic te errBits remap wedge kind vp (n + 1) st1 =
          simplifyLoop vc tic te errBits remap wedge kind vp (n + 1 + extra) st1
        apply ih extra st1
        have hdec := simplifyPass_decrease vc tic te errBits remap wedge kind vp hw hk st
        rw [hp] at hdec
        have hlt : st1.buffer.length < st.buffer.length := hdec
        omega
    · rw [if_neg hguard, if_neg hguard]

/-- simplifyLoop keeps the index-domain, whole-triangle and length bounds of
its starting buffer. -/
theorem simplifyLoop_bound (vc tic : ℕ) (te : ℚ) (errBits : ℚ → ℕ) (remap wedge : ℕ → ℕ)
    (kind : ℕ → VertexKind) (vp : ℕ → Vector3)
    (hwlt : ∀ v, v < vc → wedge v < vc) :
    ∀ (fuel : ℕ) (st : SimplifyState), (∀ x ∈ st.buffer, x < vc) →
      st.buffer.length % 3 = 0 →
      (∀ x ∈ (simplifyLoop vc tic te errBits remap wedge kind vp fuel st).buffer, x < vc) ∧
      (simplifyLoop vc tic te errBits remap wedge kind vp fuel st).buffer.length % 3 = 0 ∧
      (simplifyLoop vc tic te errBits remap wedge kind vp fuel st).buffer.length ≤
        st.buffer.length := by
  intro fuel
  induction fuel with
  | zero =>
    intro st hbuf hmod
    rw [simplifyLoop]
    exact ⟨hbuf, hmod, le_refl _⟩
  | succ n ih =>
    intro st hbuf hmod
    rw [simplifyLoop]
    by_cases hguard : tic < st.buffer.length
    · rw [if_pos hguard]
      rcases hp : simplifyPass vc tic te errBits remap wedge kind vp st with _ | st1
      · exact ⟨hbuf, hmod, le_refl _⟩
      · have hps := simplifyPass_bound vc tic te errBits remap wedge kind vp hwlt st hbuf
        rw [hp] at hps
        obtain ⟨h1, h2, h3⟩ : (∀ x ∈ st1.buffer, x < vc) ∧ st1.buffer.length % 3 = 0 ∧
            st1.buffer.length ≤ st.buffer.length := hps
        obtain ⟨g1, g2, g3⟩ := ih st1 h1 h2
        exact ⟨g1, g2, le_trans g3 h3⟩
    · rw [if_neg hguard]
      exact ⟨hbuf, hmod, le_refl _⟩

/-- C3.  The outer loop of meshopt_simplify terminates: with the position
remap, wedge table and vertex kinds the entry point actually builds, (1) each
pass either breaks (modelled by `none`) or strictly decreases the buffer
length — an applied collapse contracts a directed triangle edge and
remapIndexBuffer drops the degenerated triangle — and (2) the loop is a
fixpoint beyond buffer-length fuel: any extra fuel leaves the outcome
unchanged, which is exactly termination of the source's unbounded `while`. -/
theorem claim_C3_termination_strict_decrease (positions : ℕ → Vector3) (indices : List ℕ)
    (vertex_count target_index_count : ℕ) (target_error : ℚ) (errBits : ℚ → ℕ)
    (vp : ℕ → Vector3) (st : SimplifyState) :
    ((simplifyPass vertex_count target_index_count target_error errBits
        (buildPositionRemap positions vertex_count).1
        (buildPositionRemap positions vertex_count).2
        (classifyVertices (buildEdgeAdjacency indices vertex_count)
          (buildPositionRemap positions vertex_count).1
          (buildPositionRemap positions vertex_count).2 vertex_count).1 vp st).elim True
      (fun st1 => st1.buffer.length < st.buffer.length)) ∧
    (∀ extra, simplifyLoop vertex_count target_index_count target_error errBits
        (buildPositionRemap positions vertex_count).1
        (buildPositionRemap positions vertex_count).2
        (classifyVertices (buildEdgeAdjacency indices vertex_count)
          (buildPositionRemap positions vertex_count).1
          (buildPositionRemap positions vertex_count).2 vertex_count).1 vp
        (st.buffer.length + 1) st =
      simplifyLoop vertex_count target_index_count target_error errBits
        (buildPositionRemap positions vertex_count).1
        (buildPositionRemap positions vertex_count).2
        (classifyVertices (buildEdgeAdjacency indices vertex_count)
          (buildPositionRemap positions vertex_count).1
          (buildPositionRemap positions vertex_count).2 vertex_count).1 vp
        (st.buffer.length + 1 + extra) st) := by
  have hspec := buildPositionRemap_spec positions vertex_count
  have hw : ∀ v, (buildPositionRemap positions vertex_count).1
      ((buildPositionRemap positions vertex_count).2 v) =
      (buildPositionRemap positions vertex_count).1 v := hspec.2.2.2.2.1
  have hwr : ∀ v, (buildPositionRemap positions vertex_count).1 v ≠ v →
      (buildPositionRemap positions vertex_count).2 v ≠ v := hspec.2.2.2.2.2.2.2
  have hk := classifyVertices_seam (buildEdgeAdjacency indices vertex_count)
    (buildPositionRemap positions vertex_count).1
    (buildPositionRemap positions vertex_count).2 vertex_count hwr
  constructor
  · exact simplifyPass_decrease vertex_count target_index_count target_error errBits
      (buildPositionRemap positions vertex_count).1
      (buildPositionRemap positions vertex_count).2
      (classifyVertices (buildEdgeAdjacency indices vertex_count)
        (buildPositionRemap positions vertex_count).1
        (buildPositionRemap positions vertex_count).2 vertex_count).1 vp hw hk st
  · intro extra
    exact simplifyLoop_fuel vertex_count target_index_count target_error errBits
      (buildPositionRemap positions vertex_count).1
      (buildPositionRemap positions vertex_count).2
      (classifyVertices (buildEdgeAdjacency indices vertex_count)
        (buildPositionRemap positions vertex_count).1
        (buildPositionRemap positions vertex_count).2 vertex_count).1 vp hw hk
      st.buffer.length extra st (le_refl _)

/-- cellRemapFold only ever stores sentinel or a processed vertex index: every
cell representative is a vertex below vertex_count. -/
theorem cellRemapFold_bound (vcells : ℕ → ℕ) (cq : ℕ → Quadric) (vp : ℕ → Vector3) (vc : ℕ) :
    ∀ (l : List ℕ) (cr : ℕ → ℕ) (cerr : ℕ → ℚ),
      (∀ i ∈ l, i < vc) →
      (∀ cell, cr cell = sentinel ∨ cr cell < vc) →
      ∀ cell, (cellRemapFold vcells cq vp l cr cerr).1 cell = sentinel ∨
        (cellRemapFold vcells cq vp l cr cerr).1 cell < vc
  | [], cr, cerr, _, hcr, cell => by
    rw [cellRemapFold]
    exact hcr cell
  | i :: rest, cr, cerr, hl, hcr, cell => by
    rw [cellRemapFold]
    by_cases hs : cr (vcells i) = sentinel
    · rw [if_pos hs]
      refine cellRemapFold_bound vcells cq vp vc rest _ _
        (fun j hj => hl j (List.mem_cons_of_mem _ hj)) ?_ cell
      intro cell2
      by_cases hc2 : cell2 = vcells i
      · rw [hc2, Function.update_same]
        exact Or.inr (hl i (List.mem_cons_self _ _))
      · rw [Function.update_noteq hc2]
        exact hcr cell2
    · rw [if_neg hs]
      refine cellRemapFold_bound vcells cq vp vc rest _ _
        (fun j hj => hl j (List.mem_cons_of_mem _ hj)) ?_ cell
      intro cell2
      by_cases hc2 : cell2 = vcells i
      · rw [hc2, Function.update_same]
        by_cases he : quadricError (cq (vcells i)) (vp i) < cerr (vcells i)
        · rw [if_pos he]
          exact Or.inr (hl i (List.mem_cons_self _ _))
        · rw [if_neg he]
          rcases hcr (vcells i) with h | h
          · exact absurd h hs
          · exact Or.inr h
      · rw [Function.update_noteq hc2]
        exact hcr cell2

/-- A cell whose representative is already set never reverts to sentinel. -/
theorem cellRemapFold_preserve (vcells : ℕ → ℕ) (cq : ℕ → Quadric) (vp : ℕ → Vector3) :
    ∀ (l : List ℕ) (cr : ℕ → ℕ) (cerr : ℕ → ℚ),
      (∀ i ∈ l, i ≠ sentinel) →
      ∀ cell, cr cell ≠ sentinel →
        (cellRemapFold vcells cq vp l cr cerr).1 cell ≠ sentinel
  | [], cr, cerr, _, cell, h => by
    rw [cellRemapFold]
    exact h
  | i :: rest, cr, cerr, hl, cell, h => by
    rw [cellRemapFold]
    by_cases hs : cr (vcells i) = sentinel
    · rw [if_pos hs]
      refine cellRemapFold_preserve vcells cq vp rest _ _
        (fun k hk => hl k (List.mem_cons_of_mem _ hk)) cell ?_
      by_cases hc2 : cell = vcells i
      · rw [hc2, Function.update_same]
        exact hl i (List.mem_cons_self _ _)
      · rw [Function.update_noteq hc2]
        exact h
    · rw [if_neg hs]
      refine cellRemapFold_preserve vcells cq vp rest _ _
        (fun k hk => hl k (List.mem_cons_of_mem _ hk)) cell ?_
      by_cases hc2 : cell = vcells i
      · rw [hc2, Function.update_same]
        by_cases he : quadricError (cq (vcells i)) (vp i) < cerr (vcells i)
        · rw [if_pos he]
          exact hl i (List.mem_cons_self _ _)
        · rw [if_neg he]
          exact hs
      · rw [Function.update_noteq hc2]
        exact h

/-- After cellRemapFold every processed vertex's cell has a representative. -/
theorem cellRemapFold_written (vcells : ℕ → ℕ) (cq : ℕ → Quadric) (vp : ℕ → Vector3) :
    ∀ (l : List ℕ) (cr : ℕ → ℕ) (cerr : ℕ → ℚ),
      (∀ i ∈ l, i ≠ sentinel) →
      ∀ j ∈ l, (cellRemapFold vcells cq vp l cr cerr).1 (vcells j) ≠ sentinel
  | [], cr, cerr, _, j, hj => by simp at hj
  | i :: rest, cr, cerr, hl, j, hj => by
    rw [cellRemapFold]
    rcases List.mem_cons.mp hj with heq | hjr
    · subst heq
      by_cases hs : cr (vcells j) = sentinel
      · rw [if_pos hs]
        refine cellRemapFold_preserve vcells cq vp rest _ _
          (fun k hk => hl k (List.mem_cons_of_mem _ hk)) (vcells j) ?_
        rw [Function.update_same]
        exact hl j (List.mem_cons_self _ _)
      · rw [if_neg hs]
        refine cellRemapFold_preserve vcells cq vp rest _ _
          (fun k hk => hl k (List.mem_cons_of_mem _ hk)) (vcells j) ?_
        rw [Function.update_same]
        by_cases he : quadricError (cq (vcells j)) (vp j) < cerr (vcells j)
        · rw [if_pos he]
          exact hl j (List.mem_cons_self _ _)
        · rw [if_neg he]
          exact hs
    · by_cases hs : cr (vcells i) = sentinel
      · rw [if_pos hs]
        exact cellRemapFold_written vcells cq vp rest _ _
          (fun k hk => hl k (List.mem_cons_of_mem _ hk)) j hjr
      · rw [if_neg hs]
        exact cellRemapFold_written vcells cq vp rest _ _
          (fun k hk => hl k (List.mem_cons_of_mem _ hk)) j hjr

/-- Unfolding helper for the productive branch of meshopt_simplifySloppy,
naming each intermediate. -/
theorem meshopt_simplifySloppy_eq (indices : List ℕ) (positions : ℕ → Vector3)
    (vc tic : ℕ) (te : ℚ) (vp : ℕ → Vector3) (ids : ℕ → ℕ) (mask : ℕ) (vcells cr : ℕ → ℕ)
    (out : List ℕ)
    (h0 : ¬tic / 6 = 0)
    (h1 : rescalePositions positions vc = vp)
    (h2 : (fun i => vertexId (vp i)) = ids)
    (h3 : sloppyMask (approxMaskAux
        (fun p => countApprox ids vc (sloppyMask p) (hashBuckets2 (tic / 6 * 4)))
        (tic / 6) 10 0) = mask)
    (h4 : (cellFillFold ids mask (hashBuckets2 vc) (List.range vc)
        (fun _ => ⟨sentinel, 0⟩) 0 (fun _ => 0)).2.2 = vcells)
    (h5 : (cellRemapFold vcells
        (fillFaceQuadrics vp vcells indices (fun _ => zeroQuadric)) vp (List.range vc)
        (fun _ => sentinel) (fun _ => 0)).1 = cr)
    (h6 : sloppyEmit vcells cr indices = out) :
    meshopt_simplifySloppy indices positions vc tic te = (out.length, out) := by
  subst h1 h2 h3 h4 h5 h6
  rw [meshopt_simplifySloppy]
  exact if_neg h0

/-- C2.  For valid input (index count a multiple of 3, all indices below
vertex_count, and vertex_count at most the 32-bit sentinel), both entry
points return a triangle count: the returned count is a multiple of 3, at
most index_count, equals the number of indices written, and every written
index is below vertex_count. -/
theorem claim_C2_output_invariants (indices : List ℕ) (positions : ℕ → Vector3)
    (vertex_count target_index_count : ℕ) (target_error : ℚ) (errBits : ℚ → ℕ)
    (hmod : indices.length % 3 = 0) (hidx : ∀ x ∈ indices, x < vertex_count)
    (hvc : vertex_count ≤ sentinel) :
    ((meshopt_simplify indices positions vertex_count target_index_count target_error
        errBits).1 % 3 = 0 ∧
      (meshopt_simplify indices positions vertex_count target_index_count target_error
        errBits).1 ≤ indices.length ∧
      (meshopt_simplify indices positions vertex_count target_index_count target_error
        errBits).2.length =
        (meshopt_simplify indices positions vertex_count target_index_count target_error
          errBits).1 ∧
      (∀ x ∈ (meshopt_simplify indices positions vertex_count target_index_count target_error
        errBits).2, x < vertex_count)) ∧
    ((meshopt_simplifySloppy indices positions vertex_count target_index_count
        target_error).1 % 3 = 0 ∧
      (meshopt_simplifySloppy indices positions vertex_count target_index_count
        target_error).1 ≤ indices.length ∧
      (meshopt_simplifySloppy indices positions vertex_count target_index_count
        target_error).2.length =
        (meshopt_simplifySloppy indices positions vertex_count target_index_count
          target_error).1 ∧
      (∀ x ∈ (meshopt_simplifySloppy indices positions vertex_count target_index_count
        target_error).2, x < vertex_count)) := by
  constructor
  · have hspec := buildPositionRemap_spec positions vertex_count
    have hwlt : ∀ v, v < vertex_count →
        (buildPositionRemap positions vertex_count).2 v < vertex_count := by
      intro v hv
      rcases hspec.2.2.2.2.2.2.1 v with h | h
      · rw [h]
        exact hv
      · exact h
    obtain ⟨hent, hmod3, hle⟩ := simplifyLoop_bound vertex_count target_index_count
      target_error errBits (buildPositionRemap positions vertex_count).1
      (buildPositionRemap positions vertex_count).2
      (classifyVertices (buildEdgeAdjacency indices vertex_count)
        (buildPositionRemap positions vertex_count).1
        (buildPositionRemap positions vertex_count).2 vertex_count).1
      (rescalePositions positions vertex_count) hwlt (indices.length + 1)
      ⟨indices, fillEdgeQuadrics (rescalePositions positions vertex_count)
        (buildPositionRemap positions vertex_count).1
        (classifyVertices (buildEdgeAdjacency indices vertex_count)
          (buildPositionRemap positions vertex_count).1
          (buildPositionRemap positions vertex_count).2 vertex_count).1
        (classifyVertices (buildEdgeAdjacency indices vertex_count)
          (buildPositionRemap positions vertex_count).1
          (buildPositionRemap positions vertex_count).2 vertex_count).2 indices
        (fillFaceQuadrics (rescalePositions positions vertex_count)
          (buildPositionRemap positions vertex_count).1 indices (fun _ => zeroQuadric)),
       (classifyVertices (buildEdgeAdjacency indices vertex_count)
          (buildPositionRemap positions vertex_count).1
          (buildPositionRemap positions vertex_count).2 vertex_count).2⟩ hidx hmod
    exact ⟨hmod3, hle, rfl, hent⟩
  · by_cases h0 : target_index_count / 6 = 0
    · have heq : meshopt_simplifySloppy indices positions vertex_count target_index_count
          target_error = (0, []) := by
        rw [meshopt_simplifySloppy]
        exact if_pos h0
      rw [heq]
      refine ⟨rfl, Nat.zero_le _, rfl, ?_⟩
      intro x hx
      exact absurd hx (List.not_mem_nil x)
    · obtain ⟨vp, h1⟩ : ∃ v, rescalePositions positions vertex_count = v := ⟨_, rfl⟩
      obtain ⟨ids, h2⟩ : ∃ f, (fun i => vertexId (vp i)) = f := ⟨_, rfl⟩
      obtain ⟨mask, h3⟩ : ∃ m, sloppyMask (approxMaskAux
          (fun p => countApprox ids vertex_count (sloppyMask p)
            (hashBuckets2 (target_index_count / 6 * 4)))
          (target_index_count / 6) 10 0) = m := ⟨_, rfl⟩
      obtain ⟨vcells, h4⟩ : ∃ f, (cellFillFold ids mask (hashBuckets2 vertex_count)
          (List.range vertex_count) (fun _ => ⟨sentinel, 0⟩) 0 (fun _ => 0)).2.2 = f :=
        ⟨_, rfl⟩
      obtain ⟨cr, h5⟩ : ∃ f, (cellRemapFold vcells
          (fillFaceQuadrics vp vcells indices (fun _ => zeroQuadric)) vp
          (List.range vertex_count) (fun _ => sentinel) (fun _ => 0)).1 = f := ⟨_, rfl⟩
      obtain ⟨out, h6⟩ : ∃ o, sloppyEmit vcells cr indices = o := ⟨_, rfl⟩
      rw [meshopt_simplifySloppy_eq indices positions vertex_count target_index_count
        target_error vp ids mask vcells cr out h0 h1 h2 h3 h4 h5 h6]
      refine ⟨?_, ?_, rfl, ?_⟩
      · show out.length % 3 = 0
        rw [← h6]
        exact sloppyEmit_mod3 vcells cr indices
      · show out.length ≤ indices.length
        rw [← h6]
        exact sloppyEmit_length_le vcells cr indices
      · show ∀ x ∈ out, x < vertex_count
        intro x hx
        rw [← h6] at hx
        obtain ⟨y, hy, hxy⟩ := sloppyEmit_mem vcells cr indices x hx
        rw [hxy]
        have hns : cr (vcells y) ≠ sentinel := by
          rw [← h5]
          refine cellRemapFold_written vcells
            (fillFaceQuadrics vp vcells indices (fun _ => zeroQuadric)) vp
            (List.range vertex_count) (fun _ => sentinel) (fun _ => 0) ?_ y ?_
          · intro i hi
            exact Nat.ne_of_lt (Nat.lt_of_lt_of_le (List.mem_range.mp hi) hvc)
          · exact List.mem_range.mpr (hidx y hy)
        have hbnd : cr (vcells y) = sentinel ∨ cr (vcells y) < vertex_count := by
          rw [← h5]
          refine cellRemapFold_bound vcells
            (fillFaceQuadrics vp vcells indices (fun _ => zeroQuadric)) vp vertex_count
            (List.range vertex_count) (fun _ => sentinel) (fun _ => 0) ?_ ?_ (vcells y)
          · intro i hi
            exact List.mem_range.mp hi
          · intro cell
            exact Or.inl rfl
        rcases hbnd with h | h
        · exact absurd h hns
        · exact h

/-- C2 witness: a concrete valid triangle satisfying the hypotheses. -/
theorem claim_C2_output_invariants_witness :
    ([0, 1, 2] : List ℕ).length % 3 = 0 ∧ (∀ x ∈ ([0, 1, 2] : List ℕ), x < 3) ∧
    (3 ≤ sentinel) ∧
    (((meshopt_simplify [0, 1, 2] (fun _ => ⟨0, 0, 0⟩) 3 3 0 (fun _ => 0)).1 % 3 = 0 ∧
      (meshopt_simplify [0, 1, 2] (fun _ => ⟨0, 0, 0⟩) 3 3 0 (fun _ => 0)).1 ≤
        ([0, 1, 2] : List ℕ).length ∧
      (meshopt_simplify [0, 1, 2] (fun _ => ⟨0, 0, 0⟩) 3 3 0 (fun _ => 0)).2.length =
        (meshopt_simplify [0, 1, 2] (fun _ => ⟨0, 0, 0⟩) 3 3 0 (fun _ => 0)).1 ∧
      (∀ x ∈ (meshopt_simplify [0, 1, 2] (fun _ => ⟨0, 0, 0⟩) 3 3 0 (fun _ => 0)).2,
        x < 3)) ∧
     ((meshopt_simplifySloppy [0, 1, 2] (fun _ => ⟨0, 0, 0⟩) 3 3 0).1 % 3 = 0 ∧
      (meshopt_simplifySloppy [0, 1, 2] (fun _ => ⟨0, 0, 0⟩) 3 3 0).1 ≤
        ([0, 1, 2] : List ℕ).length ∧
      (meshopt_simplifySloppy [0, 1, 2] (fun _ => ⟨0, 0, 0⟩) 3 3 0).2.length =
        (meshopt_simplifySloppy [0, 1, 2] (fun _ => ⟨0, 0, 0⟩) 3 3 0).1 ∧
      (∀ x ∈ (meshopt_simplifySloppy [0, 1, 2] (fun _ => ⟨0, 0, 0⟩) 3 3 0).2, x < 3))) :=
  ⟨by decide, by decide, by decide,
   claim_C2_output_invariants [0, 1, 2] (fun _ => ⟨0, 0, 0⟩) 3 3 0 (fun _ => 0)
     (by decide) (by decide) (by decide)⟩

/-- Whatever a pass produces went through remapIndexBuffer, so its triangles
have pairwise distinct corners. -/
theorem simplifyPass_distinct (vc tic : ℕ) (te : ℚ) (errBits : ℚ → ℕ)
    (remap wedge : ℕ → ℕ) (kind : ℕ → VertexKind) (vp : ℕ → Vector3) :
    ∀ st : SimplifyState,
      (simplifyPass vc tic te errBits remap wedge kind vp st).elim True
        (fun st1 => trianglesDistinctB st1.buffer = true) := by
  intro st
  obtain ⟨picked, hpk⟩ : ∃ p, pickEdgeCollapses remap kind st.loopv st.buffer = p := ⟨_, rfl⟩
  obtain ⟨ranked, hrk⟩ : ∃ r, rankEdgeCollapses vp st.quadrics remap picked = r := ⟨_, rfl⟩
  obtain ⟨order, hor⟩ :
      ∃ o, radixSortOrder (ranked.map (fun c => radixKey (errBits c.error))) = o := ⟨_, rfl⟩
  obtain ⟨eg, heg⟩ : ∃ e, (if (st.buffer.length - tic) / 3 / 2 < ranked.length then
      (ranked.getD (order.getD ((st.buffer.length - tic) / 3 / 2) 0) ⟨0, 0, 0⟩).error *
        kPassErrorBound
    else fltMax) = e := ⟨_, rfl⟩
  obtain ⟨el, hel⟩ : ∃ e, passErrorLimit eg te = e := ⟨_, rfl⟩
  obtain ⟨res, hres⟩ : ∃ r, performEdgeCollapses ranked remap wedge kind
      ((st.buffer.length - tic) / 3) el order (collapseInit st.quadrics) = r := ⟨_, rfl⟩
  rw [simplifyPass_eq vc tic te errBits remap wedge kind vp st picked ranked order
    ((st.buffer.length - tic) / 3) ((st.buffer.length - tic) / 3 / 2) eg el res
    hpk hrk hor rfl rfl heg hel hres]
  by_cases h0 : picked.length = 0
  · rw [if_pos h0]
    exact trivial
  · rw [if_neg h0]
    by_cases hec : res.edge_collapses = 0
    · rw [if_pos hec]
      exact trivial
    · rw [if_neg hec]
      show trianglesDistinctB (remapIndexBuffer res.collapse_remap st.buffer) = true
      exact remapIndexBuffer_distinct res.collapse_remap st.buffer

/-- simplifyLoop preserves corner distinctness of the buffer. -/
theorem simplifyLoop_distinct (vc tic : ℕ) (te : ℚ) (errBits : ℚ → ℕ)
    (remap wedge : ℕ → ℕ) (kind : ℕ → VertexKind) (vp : ℕ → Vector3) :
    ∀ (fuel : ℕ) (st : SimplifyState), trianglesDistinctB st.buffer = true →
      trianglesDistinctB (simplifyLoop vc tic te errBits remap wedge kind vp fuel
        st).buffer = true := by
  intro fuel
  induction fuel with
  | zero =>
    intro st h
    rw [simplifyLoop]
    exact h
  | succ n ih =>
    intro st h
    rw [simplifyLoop]
    by_cases hguard : tic < st.buffer.length
    · rw [if_pos hguard]
      rcases hp : simplifyPass vc tic te errBits remap wedge kind vp st with _ | st1
      · exact h
      · have hps := simplifyPass_distinct vc tic te errBits remap wedge kind vp st
        rw [hp] at hps
        exact ih st1 hps
    · rw [if_neg hguard]
      exact h

/-- C6 counterexample.  A degenerate input triangle, a full-size target: the
outer loop exits before any compaction pass runs and the degenerate triangle
is returned verbatim, violating "for every returned triangle, all three
indices differ". -/
theorem claim_C6_counterexample :
    trianglesDistinctB
      (meshopt_simplify [0, 0, 1] (fun _ => ⟨0, 0, 0⟩) 2 3 0 (fun _ => 0)).2 = false := by
  decide

/-- C6 amended.  Corner distinctness of the output holds unconditionally for
meshopt_simplifySloppy, and for meshopt_simplify whenever the input triangles
already have distinct corners; it fails for degenerate inputs returned before
any compaction pass (see the counterexample). -/
theorem claim_C6_corner_distinctness (indices : List ℕ) (positions : ℕ → Vector3)
    (vertex_count target_index_count : ℕ) (target_error : ℚ) (errBits : ℚ → ℕ) :
    (trianglesDistinctB indices = true →
      trianglesDistinctB (meshopt_simplify indices positions vertex_count
        target_index_count target_error errBits).2 = true) ∧
    trianglesDistinctB (meshopt_simplifySloppy indices positions vertex_count
      target_index_count target_error).2 = true := by
  constructor
  · intro hdist
    exact simplifyLoop_distinct vertex_count target_index_count target_error errBits
      (buildPositionRemap positions vertex_count).1
      (buildPositionRemap positions vertex_count).2
      (classifyVertices (buildEdgeAdjacency indices vertex_count)
        (buildPositionRemap positions vertex_count).1
        (buildPositionRemap positions vertex_count).2 vertex_count).1
      (rescalePositions positions vertex_count) (indices.length + 1)
      ⟨indices, fillEdgeQuadrics (rescalePositions positions vertex_count)
        (buildPositionRemap positions vertex_count).1
        (classifyVertices (buildEdgeAdjacency indices vertex_count)
          (buildPositionRemap positions vertex_count).1
          (buildPositionRemap positions vertex_count).2 vertex_count).1
        (classifyVertices (buildEdgeAdjacency indices vertex_count)
          (buildPositionRemap positions vertex_count).1
          (buildPositionRemap positions vertex_count).2 vertex_count).2 indices
        (fillFaceQuadrics (rescalePositions positions vertex_count)
          (buildPositionRemap positions vertex_count).1 indices (fun _ => zeroQuadric)),
       (classifyVertices (buildEdgeAdjacency indices vertex_count)
          (buildPositionRemap positions vertex_count).1
          (buildPositionRemap positions vertex_count).2 vertex_count).2⟩ hdist
  · by_cases h0 : target_index_count / 6 = 0
    · have heq : meshopt_simplifySloppy indices positions vertex_count target_index_count
          target_error = (0, []) := by
        rw [meshopt_simplifySloppy]
        exact if_pos h0
      rw [heq]
      rfl
    · obtain ⟨vp, h1⟩ : ∃ v, rescalePositions positions vertex_count = v := ⟨_, rfl⟩
      obtain ⟨ids, h2⟩ : ∃ f, (fun i => vertexId (vp i)) = f := ⟨_, rfl⟩
      obtain ⟨mask, h3⟩ : ∃ m, sloppyMask (approxMaskAux
          (fun p => countApprox ids vertex_count (sloppyMask p)
            (hashBuckets2 (target_index_count / 6 * 4)))
          (target_index_count / 6) 10 0) = m := ⟨_, rfl⟩
      obtain ⟨vcells, h4⟩ : ∃ f, (cellFillFold ids mask (hashBuckets2 vertex_count)
          (List.range vertex_count) (fun _ => ⟨sentinel, 0⟩) 0 (fun _ => 0)).2.2 = f :=
        ⟨_, rfl⟩
      obtain ⟨cr, h5⟩ : ∃ f, (cellRemapFold vcells
          (fillFaceQuadrics vp vcells indices (fun _ => zeroQuadric)) vp
          (List.range vertex_count) (fun _ => sentinel) (fun _ => 0)).1 = f := ⟨_, rfl⟩
      obtain ⟨out, h6⟩ : ∃ o, sloppyEmit vcells cr indices = o := ⟨_, rfl⟩
      rw [meshopt_simplifySloppy_eq indices positions vertex_count target_index_count
        target_error vp ids mask vcells cr out h0 h1 h2 h3 h4 h5 h6]
      show trianglesDistinctB out = true
      rw [← h6]
      exact sloppyEmit_distinct vcells cr indices

/-- C6 witness: a non-degenerate concrete input. -/
theorem claim_C6_corner_distinctness_witness :
    trianglesDistinctB [0, 1, 2] = true ∧
    ((trianglesDistinctB [0, 1, 2] = true →
      trianglesDistinctB (meshopt_simplify [0, 1, 2] (fun _ => ⟨0, 0, 0⟩) 3 3 0
        (fun _ => 0)).2 = true) ∧
     trianglesDistinctB (meshopt_simplifySloppy [0, 1, 2] (fun _ => ⟨0, 0, 0⟩) 3 3
       0).2 = true) :=
  ⟨by decide, claim_C6_corner_distinctness [0, 1, 2] (fun _ => ⟨0, 0, 0⟩) 3 3 0
    (fun _ => 0)⟩

/-- When the very first probed slot is empty or matches, hashLookup2 returns
it immediately. -/
theorem hashLookup2_first {T : Type} (table : ℕ → T) (buckets hashv : ℕ)
    (eqEmpty eqKey : T → Bool) (hb : 0 < buckets)
    (hhit : eqEmpty (table (hashv % buckets)) = true ∨
      eqKey (table (hashv % buckets)) = true) :
    hashLookup2 table buckets hashv eqEmpty eqKey = some (hashv % buckets) := by
  obtain ⟨m, rfl⟩ : ∃ m, buckets = m + 1 := ⟨buckets - 1, by omega⟩
  rw [hashLookup2, hashLookup2Aux]
  rcases hhit with he | hk
  · rw [if_pos he]
  · by_cases he : eqEmpty (table (hashv % (m + 1))) = true
    · rw [if_pos he]
    · rw [if_neg he, if_pos hk]

/-- An edge between position-coincident endpoints is never picked. -/
theorem pickEdge_nil (remap : ℕ → ℕ) (kind : ℕ → VertexKind) (loopv : ℕ → ℕ) (i0 i1 : ℕ)
    (h : remap i0 = remap i1) : pickEdge remap kind loopv i0 i1 = [] := by
  rw [pickEdge]
  exact if_pos h

/-- A buffer all of whose indices share one position class yields no candidate
collapses. -/
theorem pickEdgeCollapses_nil (remap : ℕ → ℕ) (kind : ℕ → VertexKind) (loopv : ℕ → ℕ) :
    ∀ buffer : List ℕ, (∀ x ∈ buffer, ∀ y ∈ buffer, remap x = remap y) →
      pickEdgeCollapses remap kind loopv buffer = []
  | [], _ => rfl
  | [a], _ => rfl
  | [a, b], _ => rfl
  | a :: b :: c :: rest, h => by
    rw [pickEdgeCollapses,
      pickEdge_nil remap kind loopv a b (h a (by simp) b (by simp)),
      pickEdge_nil remap kind loopv b c (h b (by simp) c (by simp)),
      pickEdge_nil remap kind loopv c a (h c (by simp) a (by simp)),
      pickEdgeCollapses_nil remap kind loopv rest
        (fun x hx y hy => h x (by simp [hx]) y (by simp [hy]))]
    rfl

/-- With one interned position, every further vertex resolves to the table
entry written by the first insertion. -/
theorem buildRemapFold_const_tail (p : Vector3) (bsize : ℕ) (hb : 0 < bsize) :
    ∀ (l : List ℕ) (remap : ℕ → ℕ) (j : ℕ),
      (buildRemapFold (fun _ => p) bsize l
        (Function.update (fun _ => sentinel) (posHash p % bsize) 0) remap).2 j =
      if j ∈ l then 0 else remap j
  | [], remap, j => by
    rw [buildRemapFold]
    simp
  | i :: rest, remap, j => by
    have hstep : buildRemapFold (fun _ => p) bsize (i :: rest)
        (Function.update (fun _ => sentinel) (posHash p % bsize) 0) remap =
        buildRemapFold (fun _ => p) bsize rest
          (Function.update (fun _ => sentinel) (posHash p % bsize) 0)
          (Function.update remap i
            (Function.update (fun _ => sentinel) (posHash p % bsize) 0
              (posHash p % bsize))) := by
      simp only [buildRemapFold]
      rw [hashLookup2_first _ bsize (posHash p) _ _ hb (Or.inr (by simp))]
      exact if_neg (by rw [Function.update_same]; decide)
    rw [hstep, Function.update_same,
      buildRemapFold_const_tail p bsize hb rest (Function.update remap i 0) j]
    by_cases hjr : j ∈ rest
    · rw [if_pos hjr, if_pos (List.mem_cons_of_mem _ hjr)]
    · rw [if_neg hjr]
      by_cases hji : j = i
      · rw [hji, Function.update_same, if_pos (List.mem_cons_self _ _)]
      · rw [Function.update_noteq hji,
          if_neg (fun hc => (List.mem_cons.mp hc).elim hji hjr)]

/-- With all positions equal, every vertex below vertex_count is remapped to
vertex 0 (the first vertex interned in the position table). -/
theorem buildPositionRemap_const (p : Vector3) (vc : ℕ) :
    ∀ i, i < vc → (buildPositionRemap (fun _ => p) vc).1 i = 0 := by
  intro i hi
  obtain ⟨n, rfl⟩ : ∃ n, vc = n + 1 := ⟨vc - 1, by omega⟩
  have hb : 0 < hashBuckets2 (n + 1) := pow_pos (by norm_num) _
  show (buildRemapFold (fun _ => p) (hashBuckets2 (n + 1)) (List.range (n + 1))
    (fun _ => sentinel) (fun u => u)).2 i = 0
  rw [List.range_succ_eq_map]
  have hstep0 : buildRemapFold (fun _ => p) (hashBuckets2 (n + 1))
      (0 :: List.map Nat.succ (List.range n)) (fun _ => sentinel) (fun u => u) =
      buildRemapFold (fun _ => p) (hashBuckets2 (n + 1)) (List.map Nat.succ (List.range n))
        (Function.update (fun _ => sentinel) (posHash p % hashBuckets2 (n + 1)) 0)
        (Function.update (fun u => u) 0 0) := by
    simp only [buildRemapFold]
    rw [hashLookup2_first _ (hashBuckets2 (n + 1)) (posHash p) _ _ hb (Or.inl (by simp))]
    exact if_pos trivial
  rw [hstep0, buildRemapFold_const_tail p (hashBuckets2 (n + 1)) hb
    (List.map Nat.succ (List.range n)) (Function.update (fun u => u) 0 0) i]
  by_cases hi0 : i = 0
  · subst hi0
    have h0mem : ¬(0 ∈ List.map Nat.succ (List.range n)) := by
      intro hc
      obtain ⟨m, _, hm⟩ := List.mem_map.mp hc
      exact Nat.succ_ne_zero m hm
    rw [if_neg h0mem, Function.update_same]
  · have hmem : i ∈ List.map Nat.succ (List.range n) :=
      List.mem_map.mpr ⟨i - 1, List.mem_range.mpr (by omega), by omega⟩
    rw [if_pos hmem]

/-- With all positions equal and inside the float range, the min/max scan
returns (p, p). -/
theorem minMaxFold_const (p : Vector3)
    (hx1 : -fltMax ≤ p.x) (hx2 : p.x ≤ fltMax) (hy1 : -fltMax ≤ p.y) (hy2 : p.y ≤ fltMax)
    (hz1 : -fltMax ≤ p.z) (hz2 : p.z ≤ fltMax) :
    ∀ n : ℕ, minMaxFold (fun _ => p) (n + 1) = (p, p) := by
  have hsucc : ∀ m : ℕ, minMaxFold (fun _ => p) (m + 1) =
      ((⟨if (minMaxFold (fun _ => p) m).1.x > p.x then p.x
          else (minMaxFold (fun _ => p) m).1.x,
        if (minMaxFold (fun _ => p) m).1.y > p.y then p.y
          else (minMaxFold (fun _ => p) m).1.y,
        if (minMaxFold (fun _ => p) m).1.z > p.z then p.z
          else (minMaxFold (fun _ => p) m).1.z⟩ : Vector3),
       (⟨if (minMaxFold (fun _ => p) m).2.x < p.x then p.x
          else (minMaxFold (fun _ => p) m).2.x,
        if (minMaxFold (fun _ => p) m).2.y < p.y then p.y
          else (minMaxFold (fun _ => p) m).2.y,
        if (minMaxFold (fun _ => p) m).2.z < p.z then p.z
          else (minMaxFold (fun _ => p) m).2.z⟩ : Vector3)) := by
    intro m
    simp only [minMaxFold, List.range_succ, List.foldl_append, List.foldl_cons,
      List.foldl_nil]
  intro n
  induction n with
  | zero =>
    rw [hsucc 0]
    have h00 : minMaxFold (fun _ => p) 0 =
        ((⟨fltMax, fltMax, fltMax⟩ : Vector3), (⟨-fltMax, -fltMax, -fltMax⟩ : Vector3)) :=
      rfl
    rw [h00]
    show ((⟨if fltMax > p.x then p.x else fltMax, if fltMax > p.y then p.y else fltMax,
        if fltMax > p.z then p.z else fltMax⟩ : Vector3),
      (⟨if -fltMax < p.x then p.x else -fltMax, if -fltMax < p.y then p.y else -fltMax,
        if -fltMax < p.z then p.z else -fltMax⟩ : Vector3)) = (p, p)
    have c1 : (if fltMax > p.x then p.x else fltMax) = p.x := by
      by_cases h : fltMax > p.x
      · rw [if_pos h]
      · rw [if_neg h]
        linarith
    have c2 : (if fltMax > p.y then p.y else fltMax) = p.y := by
      by_cases h : fltMax > p.y
      · rw [if_pos h]
      · rw [if_neg h]
        linarith
    have c3 : (if fltMax > p.z then p.z else fltMax) = p.z := by
      by_cases h : fltMax > p.z
      · rw [if_pos h]
      · rw [if_neg h]
        linarith
    have c4 : (if -fltMax < p.x then p.x else -fltMax) = p.x := by
      by_cases h : -fltMax < p.x
      · rw [if_pos h]
      · rw [if_neg h]
        linarith
    have c5 : (if -fltMax < p.y then p.y else -fltMax) = p.y := by
      by_cases h : -fltMax < p.y
      · rw [if_pos h]
      · rw [if_neg h]
        linarith
    have c6 : (if -fltMax < p.z then p.z else -fltMax) = p.z := by
      by_cases h : -fltMax < p.z
      · rw [if_pos h]
      · rw [if_neg h]
        linarith
    rw [c1, c2, c3, c4, c5, c6]
  | succ m ih =>
    rw [hsucc (m + 1), ih]
    show ((⟨if p.x > p.x then p.x else p.x, if p.y > p.y then p.y else p.y,
        if p.z > p.z then p.z else p.z⟩ : Vector3),
      (⟨if p.x < p.x then p.x else p.x, if p.y < p.y then p.y else p.y,
        if p.z < p.z then p.z else p.z⟩ : Vector3)) = (p, p)
    simp only [ite_self]

/-- Unfolding helper for rescalePositions, naming each intermediate of the
extent computation. -/
theorem rescalePositions_eq (positions : ℕ → Vector3) (vc : ℕ) (minv maxv : Vector3)
    (e1 e2 extent scale : ℚ)
    (h : minMaxFold positions vc = (minv, maxv))
    (h1 : (if maxv.x - minv.x < 0 then 0 else maxv.x - minv.x) = e1)
    (h2 : (if maxv.y - minv.y < e1 then e1 else maxv.y - minv.y) = e2)
    (h3 : (if maxv.z - minv.z < e2 then e2 else maxv.z - minv.z) = extent)
    (h4 : (if extent = 0 then 0 else 1 / extent) = scale) :
    rescalePositions positions vc = fun i =>
      ⟨((positions i).x - minv.x) * scale, ((positions i).y - minv.y) * scale,
        ((positions i).z - minv.z) * scale⟩ := by
  subst h1 h2 h3 h4
  rw [rescalePositions, h]

/-- With all positions equal (zero extent on every axis) the scale is 0 and
every rescaled position collapses to the minimum corner (0, 0, 0). -/
theorem rescalePositions_const (p : Vector3)
    (hx1 : -fltMax ≤ p.x) (hx2 : p.x ≤ fltMax) (hy1 : -fltMax ≤ p.y) (hy2 : p.y ≤ fltMax)
    (hz1 : -fltMax ≤ p.z) (hz2 : p.z ≤ fltMax) (vc : ℕ) (h0 : 0 < vc) :
    rescalePositions (fun _ => p) vc = fun _ => (⟨0, 0, 0⟩ : Vector3) := by
  obtain ⟨n, rfl⟩ : ∃ n, vc = n + 1 := ⟨vc - 1, by omega⟩
  rw [rescalePositions_eq (fun _ => p) (n + 1) p p 0 0 0 0
    (minMaxFold_const p hx1 hx2 hy1 hy2 hz1 hz2 n) (by norm_num) (by norm_num) (by norm_num)
    (by norm_num)]
  funext i
  show (⟨(p.x - p.x) * 0, (p.y - p.y) * 0, (p.z - p.z) * 0⟩ : Vector3) = ⟨0, 0, 0⟩
  simp

/-- The quantised grid coordinate of a zero component is 0. -/
theorem gridCoord_zero : gridCoord 0 = 0 := by
  show intOfFloat (0 * 1023.5 + 0.5) = 0
  rw [intOfFloat, if_neg (by norm_num)]
  rw [show (0 : ℚ) * 1023.5 + 0.5 = 1 / 2 by norm_num]
  rw [Int.floor_eq_zero_iff.mpr (by rw [Set.mem_Ico]; constructor <;> norm_num)]

/-- The packed cell id of the origin is 0. -/
theorem vertexId_zero : vertexId ⟨0, 0, 0⟩ = 0 := by
  show ((gridCoord 0).toNat <<< 20) ||| ((gridCoord 0).toNat <<< 10) |||
    (gridCoord 0).toNat = 0
  rw [gridCoord_zero]
  decide

/-- When every vertex lands in cell 0 the emitted buffer is empty: all
triangles degenerate onto the single cell representative. -/
theorem sloppyEmit_nil (vcells cr : ℕ → ℕ) (hz : ∀ j, vcells j = 0) :
    ∀ l : List ℕ, sloppyEmit vcells cr l = []
  | [] => rfl
  | [a] => rfl
  | [a, b] => rfl
  | a :: b :: c :: rest => by
    have hd : ¬(cr (vcells a) ≠ cr (vcells b) ∧ cr (vcells a) ≠ cr (vcells c) ∧
        cr (vcells b) ≠ cr (vcells c)) := by
      intro hcon
      exact hcon.1 (by rw [hz a, hz b])
    rw [sloppyEmit, if_neg hd]
    exact sloppyEmit_nil vcells cr hz rest

/-- Tail of the single-cell fill: with cell 0 interned, every further vertex
is assigned cell 0. -/
theorem cellFillFold_zero_tail (ids : ℕ → ℕ) (mask tsize : ℕ) (ht : 0 < tsize)
    (hids : ∀ i, Nat.land (ids i) mask = 0) :
    ∀ (l : List ℕ) (vcells : ℕ → ℕ), (∀ j, vcells j = 0) →
      ∀ j, (cellFillFold ids mask tsize l
        (Function.update (fun _ => (⟨sentinel, 0⟩ : HashCell)) (cellHash 0 % tsize)
          ⟨0, 0⟩) 1 vcells).2.2 j = 0
  | [], vcells, hv, j => by
    rw [cellFillFold]
    exact hv j
  | i :: rest, vcells, hv, j => by
    have hstep : cellFillFold ids mask tsize (i :: rest)
        (Function.update (fun _ => (⟨sentinel, 0⟩ : HashCell)) (cellHash 0 % tsize) ⟨0, 0⟩)
        1 vcells =
        cellFillFold ids mask tsize rest
          (Function.update (fun _ => (⟨sentinel, 0⟩ : HashCell)) (cellHash 0 % tsize)
            ⟨0, 0⟩) 1
          (Function.update vcells i
            ((Function.update (fun _ => (⟨sentinel, 0⟩ : HashCell)) (cellHash 0 % tsize)
              ⟨0, 0⟩ (cellHash 0 % tsize)).cell)) := by
      simp only [cellFillFold]
      rw [hids i]
      rw [hashLookup2_first _ tsize (cellHash 0) _ _ ht (Or.inr (by simp))]
      exact if_neg (by rw [Function.update_same]; decide)
    rw [hstep]
    refine cellFillFold_zero_tail ids mask tsize ht hids rest _ ?_ j
    intro k
    by_cases hk : k = i
    · rw [hk, Function.update_same]
      rfl
    · rw [Function.update_noteq hk]
      exact hv k

/-- With all cell ids equal to 0, cellFillFold assigns every vertex cell 0. -/
theorem cellFillFold_const (ids : ℕ → ℕ) (mask tsize : ℕ) (ht : 0 < tsize)
    (hids : ∀ i, Nat.land (ids i) mask = 0) (i0 : ℕ) (l : List ℕ) (vc0 : ℕ → ℕ)
    (hv : ∀ j, vc0 j = 0) :
    ∀ j, (cellFillFold ids mask tsize (i0 :: l) (fun _ => ⟨sentinel, 0⟩) 0 vc0).2.2 j = 0 := by
  intro j
  have hstep : cellFillFold ids mask tsize (i0 :: l) (fun _ => ⟨sentinel, 0⟩) 0 vc0 =
      cellFillFold ids mask tsize l
        (Function.update (fun _ => (⟨sentinel, 0⟩ : HashCell)) (cellHash 0 % tsize) ⟨0, 0⟩)
        1 (Function.update vc0 i0 0) := by
    simp only [cellFillFold]
    rw [hids i0]
    rw [hashLookup2_first _ tsize (cellHash 0) _ _ ht (Or.inl (by simp))]
    exact if_pos trivial
  rw [hstep]
  refine cellFillFold_zero_tail ids mask tsize ht hids l _ ?_ j
  intro k
  by_cases hk : k = i0
  · rw [hk, Function.update_same]
  · rw [Function.update_noteq hk]
    exact hv k

/-- When a pass breaks (no candidates or zero collapses), the loop returns its
state unchanged, whatever the fuel. -/
theorem simplifyLoop_of_pass_none (vc tic : ℕ) (te : ℚ) (errBits : ℚ → ℕ)
    (remap wedge : ℕ → ℕ) (kind : ℕ → VertexKind) (vp : ℕ → Vector3) :
    ∀ (fuel : ℕ) (st : SimplifyState),
      simplifyPass vc tic te errBits remap wedge kind vp st = none →
      simplifyLoop vc tic te errBits remap wedge kind vp fuel st = st
  | 0, st, _ => by rw [simplifyLoop]
  | fuel + 1, st, h => by
    rw [simplifyLoop]
    by_cases hguard : tic < st.buffer.length
    · rw [if_pos hguard, h]
    · rw [if_neg hguard]

/-- On a mesh whose positions all coincide, meshopt_simplify returns the
input unchanged for every target: all indices share one position class, so
pickEdgeCollapses finds no candidate edge and the loop breaks at once. -/
theorem meshopt_simplify_const (p : Vector3) (indices : List ℕ) (vc tic : ℕ) (te : ℚ)
    (errBits : ℚ → ℕ) (hidx : ∀ x ∈ indices, x < vc) :
    meshopt_simplify indices (fun _ => p) vc tic te errBits = (indices.length, indices) := by
  have hrc := buildPositionRemap_const p vc
  have hpick : pickEdgeCollapses (buildPositionRemap (fun _ => p) vc).1
      (classifyVertices (buildEdgeAdjacency indices vc)
        (buildPositionRemap (fun _ => p) vc).1
        (buildPositionRemap (fun _ => p) vc).2 vc).1
      (classifyVertices (buildEdgeAdjacency indices vc)
        (buildPositionRemap (fun _ => p) vc).1
        (buildPositionRemap (fun _ => p) vc).2 vc).2 indices = [] :=
    pickEdgeCollapses_nil _ _ _ indices (fun x hx y hy => by
      rw [hrc x (hidx x hx), hrc y (hidx y hy)])
  have hpass : simplifyPass vc tic te errBits
      (buildPositionRemap (fun _ => p) vc).1
      (buildPositionRemap (fun _ => p) vc).2
      (classifyVertices (buildEdgeAdjacency indices vc)
        (buildPositionRemap (fun _ => p) vc).1
        (buildPositionRemap (fun _ => p) vc).2 vc).1
      (rescalePositions (fun _ => p) vc)
      ⟨indices, fillEdgeQuadrics (rescalePositions (fun _ => p) vc)
        (buildPositionRemap (fun _ => p) vc).1
        (classifyVertices (buildEdgeAdjacency indices vc)
          (buildPositionRemap (fun _ => p) vc).1
          (buildPositionRemap (fun _ => p) vc).2 vc).1
        (classifyVertices (buildEdgeAdjacency indices vc)
          (buildPositionRemap (fun _ => p) vc).1
          (buildPositionRemap (fun _ => p) vc).2 vc).2 indices
        (fillFaceQuadrics (rescalePositions (fun _ => p) vc)
          (buildPositionRemap (fun _ => p) vc).1 indices (fun _ => zeroQuadric)),
       (classifyVertices (buildEdgeAdjacency indices vc)
          (buildPositionRemap (fun _ => p) vc).1
          (buildPositionRemap (fun _ => p) vc).2 vc).2⟩ = none := by
    rw [simplifyPass_eq vc tic te errBits
      (buildPositionRemap (fun _ => p) vc).1
      (buildPositionRemap (fun _ => p) vc).2
      (classifyVertices (buildEdgeAdjacency indices vc)
        (buildPositionRemap (fun _ => p) vc).1
        (buildPositionRemap (fun _ => p) vc).2 vc).1
      (rescalePositions (fun _ => p) vc) _ [] [] _ _ _ _ _ _
      hpick rfl rfl rfl rfl rfl rfl rfl]
    exact if_pos rfl
  have hloop := simplifyLoop_of_pass_none vc tic te errBits
    (buildPositionRemap (fun _ => p) vc).1
    (buildPositionRemap (fun _ => p) vc).2
    (classifyVertices (buildEdgeAdjacency indices vc)
      (buildPositionRemap (fun _ => p) vc).1
      (buildPositionRemap (fun _ => p) vc).2 vc).1
    (rescalePositions (fun _ => p) vc) (indices.length + 1) _ hpass
  show ((simplifyLoop vc tic te errBits
      (buildPositionRemap (fun _ => p) vc).1
      (buildPositionRemap (fun _ => p) vc).2
      (classifyVertices (buildEdgeAdjacency indices vc)
        (buildPositionRemap (fun _ => p) vc).1
        (buildPositionRemap (fun _ => p) vc).2 vc).1
      (rescalePositions (fun _ => p) vc) (indices.length + 1)
      ⟨indices, fillEdgeQuadrics (rescalePositions (fun _ => p) vc)
        (buildPositionRemap (fun _ => p) vc).1
        (classifyVertices (buildEdgeAdjacency indices vc)
          (buildPositionRemap (fun _ => p) vc).1
          (buildPositionRemap (fun _ => p) vc).2 vc).1
        (classifyVertices (buildEdgeAdjacency indices vc)
          (buildPositionRemap (fun _ => p) vc).1
          (buildPositionRemap (fun _ => p) vc).2 vc).2 indices
        (fillFaceQuadrics (rescalePositions (fun _ => p) vc)
          (buildPositionRemap (fun _ => p) vc).1 indices (fun _ => zeroQuadric)),
       (classifyVertices (buildEdgeAdjacency indices vc)
          (buildPositionRemap (fun _ => p) vc).1
          (buildPositionRemap (fun _ => p) vc).2 vc).2⟩).buffer.length,
    (simplifyLoop vc tic te errBits
      (buildPositionRemap (fun _ => p) vc).1
      (buildPositionRemap (fun _ => p) vc).2
      (classifyVertices (buildEdgeAdjacency indices vc)
        (buildPositionRemap (fun _ => p) vc).1
        (buildPositionRemap (fun _ => p) vc).2 vc).1
      (rescalePositions (fun _ => p) vc) (indices.length + 1)
      ⟨indices, fillEdgeQuadrics (rescalePositions (fun _ => p) vc)
        (buildPositionRemap (fun _ => p) vc).1
        (classifyVertices (buildEdgeAdjacency indices vc)
          (buildPositionRemap (fun _ => p) vc).1
          (buildPositionRemap (fun _ => p) vc).2 vc).1
        (classifyVertices (buildEdgeAdjacency indices vc)
          (buildPositionRemap (fun _ => p) vc).1
          (buildPositionRemap (fun _ => p) vc).2 vc).2 indices
        (fillFaceQuadrics (rescalePositions (fun _ => p) vc)
          (buildPositionRemap (fun _ => p) vc).1 indices (fun _ => zeroQuadric)),
       (classifyVertices (buildEdgeAdjacency indices vc)
          (buildPositionRemap (fun _ => p) vc).1
          (buildPositionRemap (fun _ => p) vc).2 vc).2⟩).buffer) =
    (indices.length, indices)
  rw [hloop]

/-- On a mesh whose positions all coincide, meshopt_simplifySloppy returns 0:
with zero extent every rescaled position is the origin, every vertex lands in
grid cell 0, and all emitted triangles degenerate onto the single cell
representative. -/
theorem meshopt_simplifySloppy_const (p : Vector3) (indices : List ℕ) (vc tic : ℕ)
    (te : ℚ) (h0 : 0 < vc)
    (hx1 : -fltMax ≤ p.x) (hx2 : p.x ≤ fltMax) (hy1 : -fltMax ≤ p.y) (hy2 : p.y ≤ fltMax)
    (hz1 : -fltMax ≤ p.z) (hz2 : p.z ≤ fltMax) :
    meshopt_simplifySloppy indices (fun _ => p) vc tic te = (0, []) := by
  have hresc := rescalePositions_const p hx1 hx2 hy1 hy2 hz1 hz2 vc h0
  by_cases hnd : tic / 6 = 0
  · rw [meshopt_simplifySloppy]
    exact if_pos hnd
  · obtain ⟨n, rfl⟩ : ∃ n, vc = n + 1 := ⟨vc - 1, by omega⟩
    have hids : (fun i => vertexId ((fun _ : ℕ => (⟨0, 0, 0⟩ : Vector3)) i)) =
        (fun _ : ℕ => (0 : ℕ)) := by
      funext i
      show vertexId ⟨0, 0, 0⟩ = 0
      exact vertexId_zero
    obtain ⟨mask, h3⟩ : ∃ m, sloppyMask (approxMaskAux
        (fun q => countApprox (fun _ : ℕ => (0 : ℕ)) (n + 1) (sloppyMask q)
          (hashBuckets2 (tic / 6 * 4)))
        (tic / 6) 10 0) = m := ⟨_, rfl⟩
    obtain ⟨vcells, h4⟩ : ∃ f, (cellFillFold (fun _ : ℕ => (0 : ℕ)) mask
        (hashBuckets2 (n + 1)) (List.range (n + 1)) (fun _ => ⟨sentinel, 0⟩) 0
        (fun _ => 0)).2.2 = f := ⟨_, rfl⟩
    obtain ⟨cr, h5⟩ : ∃ f, (cellRemapFold vcells
        (fillFaceQuadrics (fun _ : ℕ => (⟨0, 0, 0⟩ : Vector3)) vcells indices
          (fun _ => zeroQuadric)) (fun _ : ℕ => (⟨0, 0, 0⟩ : Vector3))
        (List.range (n + 1)) (fun _ => sentinel) (fun _ => 0)).1 = f := ⟨_, rfl⟩
    have hvz : ∀ j, vcells j = 0 := by
      intro j
      rw [← h4, List.range_succ_eq_map]
      exact cellFillFold_const (fun _ : ℕ => (0 : ℕ)) mask (hashBuckets2 (n + 1))
        (pow_pos (by norm_num) _) (fun i => Nat.zero_and mask) 0
        (List.map Nat.succ (List.range n)) (fun _ => 0) (fun k => rfl) j
    have hout : sloppyEmit vcells cr indices = [] := sloppyEmit_nil vcells cr hvz indices
    rw [meshopt_simplifySloppy_eq indices (fun _ => p) (n + 1) tic te
      (fun _ : ℕ => (⟨0, 0, 0⟩ : Vector3)) (fun _ : ℕ => (0 : ℕ)) mask vcells cr [] hnd
      hresc hids h3 h4 h5 hout]
    rfl

/-- C7 counterexample.  All positions coincide (zero extent on every axis)
and the target is below index_count, yet meshopt_simplify returns
index_count, not 0: pickEdgeCollapses skips every edge whose endpoints share
a position class, so no collapse is ever found and the loop breaks with the
input intact.  Only the sloppy path returns 0 here. -/
theorem claim_C7_counterexample :
    (meshopt_simplify [0, 1, 2] (fun _ => ⟨1, 2, 3⟩) 3 0 0 (fun _ => 0)).1 = 3 ∧
    (meshopt_simplify [0, 1, 2] (fun _ => ⟨1, 2, 3⟩) 3 0 0 (fun _ => 0)).1 ≠ 0 := by
  have h := meshopt_simplify_const ⟨1, 2, 3⟩ [0, 1, 2] 3 0 0 (fun _ => 0) (by decide)
  rw [h]
  exact ⟨rfl, by decide⟩

/-- C7 amended.  For coincident positions (inside the float range) the
rescaled positions all collapse to the minimum corner with scale 0, and for
an empty mesh both entry points return 0; but on a coincident-position mesh
only meshopt_simplifySloppy returns 0 — meshopt_simplify returns the input
unchanged (see the counterexample), because no edge with coincident endpoint
classes is ever picked for collapse. -/
theorem claim_C7_zero_extent (p : Vector3) (indices : List ℕ) (positions : ℕ → Vector3)
    (vertex_count target_index_count : ℕ) (target_error : ℚ) (errBits : ℚ → ℕ)
    (h0 : 0 < vertex_count) (hidx : ∀ x ∈ indices, x < vertex_count)
    (hx1 : -fltMax ≤ p.x) (hx2 : p.x ≤ fltMax) (hy1 : -fltMax ≤ p.y) (hy2 : p.y ≤ fltMax)
    (hz1 : -fltMax ≤ p.z) (hz2 : p.z ≤ fltMax) :
    rescalePositions (fun _ => p) vertex_count = (fun _ => ⟨0, 0, 0⟩) ∧
    meshopt_simplify indices (fun _ => p) vertex_count target_index_count target_error
      errBits = (indices.length, indices) ∧
    meshopt_simplifySloppy indices (fun _ => p) vertex_count target_index_count
      target_error = (0, []) ∧
    meshopt_simplify [] positions vertex_count target_index_count target_error errBits =
      (0, []) ∧
    meshopt_simplifySloppy [] positions vertex_count target_index_count target_error =
      (0, []) := by
  refine ⟨rescalePositions_const p hx1 hx2 hy1 hy2 hz1 hz2 vertex_count h0,
    meshopt_simplify_const p indices vertex_count target_index_count target_error errBits
      hidx,
    meshopt_simplifySloppy_const p indices vertex_count target_index_count target_error h0
      hx1 hx2 hy1 hy2 hz1 hz2, ?_, ?_⟩
  · simp [meshopt_simplify, simplifyLoop]
  · by_cases hnd : target_index_count / 6 = 0
    · rw [meshopt_simplifySloppy]
      exact if_pos hnd
    · rw [meshopt_simplifySloppy_eq [] positions vertex_count target_index_count
        target_error _ _ _ _ _ [] hnd rfl rfl rfl rfl rfl rfl]
      rfl

/-- C7 witness: a concrete coincident-position triangle inside the float
range. -/
theorem claim_C7_zero_extent_witness :
    0 < 3 ∧ (∀ x ∈ ([0, 1, 2] : List ℕ), x < 3) ∧
    -fltMax ≤ (Vector3.mk 1 2 3).x ∧ (Vector3.mk 1 2 3).x ≤ fltMax ∧
    -fltMax ≤ (Vector3.mk 1 2 3).y ∧ (Vector3.mk 1 2 3).y ≤ fltMax ∧
    -fltMax ≤ (Vector3.mk 1 2 3).z ∧ (Vector3.mk 1 2 3).z ≤ fltMax ∧
    (rescalePositions (fun _ => Vector3.mk 1 2 3) 3 = (fun _ => ⟨0, 0, 0⟩) ∧
     meshopt_simplify [0, 1, 2] (fun _ => Vector3.mk 1 2 3) 3 0 0 (fun _ => 0) =
       (([0, 1, 2] : List ℕ).length, [0, 1, 2]) ∧
     meshopt_simplifySloppy [0, 1, 2] (fun _ => Vector3.mk 1 2 3) 3 0 0 = (0, []) ∧
     meshopt_simplify [] (fun _ => Vector3.mk 4 5 6) 3 0 0 (fun _ => 0) = (0, []) ∧
     meshopt_simplifySloppy [] (fun _ => Vector3.mk 4 5 6) 3 0 0 = (0, [])) :=
  ⟨by norm_num, by decide, by norm_num [fltMax], by norm_num [fltMax],
   by norm_num [fltMax], by norm_num [fltMax], by norm_num [fltMax], by norm_num [fltMax],
   claim_C7_zero_extent (Vector3.mk 1 2 3) [0, 1, 2] (fun _ => Vector3.mk 4 5 6) 3 0 0
     (fun _ => 0) (by norm_num) (by decide) (by norm_num [fltMax]) (by norm_num [fltMax])
     (by norm_num [fltMax]) (by norm_num [fltMax]) (by norm_num [fltMax])
     (by norm_num [fltMax])⟩

end Meshopt
